import Mathlib

/-!
# QuadTree of `leaflet-maskcanvas` (`dist/L.GridLayer.MaskCanvas.js`)

A shallow embedding of the quadtree that the mask-canvas layer uses as its
spatial index, followed by theorems about it.

Conventions of the embedding

* Coordinates and extents are integer-valued numbers, held in fields of type
  `Int`.  The numbers of the source are IEEE 754 double-precision values: the
  result of a sum is rounded to 53 significant binary digits (to nearest, ties
  to even) and a result beyond the largest finite value is `Infinity`.  `dbl`
  is this rounding; a value `v` of the number type satisfies `dbl v = v`, as
  every integer up to `2^53` in magnitude does.  A sum `a + b` of the source
  is `dbl (a + b)`, and an operand of a comparison is read through `dbl`, which
  changes nothing on a value of the number type.  On fields that hold values
  of the number type the definitions compute what the source computes; they
  are total on `Int`.
* The only division of the source whose result is compared without flooring
  is `b.width / 2` in `_findIndex`.  Halving is exact in binary floating
  point and rounding commutes with doubling, so twice the rounded sum
  `b.x + b.width / 2` is `round53 (2 * b.x + b.width)`, against which twice
  the coordinate of the item is compared.
* `_depth`, `_maxDepth` and `_maxChildren` are natural numbers.  The value `0`
  passed to a constructor also stands for an omitted argument (both are falsy
  for the `if(maxDepth)` tests of the constructor).
* An object of the prototype chain `Node` has no `_stuckChildren` property
  (`none`); a `BoundsNode` owns one (`some list`).  The class of a node, and
  with it the method a call dispatches to, is read off that field.
* JavaScript arrays are lists, method calls that mutate the receiver return
  the new receiver, and the one recursion that is not structural (`insert`)
  carries a fuel argument counting the nesting of calls.
-/

namespace MaskCanvas

/-! ## Data model -/

/-- A rectangle object `{x, y, width, height}`: node bounds and query windows. -/
structure Bounds where
  x : Int
  y : Int
  width : Int
  height : Int
deriving DecidableEq, Repr

/-- An item handed to the index.  The index reads `x`, `y`, `width` and
`height`; `tag` stands for the rest of the object (its payload and identity). -/
structure Item where
  x : Int
  y : Int
  width : Int
  height : Int
  tag : Nat
deriving DecidableEq, Repr

/-- How a call ends: with a value, with the `TypeError` JavaScript raises when
a property of `undefined` is read, or with the fuel of the model used up. -/
inductive Outcome (α : Type) where
  | ok (value : α)
  | typeError
  | outOfFuel
deriving DecidableEq, Repr

/-- Sequencing of calls: the first abnormal end is the end of the whole. -/
def Outcome.bind {α β : Type} : Outcome α → (α → Outcome β) → Outcome β
  | .ok a, f => f a
  | .typeError, _ => .typeError
  | .outOfFuel, _ => .outOfFuel

/-- The fields of a `Node` / `BoundsNode` object. -/
inductive Node where
  | mk (_bounds : Bounds) (_depth _maxDepth _maxChildren : Nat)
      (children : List Item) (_stuckChildren : Option (List Item))
      (nodes : List Node)

def Node._bounds : Node → Bounds
  | .mk b _ _ _ _ _ _ => b

def Node._depth : Node → Nat
  | .mk _ d _ _ _ _ _ => d

def Node._maxDepth : Node → Nat
  | .mk _ _ md _ _ _ _ => md

def Node._maxChildren : Node → Nat
  | .mk _ _ _ mc _ _ _ => mc

def Node.children : Node → List Item
  | .mk _ _ _ _ c _ _ => c

def Node._stuckChildren : Node → Option (List Item)
  | .mk _ _ _ _ _ s _ => s

def Node.nodes : Node → List Node
  | .mk _ _ _ _ _ _ ns => ns

/-- Assignment to `this.children`. -/
def Node.setChildren : Node → List Item → Node
  | .mk b d md mc _ s ns, c => .mk b d md mc c s ns

/-- Assignment to `this._stuckChildren`. -/
def Node.setStuck : Node → Option (List Item) → Node
  | .mk b d md mc c _ ns, s => .mk b d md mc c s ns

/-- Assignment to `this.nodes`. -/
def Node.setNodes : Node → List Node → Node
  | .mk b d md mc c s _, ns => .mk b d md mc c s ns

/-- The test `this instanceof BoundsNode`. -/
def Node.isBoundsNode (n : Node) : Bool :=
  n._stuckChildren.isSome

def Node.TOP_LEFT : Nat := 0
def Node.TOP_RIGHT : Nat := 1
def Node.BOTTOM_LEFT : Nat := 2
def Node.BOTTOM_RIGHT : Nat := 3

/-! ## Constructors -/

/-- Embedding of `function Node(bounds, depth, maxDepth, maxChildren)`: a falsy argument
leaves the prototype default in place (`_depth = 0`, `_maxChildren = 4`,
`_maxDepth = 4`). -/
def Node.new (bounds : Bounds) (depth maxDepth maxChildren : Nat) : Node :=
  .mk bounds
    (if depth ≠ 0 then depth else 0)
    (if maxDepth ≠ 0 then maxDepth else 4)
    (if maxChildren ≠ 0 then maxChildren else 4)
    [] none []

/-- Embedding of `function BoundsNode(bounds, depth, maxChildren, maxDepth)`: the two last
parameters carry swapped names in the source but are forwarded to `Node` in
the same positions, so the third argument is still the depth cap. -/
def BoundsNode.new (bounds : Bounds) (depth maxChildren maxDepth : Nat) : Node :=
  (Node.new bounds depth maxChildren maxDepth).setStuck (some [])

/-- Embedding of `new this._classConstructor(bounds, depth, maxDepth, maxChildren)`. -/
def Node._classConstructor (n : Node) (bounds : Bounds)
    (depth maxDepth maxChildren : Nat) : Node :=
  if n.isBoundsNode then BoundsNode.new bounds depth maxDepth maxChildren
  else Node.new bounds depth maxDepth maxChildren

/-! ## Numbers -/

/-- The number of binary digits a natural number `a` has beyond 53, found by
halving (`fuel` bounds the number of halvings; `a` itself always suffices). -/
def ulpExp : Nat → Nat → Nat
  | 0, _ => 0
  | fuel + 1, a => if a < 9007199254740992 then 0 else ulpExp fuel (a / 2) + 1

/-- The multiple of `u` nearest to `a`; of two equally near multiples, the
one whose quotient by `u` is even. -/
def roundTo (u a : Nat) : Nat :=
  let q := a / u
  let r := a % u
  if 2 * r < u then q * u
  else if u < 2 * r then (q + 1) * u
  else if q % 2 = 0 then q * u else (q + 1) * u

/-- Rounding of a natural number to 53 significant binary digits. -/
def roundNat (a : Nat) : Nat :=
  roundTo (2 ^ ulpExp a a) a

/-- Rounding of an integer to 53 significant binary digits, to nearest, ties
to even: the rounding of double-precision arithmetic, without its bound on
the exponent. -/
def round53 (n : Int) : Int :=
  if 0 ≤ n then (roundNat n.toNat : Int) else -(roundNat (-n).toNat : Int)

/-- The integer `2^1024`, which stands for `Infinity` (and its opposite for
`-Infinity`): it lies above every finite value of the number type. -/
def INFINITY : Int := Int.ofNat (2 ^ 256 * 2 ^ 256 * 2 ^ 256 * 2 ^ 256)

/-- The value of the number type that an exact integer result is rounded to. -/
def dbl (n : Int) : Int :=
  let r := round53 n
  if INFINITY ≤ r then INFINITY else if r ≤ -INFINITY then -INFINITY else r

/-! ## Geometry -/

/-- Embedding of `QuadTree._isPointInsideBounds`. -/
def QuadTree._isPointInsideBounds (point : Item) (bounds : Bounds) : Bool :=
  decide (dbl point.x ≥ dbl bounds.x) &&
  decide (dbl point.x ≤ dbl (bounds.x + bounds.width)) &&
  decide (dbl point.y ≥ dbl bounds.y) &&
  decide (dbl point.y ≤ dbl (bounds.y + bounds.height))

/-- The rectangle an item occupies. -/
def Item.toBounds (i : Item) : Bounds :=
  ⟨i.x, i.y, i.width, i.height⟩

/-- Embedding of `QuadTree._isBoundOverlappingBound`. -/
def QuadTree._isBoundOverlappingBound (b1 b2 : Bounds) : Bool :=
  !(decide (dbl b1.x > dbl (b2.x + b2.width)) ||
    decide (dbl b2.x > dbl (b1.x + b1.width)) ||
    decide (dbl b1.y > dbl (b2.y + b2.height)) ||
    decide (dbl b2.y > dbl (b1.y + b1.height)))

/-- Embedding of `Node.prototype.collidesWith`. -/
def Node.collidesWith (n : Node) (bounds : Bounds) : Bool :=
  let b1 := n._bounds
  let b2 := bounds
  !(decide (dbl b1.x > dbl (b2.x + b2.width)) ||
    decide (dbl b2.x > dbl (b1.x + b1.width)) ||
    decide (dbl b1.y > dbl (b2.y + b2.height)) ||
    decide (dbl b2.y > dbl (b1.y + b1.height)))

/-- Embedding of `Node.prototype._findIndex`.  `item.x > b.x + b.width / 2` compares the
item's coordinate with the rounded sum; both sides are doubled here, twice
the rounded sum being `round53 (2 * b.x + b.width)`. -/
def Node._findIndex (n : Node) (item : Item) : Nat :=
  let b := n._bounds
  let left := if 2 * dbl item.x > round53 (2 * b.x + b.width) then false else true
  let top := if 2 * dbl item.y > round53 (2 * b.y + b.height) then false else true
  if left then
    if !top then Node.BOTTOM_LEFT else Node.TOP_LEFT
  else
    if top then Node.TOP_RIGHT else Node.BOTTOM_RIGHT

/-- The conversion `v | 0` applied to a number whose fractional part has
already been dropped: reduction modulo `2^32` into the signed 32-bit range. -/
def toInt32 (v : Int) : Int :=
  (v + 2147483648) % 4294967296 - 2147483648

/-- The expression `(w / 2) | 0`: truncation of the half toward zero, then the 32-bit wrap. -/
def halfFloor (w : Int) : Int :=
  toInt32 (Int.tdiv w 2)

/-- Embedding of `Node.prototype.subdivide`: the four quadrants are written to the indices
`0..3` of `this.nodes`. -/
def Node.subdivide (n : Node) : Node :=
  let depth := n._depth + 1
  let bx := n._bounds.x
  let by_ := n._bounds.y
  let b_w_h := halfFloor n._bounds.width
  let b_h_h := halfFloor n._bounds.height
  let bx_b_w_h := dbl (bx + b_w_h)
  let by_b_h_h := dbl (by_ + b_h_h)
  n.setNodes
    ([ n._classConstructor ⟨bx, by_, b_w_h, b_h_h⟩ depth n._maxDepth n._maxChildren,
       n._classConstructor ⟨bx_b_w_h, by_, b_w_h, b_h_h⟩ depth n._maxDepth n._maxChildren,
       n._classConstructor ⟨bx, by_b_h_h, b_w_h, b_h_h⟩ depth n._maxDepth n._maxChildren,
       n._classConstructor ⟨bx_b_w_h, by_b_h_h, b_w_h, b_h_h⟩ depth n._maxDepth n._maxChildren ]
      ++ n.nodes.drop 4)

/-! ## Node operations -/

/-- The loop `for(i = 0; i < len; i++) this.insert(this.children[i])`, given
the method `ins` the calls dispatch to.  The receiver has just been
subdivided, so the calls take the branch for internal nodes, which never
writes `this.children`: the items read are those of the list at loop entry. -/
def reinsertLoop (ins : Node → Item → Outcome Node) : List Item → Node → Outcome Node
  | [], n => .ok n
  | item :: rest, n => (ins n item).bind (reinsertLoop ins rest)

/-- The method call `node.insert(item)`: `Node.prototype.insert` for a plain
`Node`, `BoundsNode.prototype.insert` for a `BoundsNode`.  Reading
`this.nodes[index]` past the end of the array gives `undefined`, whose
`insert` cannot be called. -/
def Node.insert : Nat → Node → Item → Outcome Node
  | 0, _, _ => .outOfFuel
  | fuel + 1, n, item =>
    match n._stuckChildren with
    | none =>
      -- Node.prototype.insert
      if n.nodes.length ≠ 0 then
        let index := n._findIndex item
        match n.nodes[index]? with
        | none => .typeError
        | some child =>
          (Node.insert fuel child item).bind
            (fun child1 => .ok (n.setNodes (n.nodes.set index child1)))
      else
        let n1 := n.setChildren (n.children ++ [item])
        let len := n1.children.length
        if !(decide (n1._depth ≥ n1._maxDepth)) && decide (len > n1._maxChildren) then
          let n2 := n1.subdivide
          (reinsertLoop (Node.insert fuel) (n2.children.take len) n2).bind
            (fun n3 => .ok (n3.setChildren (n3.children.take 0)))
        else .ok n1
    | some stuck =>
      -- BoundsNode.prototype.insert
      if n.nodes.length ≠ 0 then
        let index := n._findIndex item
        match n.nodes[index]? with
        | none => .typeError
        | some node =>
          if decide (dbl item.x ≥ dbl node._bounds.x) &&
              decide (dbl (item.x + item.width) ≤ dbl (node._bounds.x + node._bounds.width)) &&
              decide (dbl item.y ≥ dbl node._bounds.y) &&
              decide (dbl (item.y + item.height) ≤
                dbl (node._bounds.y + node._bounds.height)) then
            (Node.insert fuel node item).bind
              (fun node1 => .ok (n.setNodes (n.nodes.set index node1)))
          else
            .ok (n.setStuck (some (stuck ++ [item])))
      else
        let n1 := n.setChildren (n.children ++ [item])
        let len := n1.children.length
        if decide (n1._depth < n1._maxDepth) && decide (len > n1._maxChildren) then
          let n2 := n1.subdivide
          (reinsertLoop (Node.insert fuel) (n2.children.take len) n2).bind
            (fun n3 => .ok (n3.setChildren (n3.children.take 0)))
        else .ok n1

/-- What `[].concat(v)` appends for the value of `this._stuckChildren`: the
elements of an array, or the value itself when it is `undefined`.  An entry
`none` of a result list is the value `undefined`. -/
def concatValue : Option (List Item) → List (Option Item)
  | some arr => arr.map some
  | none => [none]

mutual
/-- Embedding of `Node.prototype.retrieveInBounds`, inherited unchanged by `BoundsNode`. -/
def Node.retrieveInBounds : Node → Bounds → List (Option Item)
  | .mk b d md mc children stuck nodes, bounds =>
    if (Node.mk b d md mc children stuck nodes).collidesWith bounds then
      let result := [] ++ concatValue stuck
      if children.length ≠ 0 then
        result ++ children.map some
      else
        if nodes.length ≠ 0 then
          result ++ retrieveInBoundsLoop nodes bounds
        else result
    else []
/-- The loop `result = result.concat(this.nodes[i].retrieveInBounds(bounds))`. -/
def retrieveInBoundsLoop : List Node → Bounds → List (Option Item)
  | [], _ => []
  | n :: rest, bounds => n.retrieveInBounds bounds ++ retrieveInBoundsLoop rest bounds
end

mutual
/-- The method call `node.retrieve(item)`.  `out` is the content of the array
`BoundsNode.prototype._out`, the one scratch array every `BoundsNode` shares;
the result is the content of the array the call returns, paired with the
content of the scratch array afterwards.

`Node.prototype.retrieve` returns the direct list of the leaf it reaches.
`BoundsNode.prototype.retrieve` empties the scratch array, appends to it what
the child returns (read only once the child has returned), then its own
`_stuckChildren` and `children`, and returns the scratch array itself. -/
def Node.retrieve : Node → Item → List Item → Outcome (List Item × List Item)
  | .mk b d md mc children stuck nodes, item, out =>
    match stuck with
    | none =>
      -- Node.prototype.retrieve
      if nodes.length ≠ 0 then
        retrieveAt nodes ((Node.mk b d md mc children stuck nodes)._findIndex item) item out
      else .ok (children, out)
    | some stuckChildren =>
      -- BoundsNode.prototype.retrieve
      let out0 := out.take 0
      let afterChild : Outcome (List Item) :=
        if nodes.length ≠ 0 then
          (retrieveAt nodes ((Node.mk b d md mc children stuck nodes)._findIndex item) item out0).bind
            (fun r => .ok (r.2 ++ r.1))
        else .ok out0
      afterChild.bind (fun out1 =>
        let out2 := out1 ++ stuckChildren
        let out3 := out2 ++ children
        .ok (out3, out3))
/-- The call `nodes[index].retrieve(item)`. -/
def retrieveAt : List Node → Nat → Item → List Item → Outcome (List Item × List Item)
  | [], _, _, _ => .typeError
  | n :: _, 0, item, out => n.retrieve item out
  | _ :: rest, index + 1, item, out => retrieveAt rest index item out
end

mutual
/-- The method call `node.clear()`: `Node.prototype.clear` or
`BoundsNode.prototype.clear`.  Setting `length = 0` keeps no element. -/
def Node.clear : Node → Node
  | .mk b d md mc children stuck nodes =>
    match stuck with
    | none =>
      -- Node.prototype.clear
      .mk b d md mc (children.take 0) none ((clearLoop nodes).take 0)
    | some stuckChildren =>
      -- BoundsNode.prototype.clear
      if nodes.length = 0 then
        .mk b d md mc (children.take 0) (some (stuckChildren.take 0)) nodes
      else
        .mk b d md mc (children.take 0) (some (stuckChildren.take 0)) ((clearLoop nodes).take 0)
/-- The loop `for(i = 0; i < len; i++) this.nodes[i].clear()`. -/
def clearLoop : List Node → List Node
  | [] => []
  | n :: rest => n.clear :: clearLoop rest
end

/-! ## QuadTree -/

/-- A `QuadTree` object: its only own property is `root`. -/
structure QuadTree where
  root : Node

/-- Embedding of `function QuadTree(bounds, pointQuad, maxDepth, maxChildren)`. -/
def QuadTree.new (bounds : Bounds) (pointQuad : Bool) (maxDepth maxChildren : Nat) : QuadTree :=
  if pointQuad then ⟨Node.new bounds 0 maxDepth maxChildren⟩
  else ⟨BoundsNode.new bounds 0 maxDepth maxChildren⟩

/-- The argument of `QuadTree.prototype.insert`: one item or an array of items. -/
inductive ItemOrArray where
  | item (i : Item)
  | array (items : List Item)

/-- The loop `for(i = 0; i < len; i++) this.root.insert(item[i])`. -/
def insertLoop (fuel : Nat) : List Item → Node → Outcome Node
  | [], root => .ok root
  | i :: rest, root => (root.insert fuel i).bind (insertLoop fuel rest)

/-- Embedding of `QuadTree.prototype.insert`. -/
def QuadTree.insert (fuel : Nat) (t : QuadTree) : ItemOrArray → Outcome QuadTree
  | .array items => (insertLoop fuel items t.root).bind (fun r => .ok ⟨r⟩)
  | .item i => (t.root.insert fuel i).bind (fun r => .ok ⟨r⟩)

/-- Embedding of `QuadTree.prototype.clear`. -/
def QuadTree.clear (t : QuadTree) : QuadTree :=
  ⟨t.root.clear⟩

/-- Embedding of `QuadTree.prototype.retrieve`: a copy (`slice(0)`) of what the root
returns; `out` is what earlier calls left in the shared scratch array. -/
def QuadTree.retrieve (t : QuadTree) (item : Item) (out : List Item) : Outcome (List Item) :=
  (t.root.retrieve item out).bind (fun r => .ok r.1)

/-- The loop of `QuadTree._filterResults` over `treeResult` with the test of
the branch taken; reading `.x` of an `undefined` entry raises a `TypeError`. -/
def filterLoop (test : Item → Bounds → Bool) : List (Option Item) → Bounds → Outcome (List Item)
  | [], _ => .ok []
  | none :: _, _ => .typeError
  | some node :: rest, bounds =>
    (filterLoop test rest bounds).bind
      (fun kept => .ok (if test node bounds then node :: kept else kept))

/-- Embedding of `QuadTree._filterResults`, a function stored on the constructor.
`thisRoot` is the value of `this.root` inside it (`none` for `undefined`);
the branch taken depends on `this.root instanceof BoundsNode`. -/
def QuadTree._filterResults (thisRoot : Option Node) (treeResult : List (Option Item))
    (bounds : Bounds) : Outcome (List Item) :=
  if (match thisRoot with
      | some r => r.isBoundsNode
      | none => false) then
    filterLoop (fun node b => QuadTree._isBoundOverlappingBound node.toBounds b) treeResult bounds
  else
    filterLoop QuadTree._isPointInsideBounds treeResult bounds

/-- Embedding of `QuadTree.prototype.retrieveInBounds`.  The filter is invoked as
`QuadTree._filterResults(treeResult, bounds)`, so its `this` is the
constructor function `QuadTree`, which has no property `root` (the tree's
root is a property of the instance): `this.root` is `undefined` there. -/
def QuadTree.retrieveInBounds (t : QuadTree) (bounds : Bounds) : Outcome (List Item) :=
  let treeResult := t.root.retrieveInBounds bounds
  QuadTree._filterResults none treeResult bounds


/-! ## Vocabulary of the statements -/

mutual
/-- Every node of the tree below (and including) a node, in preorder. -/
def Node.allNodes : Node → List Node
  | .mk b d md mc ch st nodes => .mk b d md mc ch st nodes :: allNodesLoop nodes
/-- The nodes of a list of subtrees. -/
def allNodesLoop : List Node → List Node
  | [] => []
  | n :: rest => n.allNodes ++ allNodesLoop rest
end

/-- The straddling list of a node, empty for a node that has none. -/
def Node.stuckList (n : Node) : List Item :=
  n._stuckChildren.getD []

/-- The items a node holds itself: its direct list, then its straddling list. -/
def Node.ownItems (n : Node) : List Item :=
  n.children ++ n.stuckList

/-- The items held anywhere in the tree below a node, with multiplicity. -/
def Node.storedItems (n : Node) : List Item :=
  n.allNodes.flatMap Node.ownItems

/-- The items held by the subtrees of a list. -/
def storedItemsLoop (ns : List Node) : List Item :=
  (allNodesLoop ns).flatMap Node.ownItems

/-- The configuration invariant of a tree: a node has no or four quadrants,
quadrants exist only below the depth cap, and each quadrant is one level
deeper than its parent and inherits cap, threshold and class. -/
inductive Node.WF : Node → Prop
  | mk (b : Bounds) (d md mc : Nat) (ch : List Item) (st : Option (List Item))
      (nodes : List Node)
      (hmc : mc ≠ 0)
      (hshape : nodes = [] ∨ (nodes.length = 4 ∧ d < md))
      (hcfg : ∀ c ∈ nodes, c._depth = d + 1 ∧ c._maxDepth = md ∧ c._maxChildren = mc ∧
        c.isBoundsNode = st.isSome)
      (hrec : ∀ c ∈ nodes, c.WF) :
      Node.WF (.mk b d md mc ch st nodes)

/-- The state of a tree between two calls of the public interface: an internal
node has an empty direct list and a leaf an empty straddling list. -/
inductive Node.Settled : Node → Prop
  | mk (b : Bounds) (d md mc : Nat) (ch : List Item) (st : Option (List Item))
      (nodes : List Node)
      (hint : nodes ≠ [] → ch = [])
      (hleaf : nodes = [] → st.getD [] = [])
      (hrec : ∀ c ∈ nodes, c.Settled) :
      Node.Settled (.mk b d md mc ch st nodes)

/-- The test of `BoundsNode.prototype.insert` that sends an item down into the
quadrant `node`: the four comparisons of the source, on the rounded sums. -/
def Node.holds (node : Node) (item : Item) : Bool :=
  decide (dbl item.x ≥ dbl node._bounds.x) &&
  decide (dbl (item.x + item.width) ≤ dbl (node._bounds.x + node._bounds.width)) &&
  decide (dbl item.y ≥ dbl node._bounds.y) &&
  decide (dbl (item.y + item.height) ≤ dbl (node._bounds.y + node._bounds.height))

/-- Call nesting that `insert` can reach from a node of a well-formed tree. -/
def Node.need (n : Node) : Nat :=
  2 * (n._maxDepth - n._depth) + (if n.nodes.length = 0 then 1 else 0)

/-- Two states of one node object: bounds, depth, cap, threshold and class agree. -/
def Node.SameCfg (n m : Node) : Prop :=
  m._bounds = n._bounds ∧ m._depth = n._depth ∧ m._maxDepth = n._maxDepth ∧
  m._maxChildren = n._maxChildren ∧ m.isBoundsNode = n.isBoundsNode

/-- What a completed `insert` of `item` into `n` guarantees about the new
state `n1` of the node. -/
structure InsertPost (n : Node) (item : Item) (n1 : Node) : Prop where
  wf : n1.WF
  cfg : n.SameCfg n1
  internal : n.nodes ≠ [] → n1.children = n.children ∧ n1.nodes.length = n.nodes.length
  grows : n1.nodes ≠ [] ∨ n1.children = n.children ++ [item]
  perm : List.Perm n1.storedItems (item :: n.storedItems)
  desc : (∀ c ∈ n.nodes, c.Settled) → ∀ c ∈ n1.nodes, c.Settled
  settled : n.Settled → n1.Settled

/-- The quadrant objects `subdivide` creates for a node of class `st`. -/
def freshQuadrant (st : Option (List Item)) (bounds : Bounds) (d md mc : Nat) : Node :=
  .mk bounds (d + 1) md mc [] (if st.isSome then some [] else none) []

/-- A sequence of calls `tree.insert(item)`, one per item, in order. -/
def QuadTree.insertEach (fuel : Nat) : List Item → QuadTree → Outcome QuadTree
  | [], t => .ok t
  | i :: rest, t => (t.insert fuel (.item i)).bind (QuadTree.insertEach fuel rest)

/-- Fuel that covers every call nesting `insert` reaches from the root of a
tree whose depth cap is that of `t`. -/
def QuadTree.enoughFuel (t : QuadTree) : Nat :=
  2 * t.root._maxDepth + 1

/-- A node without quadrants. -/
def Node.isLeaf (n : Node) : Bool :=
  n.nodes.isEmpty

/-- The items held in the direct lists of the leaves of a tree, with multiplicity. -/
def Node.leafItems (n : Node) : List Item :=
  (n.allNodes.filter Node.isLeaf).flatMap Node.children

/-- A call of the public interface that changes the tree. -/
inductive Op where
  | insert (arg : ItemOrArray)
  | clear

/-- A sequence of calls `tree.insert(...)` and `tree.clear()`, in order. -/
def QuadTree.run (fuel : Nat) : List Op → QuadTree → Outcome QuadTree
  | [], t => .ok t
  | .insert arg :: rest, t => (t.insert fuel arg).bind (QuadTree.run fuel rest)
  | .clear :: rest, t => QuadTree.run fuel rest t.clear

/-- The containment test of `BoundsNode.prototype.insert` against a rectangle
`r`: the four comparisons of the source, on the rounded sums. -/
def fitsIn (r : Bounds) (item : Item) : Bool :=
  decide (dbl item.x ≥ dbl r.x) &&
  decide (dbl (item.x + item.width) ≤ dbl (r.x + r.width)) &&
  decide (dbl item.y ≥ dbl r.y) &&
  decide (dbl (item.y + item.height) ≤ dbl (r.y + r.height))

/-- The index `_findIndex` returns in a node whose bounds are `b`. -/
def indexIn (b : Bounds) (item : Item) : Nat :=
  (Node.mk b 0 0 0 [] none [])._findIndex item

/-- The rectangle `subdivide` gives to the quadrant of index `j` of a node
whose bounds are `b`. -/
def quadrantRect (b : Bounds) (j : Nat) : Bounds :=
  ⟨if j = 1 ∨ j = 3 then dbl (b.x + halfFloor b.width) else b.x,
    if j = 2 ∨ j = 3 then dbl (b.y + halfFloor b.height) else b.y,
    halfFloor b.width, halfFloor b.height⟩

/-- The `_stuckChildren` of a node of the given class (`true` for `BoundsNode`). -/
def stuckOf (cls : Bool) (l : List Item) : Option (List Item) :=
  if cls then some l else none

/-- An item that an internal `BoundsNode` with bounds `b` keeps in its
straddling list: it does not fit the quadrant selected for it. -/
def sticks (b : Bounds) (item : Item) : Bool :=
  !(fitsIn (quadrantRect b (indexIn b item)) item)

/-- An item that an internal node with bounds `b` hands to its quadrant `j`. -/
def goesTo (cls : Bool) (b : Bounds) (j : Nat) (item : Item) : Bool :=
  decide (indexIn b item = j) && (!cls || fitsIn (quadrantRect b j) item)

/-- A closed description of the subtree that holds the items `items`, in their
order of arrival, under a node of class `cls` with bounds `b` at depth `d`,
where `k` levels are left below the node: a leaf holding all the items when
they do not exceed the threshold or no level is left, and otherwise an
internal node that keeps the items that stick and hands the others to the
descriptions of its four quadrants. -/
def layout (cls : Bool) (md mc : Nat) : Nat → Bounds → Nat → List Item → Node
  | 0, b, d, items => .mk b d md mc items (stuckOf cls []) []
  | k + 1, b, d, items =>
    if items.length ≤ mc then .mk b d md mc items (stuckOf cls []) []
    else
      .mk b d md mc [] (stuckOf cls (items.filter (sticks b)))
        [layout cls md mc k (quadrantRect b 0) (d + 1) (items.filter (goesTo cls b 0)),
          layout cls md mc k (quadrantRect b 1) (d + 1) (items.filter (goesTo cls b 1)),
          layout cls md mc k (quadrantRect b 2) (d + 1) (items.filter (goesTo cls b 2)),
          layout cls md mc k (quadrantRect b 3) (d + 1) (items.filter (goesTo cls b 3))]

/-- The internal node of `layout` while its direct list `ch` is still being
re-inserted: `ys` are the items handed on so far. -/
def layoutInternal (cls : Bool) (md mc k : Nat) (b : Bounds) (d : Nat) (ch ys : List Item) :
    Node :=
  .mk b d md mc ch (stuckOf cls (ys.filter (sticks b)))
    [layout cls md mc k (quadrantRect b 0) (d + 1) (ys.filter (goesTo cls b 0)),
      layout cls md mc k (quadrantRect b 1) (d + 1) (ys.filter (goesTo cls b 1)),
      layout cls md mc k (quadrantRect b 2) (d + 1) (ys.filter (goesTo cls b 2)),
      layout cls md mc k (quadrantRect b 3) (d + 1) (ys.filter (goesTo cls b 3))]

/-- An integer of magnitude at most `2^53`: a value of the number type, and one
that sums reach without rounding. -/
def exactInt (v : Int) : Prop :=
  -9007199254740992 ≤ v ∧ v ≤ 9007199254740992

instance exactInt_decidable (v : Int) : Decidable (exactInt v) := by
  unfold exactInt
  infer_instance

/-- A rectangle whose near corner `(x, y)` and far corner
`(x + width, y + height)` have coordinates of magnitude at most `2^53`: the
sums the tests of the source form on it are exact. -/
def Bounds.exact (b : Bounds) : Prop :=
  exactInt b.x ∧ exactInt b.y ∧ exactInt (b.x + b.width) ∧ exactInt (b.y + b.height)

instance Bounds.exact_decidable (b : Bounds) : Decidable b.exact := by
  unfold Bounds.exact
  infer_instance

/-- Two outcomes of a window query that agree up to the order of the returned
items: two lists that are permutations of each other, or the same abnormal end. -/
def Outcome.SameUpToOrder : Outcome (List Item) → Outcome (List Item) → Prop
  | .ok r, .ok r1 => r.Perm r1
  | .typeError, .typeError => True
  | .outOfFuel, .outOfFuel => True
  | _, _ => False

/-! ## Lemmas -/

/-! ### Rounding -/

theorem ulpExp_spec : ∀ (f a : Nat), a ≤ f →
    a < 2 ^ (53 + ulpExp f a) ∧ (ulpExp f a = 0 ∨ 2 ^ (52 + ulpExp f a) ≤ a) := by
  intro f
  induction f with
  | zero =>
    intro a ha
    have : a = 0 := by omega
    subst this
    simp [ulpExp]
  | succ f ih =>
    intro a ha
    unfold ulpExp
    by_cases hlt : a < 9007199254740992
    · rw [if_pos hlt]
      refine ⟨?_, Or.inl rfl⟩
      norm_num
      exact hlt
    · rw [if_neg hlt]
      have h2 : a / 2 ≤ f := by omega
      obtain ⟨h3, h4⟩ := ih (a / 2) h2
      have e1 : 2 ^ (53 + (ulpExp f (a / 2) + 1)) = 2 * 2 ^ (53 + ulpExp f (a / 2)) := by
        rw [← Nat.add_assoc, Nat.pow_succ]; ring
      have e2 : 2 ^ (52 + (ulpExp f (a / 2) + 1)) = 2 * 2 ^ (52 + ulpExp f (a / 2)) := by
        rw [← Nat.add_assoc, Nat.pow_succ]; ring
      refine ⟨by rw [e1]; omega, Or.inr ?_⟩
      rw [e2]
      rcases h4 with h4 | h4
      · rw [h4]
        norm_num
        omega
      · omega

theorem roundTo_lo (u a : Nat) : a / u * u ≤ roundTo u a := by
  unfold roundTo
  simp only
  have : a / u * u ≤ (a / u + 1) * u := Nat.mul_le_mul_right _ (by omega)
  split_ifs <;> omega

theorem roundTo_hi (u a : Nat) : roundTo u a ≤ (a / u + 1) * u := by
  unfold roundTo
  simp only
  have : a / u * u ≤ (a / u + 1) * u := Nat.mul_le_mul_right _ (by omega)
  split_ifs <;> omega

theorem roundTo_mono (u a b : Nat) (hu : 0 < u) (hab : a ≤ b) : roundTo u a ≤ roundTo u b := by
  have hq : a / u ≤ b / u := Nat.div_le_div_right hab
  rcases Nat.lt_or_ge (a / u) (b / u) with hlt | hge
  · calc roundTo u a ≤ (a / u + 1) * u := roundTo_hi u a
      _ ≤ b / u * u := Nat.mul_le_mul_right _ hlt
      _ ≤ roundTo u b := roundTo_lo u b
  · have heq : a / u = b / u := by omega
    have ha := Nat.div_add_mod a u
    have hb := Nat.div_add_mod b u
    rw [heq] at ha
    have hr : a % u ≤ b % u := by omega
    unfold roundTo
    simp only
    rw [heq]
    have e : (b / u + 1) * u = b / u * u + u := by ring
    rw [e]
    split_ifs <;> omega

theorem roundNat_bracket (a : Nat) :
    a < 2 ^ (53 + ulpExp a a) ∧ (ulpExp a a = 0 ∨ 2 ^ (52 + ulpExp a a) ≤ a) :=
  ulpExp_spec a a (Nat.le_refl a)

theorem roundNat_hi (a : Nat) : roundNat a ≤ 2 ^ (53 + ulpExp a a) := by
  have h := (roundNat_bracket a).1
  have hu : 0 < 2 ^ ulpExp a a := Nat.pow_pos (by decide)
  have e : 2 ^ (53 + ulpExp a a) = 2 ^ 53 * 2 ^ ulpExp a a := by rw [Nat.pow_add]
  have hq : a / 2 ^ ulpExp a a < 2 ^ 53 := by
    rw [Nat.div_lt_iff_lt_mul hu, ← e]; exact h
  calc roundNat a ≤ (a / 2 ^ ulpExp a a + 1) * 2 ^ ulpExp a a := roundTo_hi _ a
    _ ≤ 2 ^ 53 * 2 ^ ulpExp a a := Nat.mul_le_mul_right _ hq
    _ = 2 ^ (53 + ulpExp a a) := e.symm

theorem roundNat_lo (a : Nat) (h : 2 ^ (52 + ulpExp a a) ≤ a) :
    2 ^ (52 + ulpExp a a) ≤ roundNat a := by
  have hu : 0 < 2 ^ ulpExp a a := Nat.pow_pos (by decide)
  have e : 2 ^ (52 + ulpExp a a) = 2 ^ 52 * 2 ^ ulpExp a a := by rw [Nat.pow_add]
  have hq : 2 ^ 52 ≤ a / 2 ^ ulpExp a a := by
    rw [Nat.le_div_iff_mul_le hu, ← e]; exact h
  calc 2 ^ (52 + ulpExp a a) = 2 ^ 52 * 2 ^ ulpExp a a := e
    _ ≤ a / 2 ^ ulpExp a a * 2 ^ ulpExp a a := Nat.mul_le_mul_right _ hq
    _ ≤ roundNat a := roundTo_lo _ a

theorem roundNat_mono (a b : Nat) (hab : a ≤ b) : roundNat a ≤ roundNat b := by
  obtain ⟨ha1, ha2⟩ := roundNat_bracket a
  obtain ⟨hb1, hb2⟩ := roundNat_bracket b
  rcases Nat.lt_trichotomy (ulpExp a a) (ulpExp b b) with hlt | heq | hgt
  · have hb3 : 2 ^ (52 + ulpExp b b) ≤ b := by
      rcases hb2 with hb2 | hb2
      · omega
      · exact hb2
    calc roundNat a ≤ 2 ^ (53 + ulpExp a a) := roundNat_hi a
      _ ≤ 2 ^ (52 + ulpExp b b) := Nat.pow_le_pow_right (by decide) (by omega)
      _ ≤ roundNat b := roundNat_lo b hb3
  · unfold roundNat
    rw [heq]
    exact roundTo_mono _ a b (Nat.pow_pos (by decide)) hab
  · exfalso
    have ha3 : 2 ^ (52 + ulpExp a a) ≤ a := by
      rcases ha2 with ha2 | ha2
      · omega
      · exact ha2
    have : 2 ^ (53 + ulpExp b b) ≤ 2 ^ (52 + ulpExp a a) :=
      Nat.pow_le_pow_right (by decide) (by omega)
    omega

theorem ulpExp_small (f a : Nat) (h : a < 9007199254740992) : ulpExp f a = 0 := by
  cases f with
  | zero => rfl
  | succ f => simp [ulpExp, h]

theorem roundNat_small (a : Nat) (h : a ≤ 9007199254740992) : roundNat a = a := by
  rcases Nat.lt_or_ge a 9007199254740992 with hlt | hge
  · unfold roundNat
    rw [ulpExp_small a a hlt]
    simp [roundTo, Nat.mod_one]
  · have : a = 9007199254740992 := by omega
    subst this
    decide

theorem round53_mono (a b : Int) (hab : a ≤ b) : round53 a ≤ round53 b := by
  unfold round53
  split_ifs with h1 h2 h2
  · exact_mod_cast roundNat_mono _ _ (Int.toNat_le_toNat hab)
  · omega
  · have h3 : (0 : Int) ≤ (roundNat (-a).toNat : Int) := Int.ofNat_nonneg _
    have h4 : (0 : Int) ≤ (roundNat b.toNat : Int) := Int.ofNat_nonneg _
    omega
  · have : roundNat (-b).toNat ≤ roundNat (-a).toNat :=
      roundNat_mono _ _ (Int.toNat_le_toNat (by omega))
    have h5 : ((roundNat (-b).toNat : Nat) : Int) ≤ (roundNat (-a).toNat : Nat) := by
      exact_mod_cast this
    omega

theorem round53_small (n : Int) (h1 : -9007199254740992 ≤ n) (h2 : n ≤ 9007199254740992) :
    round53 n = n := by
  unfold round53
  split_ifs with h
  · rw [roundNat_small _ (by omega)]
    omega
  · rw [roundNat_small _ (by omega)]
    omega

theorem INFINITY_large : (9007199254740992 : Int) < INFINITY := by
  unfold INFINITY
  decide

/-- Rounding is monotone. -/
theorem dbl_mono (a b : Int) (hab : a ≤ b) : dbl a ≤ dbl b := by
  have h := round53_mono a b hab
  have hI := INFINITY_large
  unfold dbl
  simp only
  split_ifs <;> omega

/-- On integers up to `2^53` in magnitude the rounding changes nothing. -/
theorem dbl_small (n : Int) (h1 : -9007199254740992 ≤ n) (h2 : n ≤ 9007199254740992) :
    dbl n = n := by
  have hI := INFINITY_large
  unfold dbl
  simp only
  rw [round53_small n h1 h2]
  split_ifs <;> omega

/-- On an item and a rectangle whose corner coordinates have magnitude at most
`2^53`, the containment test of `insert` is containment of the rectangles. -/
theorem fitsIn_exact (r : Bounds) (item : Item) (ei : item.toBounds.exact) (er : r.exact) :
    fitsIn r item = true ↔
      item.x ≥ r.x ∧ item.x + item.width ≤ r.x + r.width ∧
      item.y ≥ r.y ∧ item.y + item.height ≤ r.y + r.height := by
  obtain ⟨a1, a2, a3, a4⟩ := ei
  obtain ⟨c1, c2, c3, c4⟩ := er
  simp only [Item.toBounds] at a1 a2 a3 a4
  simp only [fitsIn, Bool.and_eq_true, decide_eq_true_eq,
    dbl_small _ a1.1 a1.2, dbl_small _ a2.1 a2.2, dbl_small _ a3.1 a3.2, dbl_small _ a4.1 a4.2,
    dbl_small _ c1.1 c1.2, dbl_small _ c2.1 c2.2, dbl_small _ c3.1 c3.2, dbl_small _ c4.1 c4.2]
  tauto

/-! ### Projections -/

@[simp] theorem Node._bounds_mk (b : Bounds) (d md mc : Nat) (ch : List Item)
    (st : Option (List Item)) (ns : List Node) : (Node.mk b d md mc ch st ns)._bounds = b := rfl

@[simp] theorem Node._depth_mk (b : Bounds) (d md mc : Nat) (ch : List Item)
    (st : Option (List Item)) (ns : List Node) : (Node.mk b d md mc ch st ns)._depth = d := rfl

@[simp] theorem Node._maxDepth_mk (b : Bounds) (d md mc : Nat) (ch : List Item)
    (st : Option (List Item)) (ns : List Node) :
    (Node.mk b d md mc ch st ns)._maxDepth = md := rfl

@[simp] theorem Node._maxChildren_mk (b : Bounds) (d md mc : Nat) (ch : List Item)
    (st : Option (List Item)) (ns : List Node) :
    (Node.mk b d md mc ch st ns)._maxChildren = mc := rfl

@[simp] theorem Node.children_mk (b : Bounds) (d md mc : Nat) (ch : List Item)
    (st : Option (List Item)) (ns : List Node) : (Node.mk b d md mc ch st ns).children = ch := rfl

@[simp] theorem Node._stuckChildren_mk (b : Bounds) (d md mc : Nat) (ch : List Item)
    (st : Option (List Item)) (ns : List Node) :
    (Node.mk b d md mc ch st ns)._stuckChildren = st := rfl

@[simp] theorem Node.nodes_mk (b : Bounds) (d md mc : Nat) (ch : List Item)
    (st : Option (List Item)) (ns : List Node) : (Node.mk b d md mc ch st ns).nodes = ns := rfl

@[simp] theorem Node.setChildren_mk (b : Bounds) (d md mc : Nat) (ch : List Item)
    (st : Option (List Item)) (ns : List Node) (c : List Item) :
    (Node.mk b d md mc ch st ns).setChildren c = .mk b d md mc c st ns := rfl

@[simp] theorem Node.setStuck_mk (b : Bounds) (d md mc : Nat) (ch : List Item)
    (st : Option (List Item)) (ns : List Node) (s : Option (List Item)) :
    (Node.mk b d md mc ch st ns).setStuck s = .mk b d md mc ch s ns := rfl

@[simp] theorem Node.setNodes_mk (b : Bounds) (d md mc : Nat) (ch : List Item)
    (st : Option (List Item)) (ns : List Node) (ms : List Node) :
    (Node.mk b d md mc ch st ns).setNodes ms = .mk b d md mc ch st ms := rfl

@[simp] theorem Node.isBoundsNode_mk (b : Bounds) (d md mc : Nat) (ch : List Item)
    (st : Option (List Item)) (ns : List Node) :
    (Node.mk b d md mc ch st ns).isBoundsNode = st.isSome := rfl

@[simp] theorem Outcome.bind_ok {α β : Type} (a : α) (f : α → Outcome β) :
    (Outcome.ok a).bind f = f a := rfl


theorem allNodesLoop_eq_flatMap (ns : List Node) :
    allNodesLoop ns = ns.flatMap Node.allNodes := by
  induction ns with
  | nil => simp [allNodesLoop]
  | cons n rest ih => simp [allNodesLoop, ih]

theorem Node.storedItems_mk (b : Bounds) (d md mc : Nat) (ch : List Item)
    (st : Option (List Item)) (nodes : List Node) :
    (Node.mk b d md mc ch st nodes).storedItems =
      ch ++ st.getD [] ++ storedItemsLoop nodes := by
  simp [Node.storedItems, storedItemsLoop, Node.allNodes, Node.ownItems, Node.stuckList]

theorem storedItemsLoop_cons (n : Node) (rest : List Node) :
    storedItemsLoop (n :: rest) = n.storedItems ++ storedItemsLoop rest := by
  simp [Node.storedItems, storedItemsLoop, allNodesLoop]

theorem storedItemsLoop_nil : storedItemsLoop [] = [] := by
  simp [storedItemsLoop, allNodesLoop]

theorem storedItemsLoop_set (ns : List Node) (i : Nat) (c c1 : Node) (extra : List Item)
    (hi : ns[i]? = some c) (hp : List.Perm c1.storedItems (extra ++ c.storedItems)) :
    List.Perm (storedItemsLoop (ns.set i c1)) (extra ++ storedItemsLoop ns) := by
  induction ns generalizing i with
  | nil => simp at hi
  | cons n rest ih =>
    cases i with
    | zero =>
      simp at hi
      subst hi
      simp only [List.set_cons_zero, storedItemsLoop_cons]
      rw [← List.append_assoc]
      exact List.Perm.append_right _ hp
    | succ j =>
      simp at hi
      simp only [List.set_cons_succ, storedItemsLoop_cons]
      have h1 := ih j hi
      have h2 : List.Perm (n.storedItems ++ storedItemsLoop (rest.set j c1))
          (n.storedItems ++ (extra ++ storedItemsLoop rest)) := List.Perm.append_left _ h1
      refine h2.trans ?_
      rw [← List.append_assoc, ← List.append_assoc]
      exact List.Perm.append_right _ List.perm_append_comm

/-! ### One step of `insert` -/

theorem Node.insert_leaf (f : Nat) (n : Node) (item : Item) (hn : n.nodes = []) :
    n.insert (f + 1) item =
      if n._depth < n._maxDepth ∧ n._maxChildren < n.children.length + 1 then
        (reinsertLoop (Node.insert f) (n.children ++ [item])
          (n.setChildren (n.children ++ [item])).subdivide).bind
          (fun n3 => .ok (n3.setChildren []))
      else .ok (n.setChildren (n.children ++ [item])) := by
  cases n with
  | mk b d md mc ch st nodes =>
    simp only [Node.nodes] at hn
    subst hn
    cases st <;>
    · simp only [Node.insert, Node._stuckChildren, Node.nodes, List.length_nil, ne_eq,
        not_true_eq_false, ↓reduceIte, Node.setChildren, Node.children, Node._depth,
        Node._maxDepth, Node._maxChildren, List.length_append, List.length_singleton,
        Node.subdivide, Node.setNodes, List.take_zero]
      by_cases h1 : d < md <;> by_cases h2 : mc < ch.length + 1 <;>
        simp [h1, h2, Nat.not_le.mpr, Nat.not_lt.mp, List.take_of_length_le]

theorem Node.insert_internal_point (f : Nat) (n : Node) (item : Item)
    (hst : n._stuckChildren = none) (hn : n.nodes ≠ []) :
    n.insert (f + 1) item =
      match n.nodes[n._findIndex item]? with
      | none => .typeError
      | some child =>
        (child.insert f item).bind
          (fun child1 => .ok (n.setNodes (n.nodes.set (n._findIndex item) child1))) := by
  cases n with
  | mk b d md mc ch st nodes =>
    simp only [Node._stuckChildren] at hst
    subst hst
    simp only [Node.nodes] at hn
    have hlen : nodes.length ≠ 0 := by simpa using hn
    simp [Node.insert, hlen]

theorem Node.insert_internal_bounds (f : Nat) (n : Node) (item : Item) (stuck : List Item)
    (hst : n._stuckChildren = some stuck) (hn : n.nodes ≠ []) :
    n.insert (f + 1) item =
      match n.nodes[n._findIndex item]? with
      | none => .typeError
      | some node =>
        if node.holds item then
          (node.insert f item).bind
            (fun node1 => .ok (n.setNodes (n.nodes.set (n._findIndex item) node1)))
        else .ok (n.setStuck (some (stuck ++ [item]))) := by
  cases n with
  | mk b d md mc ch st nodes =>
    simp only [Node._stuckChildren] at hst
    subst hst
    simp only [Node.nodes] at hn
    have hlen : nodes.length ≠ 0 := by simpa using hn
    simp [Node.insert, hlen, Node.holds]

theorem Node._findIndex_lt (n : Node) (item : Item) : n._findIndex item < 4 := by
  unfold Node._findIndex
  simp only [Node.TOP_LEFT, Node.TOP_RIGHT, Node.BOTTOM_LEFT, Node.BOTTOM_RIGHT]
  split_ifs <;> omega

theorem Node.subdivide_leaf (b : Bounds) (d md mc : Nat) (ch : List Item)
    (st : Option (List Item)) (hmd : md ≠ 0) (hmc : mc ≠ 0) :
    (Node.mk b d md mc ch st []).subdivide =
      .mk b d md mc ch st
        [ freshQuadrant st ⟨b.x, b.y, halfFloor b.width, halfFloor b.height⟩ d md mc,
          freshQuadrant st ⟨dbl (b.x + halfFloor b.width), b.y, halfFloor b.width,
            halfFloor b.height⟩ d md mc,
          freshQuadrant st ⟨b.x, dbl (b.y + halfFloor b.height), halfFloor b.width,
            halfFloor b.height⟩ d md mc,
          freshQuadrant st ⟨dbl (b.x + halfFloor b.width), dbl (b.y + halfFloor b.height),
            halfFloor b.width, halfFloor b.height⟩ d md mc ] := by
  cases st <;>
    simp [Node.subdivide, Node._classConstructor, Node.isBoundsNode, Node.new,
      BoundsNode.new, freshQuadrant, hmd, hmc]

theorem freshQuadrant_wf (st : Option (List Item)) (bounds : Bounds) (d md mc : Nat)
    (hmc : mc ≠ 0) : (freshQuadrant st bounds d md mc).WF :=
  Node.WF.mk _ _ _ _ _ _ _ hmc (Or.inl rfl) (by simp) (by simp)

theorem freshQuadrant_settled (st : Option (List Item)) (bounds : Bounds) (d md mc : Nat) :
    (freshQuadrant st bounds d md mc).Settled :=
  Node.Settled.mk _ _ _ _ _ _ _ (by simp) (by cases st <;> simp) (by simp)

theorem freshQuadrant_storedItems (st : Option (List Item)) (bounds : Bounds) (d md mc : Nat) :
    (freshQuadrant st bounds d md mc).storedItems = [] := by
  cases st <;> simp [freshQuadrant, Node.storedItems_mk, storedItemsLoop_nil]

theorem freshQuadrant_cfg (st : Option (List Item)) (bounds : Bounds) (d md mc : Nat) :
    (freshQuadrant st bounds d md mc)._depth = d + 1 ∧
    (freshQuadrant st bounds d md mc)._maxDepth = md ∧
    (freshQuadrant st bounds d md mc)._maxChildren = mc ∧
    (freshQuadrant st bounds d md mc).isBoundsNode = st.isSome := by
  cases st <;> simp [freshQuadrant, Node.isBoundsNode]

theorem Node.subdivide_leaf_wf (b : Bounds) (d md mc : Nat) (ch : List Item)
    (st : Option (List Item)) (hd : d < md) (hmc : mc ≠ 0) :
    (Node.mk b d md mc ch st []).subdivide.WF := by
  rw [Node.subdivide_leaf b d md mc ch st (by omega) hmc]
  refine Node.WF.mk _ _ _ _ _ _ _ hmc (Or.inr ⟨by simp, hd⟩) ?_ ?_
  · intro c hc
    simp only [List.mem_cons, List.mem_singleton, List.not_mem_nil, or_false] at hc
    rcases hc with h | h | h | h <;> subst h <;> exact freshQuadrant_cfg _ _ _ _ _
  · intro c hc
    simp only [List.mem_cons, List.mem_singleton, List.not_mem_nil, or_false] at hc
    rcases hc with h | h | h | h <;> subst h <;> exact freshQuadrant_wf _ _ _ _ _ hmc

theorem Node.SameCfg.trans {a b c : Node} (h1 : a.SameCfg b) (h2 : b.SameCfg c) :
    a.SameCfg c := by
  obtain ⟨x1, x2, x3, x4, x5⟩ := h1
  obtain ⟨y1, y2, y3, y4, y5⟩ := h2
  exact ⟨y1.trans x1, y2.trans x2, y3.trans x3, y4.trans x4, y5.trans x5⟩

theorem Node.SameCfg.refl (a : Node) : a.SameCfg a :=
  ⟨rfl, rfl, rfl, rfl, rfl⟩

theorem Node.need_congr {n m : Node} (h : n.SameCfg m) (hl : m.nodes.length = n.nodes.length) :
    m.need = n.need := by
  obtain ⟨_, x2, x3, _, _⟩ := h
  rw [Node.need, Node.need, x2, x3, hl]

theorem reinsertLoop_spec (f : Nat)
    (ih : ∀ (n : Node) (item : Item), n.WF → n.need ≤ f →
      ∃ n1, n.insert f item = .ok n1 ∧ InsertPost n item n1)
    (items : List Item) (n : Node) (hwf : n.WF) (hint : n.nodes ≠ []) (hneed : n.need ≤ f) :
    ∃ n1, reinsertLoop (Node.insert f) items n = .ok n1 ∧ n1.WF ∧ n.SameCfg n1 ∧
      n1.children = n.children ∧ n1.nodes.length = n.nodes.length ∧
      List.Perm n1.storedItems (items ++ n.storedItems) ∧
      ((∀ c ∈ n.nodes, c.Settled) → ∀ c ∈ n1.nodes, c.Settled) := by
  induction items generalizing n with
  | nil => exact ⟨n, rfl, hwf, Node.SameCfg.refl n, rfl, rfl, by simp, fun h => h⟩
  | cons item rest ihl =>
    obtain ⟨n1, h1, p1⟩ := ih n item hwf hneed
    obtain ⟨hch1, hlen1⟩ := p1.internal hint
    have hint1 : n1.nodes ≠ [] := by
      intro h0
      rw [h0] at hlen1
      exact hint (List.length_eq_zero.mp hlen1.symm)
    have hneed1 : n1.need ≤ f := by rw [Node.need_congr p1.cfg hlen1]; exact hneed
    obtain ⟨n2, h2, wf2, cfg2, ch2, len2, perm2, desc2⟩ := ihl n1 p1.wf hint1 hneed1
    refine ⟨n2, ?_, wf2, p1.cfg.trans cfg2, ch2.trans hch1, len2.trans hlen1, ?_,
      fun h => desc2 (p1.desc h)⟩
    · simp [reinsertLoop, h1, Outcome.bind, h2]
    · refine perm2.trans ?_
      have h3 : List.Perm (rest ++ n1.storedItems) (rest ++ (item :: n.storedItems)) :=
        List.Perm.append_left _ p1.perm
      refine h3.trans ?_
      simp only [List.cons_append]
      exact List.perm_middle

theorem Node.WF.set_quadrant {b : Bounds} {d md mc : Nat} {ch ch1 : List Item}
    {st st1 : Option (List Item)} {nodes : List Node} {i : Nat} {c c1 : Node}
    (hwf : (Node.mk b d md mc ch st nodes).WF) (hi : nodes[i]? = some c)
    (hst : st1.isSome = st.isSome) (hc1 : c1.WF) (hcfg : c.SameCfg c1) :
    (Node.mk b d md mc ch1 st1 (nodes.set i c1)).WF := by
  cases hwf with
  | mk _ _ _ _ _ _ _ hmc hshape hcfgs hrec =>
    have hmem : c ∈ nodes := List.getElem?_mem hi
    refine Node.WF.mk _ _ _ _ _ _ _ hmc ?_ ?_ ?_
    · rcases hshape with h | ⟨h, hd⟩
      · subst h; simp at hi
      · exact Or.inr ⟨by simpa using h, hd⟩
    · intro x hx
      rcases List.mem_or_eq_of_mem_set hx with h | h
      · rw [hst]; exact hcfgs x h
      · subst h
        obtain ⟨_, y2, y3, y4, y5⟩ := hcfg
        obtain ⟨z1, z2, z3, z4⟩ := hcfgs c hmem
        rw [hst]
        exact ⟨y2.trans z1, y3.trans z2, y4.trans z3, y5.trans z4⟩
    · intro x hx
      rcases List.mem_or_eq_of_mem_set hx with h | h
      · exact hrec x h
      · subst h; exact hc1

theorem Node.Settled.nodes_settled {n : Node} (h : n.Settled) : ∀ c ∈ n.nodes, c.Settled := by
  cases h with
  | mk _ _ _ _ _ _ _ _ _ hrec => exact hrec

theorem Node.WF.nodes_wf {n : Node} (h : n.WF) : ∀ c ∈ n.nodes, c.WF := by
  cases h with
  | mk _ _ _ _ _ _ _ _ _ _ hrec => exact hrec

theorem Node.WF.shape {n : Node} (h : n.WF) (hn : n.nodes ≠ []) :
    n.nodes.length = 4 ∧ n._depth < n._maxDepth := by
  cases h with
  | mk _ _ _ _ _ _ _ _ hshape _ _ =>
    rcases hshape with h | h
    · exact absurd h hn
    · exact h

theorem Node.WF.quadrant_cfg {n : Node} (h : n.WF) : ∀ c ∈ n.nodes,
    c._depth = n._depth + 1 ∧ c._maxDepth = n._maxDepth ∧ c._maxChildren = n._maxChildren ∧
      c.isBoundsNode = n.isBoundsNode := by
  cases h with
  | mk _ _ _ _ _ _ _ _ _ hcfg _ => exact hcfg

theorem Node.WF.maxChildren_ne_zero {n : Node} (h : n.WF) : n._maxChildren ≠ 0 := by
  cases h with
  | mk _ _ _ _ _ _ _ hmc _ _ _ => exact hmc

/-- Descending into the quadrant `c` at index `i` and replacing it by `c1`. -/
theorem InsertPost.descend {b : Bounds} {d md mc : Nat} {ch : List Item}
    {st : Option (List Item)} {nodes : List Node} {i : Nat} {c c1 : Node} {item : Item}
    (hwf : (Node.mk b d md mc ch st nodes).WF) (hi : nodes[i]? = some c)
    (pc : InsertPost c item c1) :
    InsertPost (Node.mk b d md mc ch st nodes) item (Node.mk b d md mc ch st (nodes.set i c1)) := by
  have hmem : c ∈ nodes := List.getElem?_mem hi
  have hdesc : (∀ x ∈ nodes, x.Settled) → ∀ x ∈ nodes.set i c1, x.Settled := by
    intro h x hx
    rcases List.mem_or_eq_of_mem_set hx with h1 | h1
    · exact h x h1
    · subst h1; exact pc.settled (h c hmem)
  refine ⟨Node.WF.set_quadrant hwf hi rfl pc.wf pc.cfg, Node.SameCfg.refl _,
    fun _ => ⟨rfl, by simp⟩, Or.inl ?_, ?_, hdesc, ?_⟩
  · intro h0
    simp only [Node.nodes_mk] at h0
    have : (nodes.set i c1).length = 0 := by rw [h0]; rfl
    rw [List.length_set] at this
    rw [List.length_eq_zero.mp this] at hi
    simp at hi
  · rw [Node.storedItems_mk, Node.storedItems_mk]
    have h1 := storedItemsLoop_set nodes i c c1 [item] hi (by simpa using pc.perm)
    have h2 : List.Perm (ch ++ st.getD [] ++ storedItemsLoop (nodes.set i c1))
        (ch ++ st.getD [] ++ ([item] ++ storedItemsLoop nodes)) := List.Perm.append_left _ h1
    refine h2.trans ?_
    simp only [List.singleton_append]
    exact List.perm_middle
  · intro hs
    cases hs with
    | mk _ _ _ _ _ _ _ hint hleaf hrec =>
      refine Node.Settled.mk _ _ _ _ _ _ _ (fun _ => hint ?_) ?_ (hdesc hrec)
      · intro h0; rw [h0] at hi; simp at hi
      · intro h0
        have : (nodes.set i c1).length = 0 := by rw [h0]; rfl
        rw [List.length_set] at this
        rw [List.length_eq_zero.mp this] at hi
        simp at hi

theorem Node.need_pos_of_wf {n : Node} (h : n.WF) : 0 < n.need := by
  cases h with
  | mk b d md mc ch st nodes hmc hshape hcfg hrec =>
    rcases hshape with h | ⟨h, hd⟩
    · subst h; simp [Node.need]
    · simp only [Node.need, Node._maxDepth_mk, Node._depth_mk]; omega

/-- The state a leaf is left in by an insert that does not subdivide. -/
theorem InsertPost.push {b : Bounds} {d md mc : Nat} {ch : List Item}
    {st : Option (List Item)} {item : Item}
    (hwf : (Node.mk b d md mc ch st []).WF) :
    InsertPost (Node.mk b d md mc ch st []) item (Node.mk b d md mc (ch ++ [item]) st []) := by
  refine ⟨Node.WF.mk _ _ _ _ _ _ _ hwf.maxChildren_ne_zero (Or.inl rfl) (by simp) (by simp),
    Node.SameCfg.refl _, fun h => absurd rfl h, Or.inr rfl, ?_, fun _ => by simp, ?_⟩
  · simp only [Node.storedItems_mk, storedItemsLoop_nil, List.append_nil, List.append_assoc]
    have : List.Perm (ch ++ ([item] ++ st.getD [])) (ch ++ (st.getD [] ++ [item])) :=
      List.Perm.append_left _ List.perm_append_comm
    refine this.trans ?_
    rw [← List.append_assoc]
    exact List.perm_append_singleton _ _
  · intro hs
    cases hs with
    | mk _ _ _ _ _ _ _ hint hleaf hrec =>
      exact Node.Settled.mk _ _ _ _ _ _ _ (fun h => absurd rfl h) hleaf (by simp)

/-- The state an internal `BoundsNode` is left in by an insert that keeps the
item in the straddling list. -/
theorem InsertPost.stick {b : Bounds} {d md mc : Nat} {ch stuck : List Item}
    {nodes : List Node} {item : Item}
    (hwf : (Node.mk b d md mc ch (some stuck) nodes).WF) (hn : nodes ≠ []) :
    InsertPost (Node.mk b d md mc ch (some stuck) nodes) item
      (Node.mk b d md mc ch (some (stuck ++ [item])) nodes) := by
  cases hwf with
  | mk _ _ _ _ _ _ _ hmc hshape hcfg hrec =>
    refine ⟨Node.WF.mk _ _ _ _ _ _ _ hmc hshape hcfg hrec, Node.SameCfg.refl _,
      fun _ => ⟨rfl, rfl⟩, Or.inl hn, ?_, fun h => h, ?_⟩
    · simp only [Node.storedItems_mk, Option.getD_some, List.append_assoc]
      have : List.Perm (ch ++ (stuck ++ ([item] ++ storedItemsLoop nodes)))
          (ch ++ ([item] ++ (stuck ++ storedItemsLoop nodes))) := by
        refine List.Perm.append_left _ ?_
        rw [← List.append_assoc, ← List.append_assoc]
        exact List.Perm.append_right _ List.perm_append_comm
      refine this.trans ?_
      simp only [List.singleton_append]
      exact List.perm_middle
    · intro hs
      cases hs with
      | mk _ _ _ _ _ _ _ hint hleaf hrec =>
        exact Node.Settled.mk _ _ _ _ _ _ _ hint (fun h => absurd h hn) hrec

theorem Node.WF.setChildren {n : Node} (h : n.WF) (c : List Item) : (n.setChildren c).WF := by
  cases h with
  | mk _ _ _ _ _ _ _ hmc hshape hcfg hrec => exact Node.WF.mk _ _ _ _ _ _ _ hmc hshape hcfg hrec

/-- The state a leaf is left in by an insert that subdivides it: `n3` is the
node after the loop that re-inserts the direct list. -/
theorem InsertPost.split {b : Bounds} {d md mc : Nat} {ch : List Item}
    {st : Option (List Item)} {item : Item} (n2 : Node) {n3 : Node}
    (hcfg2 : (Node.mk b d md mc ch st []).SameCfg n2)
    (hstored2 : n2.storedItems = (ch ++ [item]) ++ st.getD [])
    (hch2 : n2.children = ch ++ [item])
    (hn2 : n2.nodes ≠ [])
    (wf3 : n3.WF) (cfg3 : n2.SameCfg n3) (ch3 : n3.children = n2.children)
    (len3 : n3.nodes.length = n2.nodes.length)
    (perm3 : List.Perm n3.storedItems ((ch ++ [item]) ++ n2.storedItems))
    (desc3 : ∀ c ∈ n3.nodes, c.Settled) :
    InsertPost (Node.mk b d md mc ch st []) item (n3.setChildren []) := by
  have hn3 : n3.nodes ≠ [] := by
    intro h0
    rw [h0] at len3
    exact hn2 (List.length_eq_zero.mp len3.symm)
  cases n3 with
  | mk b3 d3 md3 mc3 c3 st3 nodes3 =>
    simp only [Node.children_mk] at ch3
    simp only [Node.nodes_mk] at hn3 desc3
    simp only [Node.setChildren_mk]
    refine ⟨wf3.setChildren [], ?_, fun h => absurd rfl h, Or.inl hn3, ?_, fun _ => desc3,
      fun _ => Node.Settled.mk _ _ _ _ _ _ _ (fun _ => rfl) (fun h => absurd h hn3) desc3⟩
    · exact hcfg2.trans cfg3
    · rw [Node.storedItems_mk] at perm3
      rw [ch3, hch2, hstored2, List.append_assoc, List.append_assoc] at perm3
      have h1 := (List.perm_append_left_iff (ch ++ [item])).mp
        (by simpa only [List.append_assoc] using perm3 :
          List.Perm ((ch ++ [item]) ++ (st3.getD [] ++ storedItemsLoop nodes3))
            ((ch ++ [item]) ++ (ch ++ ([item] ++ st.getD []))))
      rw [Node.storedItems_mk, Node.storedItems_mk, storedItemsLoop_nil]
      simp only [List.nil_append, List.append_nil]
      refine h1.trans ?_
      simp only [List.singleton_append]
      exact List.perm_middle

theorem Node.insert_spec : ∀ (fuel : Nat) (n : Node) (item : Item), n.WF → n.need ≤ fuel →
    ∃ n1, n.insert fuel item = .ok n1 ∧ InsertPost n item n1 := by
  intro fuel
  induction fuel with
  | zero =>
    intro n item hwf hneed
    have := Node.need_pos_of_wf hwf
    omega
  | succ f ih =>
    intro n item hwf hneed
    cases n with
    | mk b d md mc ch st nodes =>
      by_cases hn : nodes = []
      · subst hn
        rw [Node.insert_leaf f (Node.mk b d md mc ch st []) item rfl]
        simp only [Node._depth_mk, Node._maxDepth_mk, Node._maxChildren_mk, Node.children_mk,
          Node.setChildren_mk]
        by_cases hc : d < md ∧ mc < ch.length + 1
        · rw [if_pos hc]
          have hmc : mc ≠ 0 := hwf.maxChildren_ne_zero
          have wf2 := Node.subdivide_leaf_wf b d md mc (ch ++ [item]) st hc.1 hmc
          have hsub := Node.subdivide_leaf b d md mc (ch ++ [item]) st (by omega) hmc
          have hn2 : (Node.mk b d md mc (ch ++ [item]) st []).subdivide.nodes ≠ [] := by
            rw [hsub]; simp
          have hneed2 : (Node.mk b d md mc (ch ++ [item]) st []).subdivide.need ≤ f := by
            rw [hsub]
            simp only [Node.need, Node._maxDepth_mk, Node._depth_mk, Node.nodes_mk,
              List.length_nil, ↓reduceIte] at hneed
            simp only [Node.need, Node._maxDepth_mk, Node._depth_mk, Node.nodes_mk]
            simp
            omega
          obtain ⟨n3, h3, wf3, cfg3, ch3, len3, perm3, desc3⟩ :=
            reinsertLoop_spec f ih (ch ++ [item]) _ wf2 hn2 hneed2
          refine ⟨n3.setChildren [], by rw [h3]; rfl, ?_⟩
          refine InsertPost.split (Node.mk b d md mc (ch ++ [item]) st []).subdivide
            ?_ ?_ ?_ hn2 wf3 cfg3 ch3 len3 perm3 (desc3 ?_)
          · rw [hsub]; exact Node.SameCfg.refl _
          · rw [hsub, Node.storedItems_mk]
            simp [storedItemsLoop_cons, storedItemsLoop_nil, freshQuadrant_storedItems]
          · rw [hsub]; rfl
          · rw [hsub]
            intro c hc
            simp only [Node.nodes_mk, List.mem_cons, List.mem_singleton, List.not_mem_nil,
              or_false] at hc
            rcases hc with h | h | h | h <;> subst h <;> exact freshQuadrant_settled _ _ _ _ _
        · rw [if_neg hc]
          exact ⟨_, rfl, InsertPost.push hwf⟩
      · obtain ⟨hlen, hd⟩ := hwf.shape hn
        simp only [Node.nodes_mk, Node._depth_mk, Node._maxDepth_mk] at hlen hd
        have hidx := Node._findIndex_lt (Node.mk b d md mc ch st nodes) item
        obtain ⟨c, hc⟩ : ∃ c, nodes[(Node.mk b d md mc ch st nodes)._findIndex item]? = some c :=
          ⟨nodes[(Node.mk b d md mc ch st nodes)._findIndex item],
            List.getElem?_eq_getElem (by omega)⟩
        have hmem : c ∈ nodes := List.getElem?_mem hc
        have hccfg := hwf.quadrant_cfg c hmem
        simp only [Node._depth_mk, Node._maxDepth_mk] at hccfg
        have hcneed : c.need ≤ f := by
          simp only [Node.need, Node._maxDepth_mk, Node._depth_mk, Node.nodes_mk] at hneed
          have hne : nodes.length ≠ 0 := by omega
          simp only [hne, ↓reduceIte] at hneed
          simp only [Node.need, hccfg.1, hccfg.2.1]
          split_ifs <;> omega
        obtain ⟨c1, hc1, pc⟩ := ih c item (hwf.nodes_wf c hmem) hcneed
        cases st with
        | none =>
          rw [Node.insert_internal_point f (Node.mk b d md mc ch none nodes) item rfl hn]
          simp only [Node.nodes_mk, hc, hc1, Outcome.bind_ok, Node.setNodes_mk]
          exact ⟨_, rfl, InsertPost.descend hwf hc pc⟩
        | some stuck =>
          rw [Node.insert_internal_bounds f (Node.mk b d md mc ch (some stuck) nodes) item stuck rfl hn]
          simp only [Node.nodes_mk, hc, Node.setNodes_mk, Node.setStuck_mk]
          by_cases hh : c.holds item
          · simp only [hh, ↓reduceIte, hc1, Outcome.bind_ok]
            exact ⟨_, rfl, InsertPost.descend hwf hc pc⟩
          · simp only [hh, Bool.false_eq_true, ↓reduceIte]
            exact ⟨_, rfl, InsertPost.stick hwf hn⟩

/-! ### Trees built by the public interface -/

theorem Node.need_le (n : Node) : n.need ≤ 2 * (n._maxDepth - n._depth) + 1 := by
  unfold Node.need
  split_ifs <;> omega

theorem QuadTree.new_root (bounds : Bounds) (pointQuad : Bool) (maxDepth maxChildren : Nat) :
    (QuadTree.new bounds pointQuad maxDepth maxChildren).root =
      .mk bounds 0 (if maxDepth ≠ 0 then maxDepth else 4)
        (if maxChildren ≠ 0 then maxChildren else 4) []
        (if pointQuad then none else some []) [] := by
  cases pointQuad <;> simp [QuadTree.new, Node.new, BoundsNode.new]

theorem QuadTree.new_wf (bounds : Bounds) (pointQuad : Bool) (maxDepth maxChildren : Nat) :
    (QuadTree.new bounds pointQuad maxDepth maxChildren).root.WF := by
  rw [QuadTree.new_root]
  refine Node.WF.mk _ _ _ _ _ _ _ ?_ (Or.inl rfl) (by simp) (by simp)
  split_ifs <;> omega

theorem QuadTree.new_settled (bounds : Bounds) (pointQuad : Bool) (maxDepth maxChildren : Nat) :
    (QuadTree.new bounds pointQuad maxDepth maxChildren).root.Settled := by
  rw [QuadTree.new_root]
  exact Node.Settled.mk _ _ _ _ _ _ _ (by simp) (by cases pointQuad <;> simp) (by simp)

theorem QuadTree.new_storedItems (bounds : Bounds) (pointQuad : Bool)
    (maxDepth maxChildren : Nat) :
    (QuadTree.new bounds pointQuad maxDepth maxChildren).root.storedItems = [] := by
  rw [QuadTree.new_root, Node.storedItems_mk, storedItemsLoop_nil]
  cases pointQuad <;> simp

/-- What a completed sequence of inserts guarantees about the tree. -/
theorem QuadTree.insertEach_spec (fuel : Nat) (items : List Item) (t : QuadTree)
    (hwf : t.root.WF) (hfuel : t.enoughFuel ≤ fuel) :
    ∃ t1, t.insertEach fuel items = .ok t1 ∧ t1.root.WF ∧ t.root.SameCfg t1.root ∧
      List.Perm t1.root.storedItems (t.root.storedItems ++ items) ∧
      (t.root.Settled → t1.root.Settled) := by
  induction items generalizing t with
  | nil => exact ⟨t, rfl, hwf, Node.SameCfg.refl _, by simp, fun h => h⟩
  | cons i rest ih =>
    have hneed : t.root.need ≤ fuel := by
      have := Node.need_le t.root
      simp only [QuadTree.enoughFuel] at hfuel
      omega
    obtain ⟨r1, h1, p1⟩ := Node.insert_spec fuel t.root i hwf hneed
    obtain ⟨_, _, c3, _, _⟩ := p1.cfg
    obtain ⟨t2, h2, wf2, cfg2, perm2, set2⟩ := ih ⟨r1⟩ p1.wf
      (by simp only [QuadTree.enoughFuel, c3]; exact hfuel)
    refine ⟨t2, ?_, wf2, p1.cfg.trans cfg2, ?_, fun h => set2 (p1.settled h)⟩
    · simp [QuadTree.insertEach, QuadTree.insert, h1, h2]
    · refine perm2.trans ?_
      have h3 : List.Perm (r1.storedItems ++ rest) ((i :: t.root.storedItems) ++ rest) :=
        List.Perm.append_right _ p1.perm
      refine h3.trans ?_
      simp only [List.cons_append]
      exact List.perm_middle.symm

/-! ### Properties of every node of a tree -/

theorem Node.mem_allNodes_mk (m : Node) (b : Bounds) (d md mc : Nat) (ch : List Item)
    (st : Option (List Item)) (nodes : List Node) :
    m ∈ (Node.mk b d md mc ch st nodes).allNodes ↔
      m = Node.mk b d md mc ch st nodes ∨ ∃ c ∈ nodes, m ∈ c.allNodes := by
  simp [Node.allNodes, allNodesLoop_eq_flatMap, List.mem_flatMap]

theorem Node.self_mem_allNodes (n : Node) : n ∈ n.allNodes := by
  cases n with
  | mk b d md mc ch st nodes => simp [Node.allNodes]

/-- A property of the root that a well-formed node hands to its quadrants
holds for every node of the tree. -/
theorem Node.WF.forall_allNodes (P : Node → Prop)
    (hP : ∀ n : Node, n.WF → P n → ∀ c ∈ n.nodes, P c) {n : Node} (hwf : n.WF) (h : P n) :
    ∀ m ∈ n.allNodes, P m := by
  induction hwf with
  | mk b d md mc ch st nodes hmc hshape hcfg hrec ih =>
    intro m hm
    rw [Node.mem_allNodes_mk] at hm
    rcases hm with h0 | ⟨c, hc, hmc1⟩
    · subst h0; exact h
    · exact ih c hc (hP _ (Node.WF.mk b d md mc ch st nodes hmc hshape hcfg hrec) h c hc) m hmc1

theorem Node.WF.allNodes_class {n : Node} (hwf : n.WF) :
    ∀ m ∈ n.allNodes, m.isBoundsNode = n.isBoundsNode :=
  Node.WF.forall_allNodes (fun m => m.isBoundsNode = n.isBoundsNode)
    (fun _ hx hpx c hc => ((hx.quadrant_cfg c hc).2.2.2).trans hpx) hwf rfl

theorem Node.WF.allNodes_depth {n : Node} (hwf : n.WF) (h : n._depth ≤ n._maxDepth) :
    ∀ m ∈ n.allNodes, m._depth ≤ m._maxDepth :=
  Node.WF.forall_allNodes (fun m => m._depth ≤ m._maxDepth)
    (fun _ hx _ c hc => by
      have h1 := hx.quadrant_cfg c hc
      have h2 := hx.shape (List.ne_nil_of_mem hc)
      omega) hwf h

theorem Node.WF.allNodes_settled {n : Node} (hwf : n.WF) (h : n.Settled) :
    ∀ m ∈ n.allNodes, m.Settled :=
  Node.WF.forall_allNodes (fun m => m.Settled)
    (fun _ _ hpx c hc => hpx.nodes_settled c hc) hwf h

/-! ### The window query -/

theorem mem_retrieveInBoundsLoop (v : Option Item) (nodes : List Node) (q : Bounds)
    (h : v ∈ retrieveInBoundsLoop nodes q) : ∃ c ∈ nodes, v ∈ c.retrieveInBounds q := by
  induction nodes with
  | nil => simp [retrieveInBoundsLoop] at h
  | cons n rest ih =>
    simp only [retrieveInBoundsLoop, List.mem_append] at h
    rcases h with h | h
    · exact ⟨n, by simp, h⟩
    · obtain ⟨c, hc, hv⟩ := ih h
      exact ⟨c, by simp [hc], hv⟩

theorem storedItems_subset_loop (c : Node) (nodes : List Node) (hc : c ∈ nodes) (i : Item)
    (hi : i ∈ c.storedItems) : i ∈ storedItemsLoop nodes := by
  simp only [storedItemsLoop, Node.storedItems, allNodesLoop_eq_flatMap, List.mem_flatMap]
    at hi ⊢
  obtain ⟨m, hm, him⟩ := hi
  exact ⟨m, ⟨c, hc, hm⟩, him⟩

/-- In a tree of `BoundsNode`s the collection step yields only items, each of
them stored in the tree. -/
theorem Node.WF.retrieveInBounds_stored {n : Node} (hwf : n.WF) (hb : n.isBoundsNode = true)
    (q : Bounds) :
    ∀ v ∈ n.retrieveInBounds q, ∃ i, v = some i ∧ i ∈ n.storedItems := by
  induction hwf with
  | mk b d md mc ch st nodes hmc hshape hcfg hrec ih =>
    intro v hv
    cases st with
    | none => simp at hb
    | some stuck =>
      rw [Node.storedItems_mk]
      simp only [Node.retrieveInBounds, concatValue, List.nil_append] at hv
      split_ifs at hv with h1 h2 h3
      · simp only [List.mem_append, List.mem_map] at hv
        rcases hv with ⟨i, hi, rfl⟩ | ⟨i, hi, rfl⟩
        · exact ⟨i, rfl, by simp [hi]⟩
        · exact ⟨i, rfl, by simp [hi]⟩
      · simp only [List.mem_append, List.mem_map] at hv
        rcases hv with ⟨i, hi, rfl⟩ | hv
        · exact ⟨i, rfl, by simp [hi]⟩
        · obtain ⟨c, hc, hvc⟩ := mem_retrieveInBoundsLoop v nodes q hv
          obtain ⟨i, rfl, hi⟩ := ih c hc (((hcfg c hc).2.2.2).trans (by simp)) v hvc
          exact ⟨i, rfl, by simp [storedItems_subset_loop c nodes hc i hi]⟩
      · simp only [List.mem_map] at hv
        obtain ⟨i, hi, rfl⟩ := hv
        exact ⟨i, rfl, by simp [hi]⟩
      · simp at hv

theorem filterLoop_ok (test : Item → Bounds → Bool) (l : List (Option Item)) (q : Bounds)
    (h : ∀ v ∈ l, ∃ i, v = some i) :
    ∃ r, filterLoop test l q = .ok r ∧ ∀ i, i ∈ r ↔ (some i ∈ l ∧ test i q = true) := by
  induction l with
  | nil => exact ⟨[], rfl, by simp⟩
  | cons v rest ih =>
    obtain ⟨r, hr, hmem⟩ := ih (fun x hx => h x (by simp [hx]))
    obtain ⟨j, rfl⟩ := h v (by simp)
    refine ⟨if test j q then j :: r else r, by simp [filterLoop, hr], ?_⟩
    intro i
    by_cases ht : test j q = true
    · simp only [ht, ↓reduceIte, List.mem_cons, hmem, Option.some.injEq]
      constructor
      · rintro (h1 | h1)
        · subst h1; exact ⟨Or.inl rfl, ht⟩
        · exact ⟨Or.inr h1.1, h1.2⟩
      · rintro ⟨h1 | h1, h2⟩
        · exact Or.inl h1
        · exact Or.inr ⟨h1, h2⟩
    · simp only [ht, Bool.false_eq_true, ↓reduceIte, List.mem_cons, hmem, Option.some.injEq]
      constructor
      · rintro ⟨h1, h2⟩; exact ⟨Or.inr h1, h2⟩
      · rintro ⟨h1 | h1, h2⟩
        · subst h1; exact absurd h2 ht
        · exact ⟨h1, h2⟩

/-! ### Leaves that do not subdivide -/

/-- Inserts into a leaf that stays at or below its threshold, or sits at its
depth cap, only append to the direct list. -/
theorem insertLoop_leaf_append (fuel : Nat) (b : Bounds) (d md mc : Nat)
    (st : Option (List Item)) (items ch : List Item)
    (h : md ≤ d ∨ ch.length + items.length ≤ mc) :
    insertLoop (fuel + 1) items (Node.mk b d md mc ch st []) =
      .ok (Node.mk b d md mc (ch ++ items) st []) := by
  induction items generalizing ch with
  | nil => simp [insertLoop]
  | cons i rest ih =>
    have hstep : (Node.mk b d md mc ch st []).insert (fuel + 1) i =
        .ok (Node.mk b d md mc (ch ++ [i]) st []) := by
      rw [Node.insert_leaf fuel (Node.mk b d md mc ch st []) i rfl]
      simp only [Node._depth_mk, Node._maxDepth_mk, Node._maxChildren_mk, Node.children_mk,
        Node.setChildren_mk]
      rw [if_neg (by simp only [List.length_cons] at h; omega)]
    simp only [insertLoop, hstep, Outcome.bind_ok]
    rw [ih (ch ++ [i]) (by simp only [List.length_cons, List.length_append,
      List.length_nil] at h ⊢; omega)]
    simp

/-! ### Ownership -/

theorem countP_mem_of_count_flatMap {α : Type} (f : α → List Item) (i : Item) (l : List α)
    (h : (l.flatMap f).count i = 1) : l.countP (fun m => decide (i ∈ f m)) = 1 := by
  induction l with
  | nil => simp at h
  | cons a rest ih =>
    simp only [List.flatMap_cons, List.count_append] at h
    rw [List.countP_cons]
    by_cases ha : i ∈ f a
    · have h1 : 0 < (f a).count i := List.count_pos_iff.mpr ha
      have h2 : (rest.flatMap f).count i = 0 := by omega
      have h3 : rest.countP (fun m => decide (i ∈ f m)) = 0 := by
        rw [List.countP_eq_zero]
        intro m hm
        simp only [decide_eq_true_eq]
        intro him
        exact (List.count_eq_zero.mp h2) (List.mem_flatMap.mpr ⟨m, hm, him⟩)
      simp [ha, h3]
    · have h1 : (f a).count i = 0 := List.count_eq_zero.mpr ha
      rw [h1, Nat.zero_add] at h
      simp [ha, ih h]

theorem flatMap_ownItems_eq_leaf (l : List Node)
    (h : ∀ m ∈ l, m.Settled ∧ m.isBoundsNode = false) :
    l.flatMap Node.ownItems = (l.filter Node.isLeaf).flatMap Node.children := by
  induction l with
  | nil => rfl
  | cons a rest ih =>
    have hrest := ih (fun m hm => h m (by simp [hm]))
    obtain ⟨hs, hb⟩ := h a (by simp)
    cases hs with
    | mk b d md mc ch st nodes hint hleaf hrec =>
      cases st with
      | some s => simp at hb
      | none =>
        by_cases hn : nodes = []
        · subst hn
          simp [List.filter_cons, Node.isLeaf, Node.ownItems, Node.stuckList, hrest]
        · simp [List.filter_cons, Node.isLeaf, Node.ownItems, Node.stuckList, hrest, hn,
            hint hn]

/-! ## The claims -/

/-- C1 (defect of the code).  A `BoundsNode` tree over `{0, 0, 100, 100}` holds
the one item `{10, 10, 20, 20}`, whose rectangle overlaps the window
`{20, 20, 50, 50}` while its origin lies outside it.  The collection step
finds the item, and the branch of `_filterResults` meant for `BoundsNode`
trees would keep it, but `QuadTree.retrieveInBounds` returns the empty list:
the filter reads `this.root` of the constructor function, takes the branch
for points and drops the item. -/
theorem retrieveInBounds_bounded_drops_overlapping_item :
    ∃ t, (QuadTree.new ⟨0, 0, 100, 100⟩ false 4 4).insertEach 9 [⟨10, 10, 20, 20, 0⟩] = .ok t ∧
      QuadTree._isBoundOverlappingBound (Item.toBounds ⟨10, 10, 20, 20, 0⟩) ⟨20, 20, 50, 50⟩
        = true ∧
      t.root.retrieveInBounds ⟨20, 20, 50, 50⟩ = [some ⟨10, 10, 20, 20, 0⟩] ∧
      QuadTree._filterResults (some t.root) (t.root.retrieveInBounds ⟨20, 20, 50, 50⟩)
        ⟨20, 20, 50, 50⟩ = .ok [⟨10, 10, 20, 20, 0⟩] ∧
      t.retrieveInBounds ⟨20, 20, 50, 50⟩ = .ok [] :=
  ⟨_, rfl, by decide, by decide, by decide, by decide⟩

/-- C2 (defect of the code).  The example of the specification on a point
tree: bounds `{0, 0, 100, 100}`, `maxDepth = 4`, `maxChildren = 2`, the points
`(10, 10)`, `(20, 20)`, `(80, 80)` inserted in order.  The window query
`{0, 0, 50, 50}` does not return the first two points: it ends in a
`TypeError`, because the collection step appends the `undefined`
`_stuckChildren` of a plain `Node` and the filter reads `.x` of it. -/
theorem retrieveInBounds_point_example_raises :
    ∃ t, (QuadTree.new ⟨0, 0, 100, 100⟩ true 4 2).insertEach 9
        [⟨10, 10, 0, 0, 0⟩, ⟨20, 20, 0, 0, 1⟩, ⟨80, 80, 0, 0, 2⟩] = .ok t ∧
      t.root.nodes.length = 4 ∧
      none ∈ t.root.retrieveInBounds ⟨0, 0, 50, 50⟩ ∧
      t.retrieveInBounds ⟨0, 0, 50, 50⟩ = .typeError :=
  ⟨_, rfl, by decide, by decide, by decide⟩

/-- C3.  Soundness of the window query on `BoundsNode` trees: after any
sequence of inserts of items with non-negative width and height into a fresh
tree, `retrieveInBounds` returns a list, and every element of it is one of the
inserted items and overlaps the window under `_isBoundOverlappingBound`. -/
theorem retrieveInBounds_bounded_sound (bounds : Bounds) (maxDepth maxChildren : Nat)
    (items : List Item) (q : Bounds) (fuel : Nat)
    (hfuel : (QuadTree.new bounds false maxDepth maxChildren).enoughFuel ≤ fuel)
    (hitems : ∀ i ∈ items, 0 ≤ i.width ∧ 0 ≤ i.height) :
    ∃ t, (QuadTree.new bounds false maxDepth maxChildren).insertEach fuel items = .ok t ∧
      ∃ r, t.retrieveInBounds q = .ok r ∧
        ∀ i ∈ r, i ∈ items ∧ QuadTree._isBoundOverlappingBound i.toBounds q = true := by
  obtain ⟨t, ht, wf, cfg, perm, _⟩ := QuadTree.insertEach_spec fuel items
    (QuadTree.new bounds false maxDepth maxChildren) (QuadTree.new_wf _ _ _ _) hfuel
  have hb : t.root.isBoundsNode = true := by
    rw [cfg.2.2.2.2, QuadTree.new_root]; rfl
  have hstored := wf.retrieveInBounds_stored hb q
  obtain ⟨r, hr, hmem⟩ := filterLoop_ok QuadTree._isPointInsideBounds
    (t.root.retrieveInBounds q) q (fun v hv => (hstored v hv).imp fun _ h => h.1)
  refine ⟨t, ht, r, ?_, ?_⟩
  · simpa [QuadTree.retrieveInBounds, QuadTree._filterResults] using hr
  · intro i hi
    obtain ⟨hcol, htest⟩ := (hmem i).mp hi
    obtain ⟨j, hj, hjs⟩ := hstored _ hcol
    cases hj
    have hin : i ∈ items := by
      have := perm.subset hjs
      simpa [QuadTree.new_storedItems] using this
    obtain ⟨hw, hh⟩ := hitems i hin
    refine ⟨hin, ?_⟩
    simp only [QuadTree._isPointInsideBounds, Bool.and_eq_true, decide_eq_true_eq] at htest
    simp only [QuadTree._isBoundOverlappingBound, Item.toBounds, Bool.not_eq_true',
      Bool.or_eq_false_iff, decide_eq_false_iff_not]
    have hx := dbl_mono i.x (i.x + i.width) (by omega)
    have hy := dbl_mono i.y (i.y + i.height) (by omega)
    omega

/-- C3, at an instance: two items in a tree over `{0, 0, 100, 100}`, window `{0, 0, 50, 50}`. -/
theorem retrieveInBounds_bounded_sound_witness :
    ∃ t, (QuadTree.new ⟨0, 0, 100, 100⟩ false 4 1).insertEach 9
        [⟨10, 10, 5, 5, 0⟩, ⟨60, 60, 5, 5, 1⟩] = .ok t ∧
      ∃ r, t.retrieveInBounds ⟨0, 0, 50, 50⟩ = .ok r ∧
        ∀ i ∈ r, i ∈ [(⟨10, 10, 5, 5, 0⟩ : Item), ⟨60, 60, 5, 5, 1⟩] ∧
          QuadTree._isBoundOverlappingBound i.toBounds ⟨0, 0, 50, 50⟩ = true :=
  retrieveInBounds_bounded_sound ⟨0, 0, 100, 100⟩ 4 1 [⟨10, 10, 5, 5, 0⟩, ⟨60, 60, 5, 5, 1⟩]
    ⟨0, 0, 50, 50⟩ 9 (by decide) (by decide)

/-- C4 (defect of the code).  On a point tree the window query is not total:
after any sequence of inserts, a query whose window overlaps the bounds of the
root ends in a `TypeError`. -/
theorem retrieveInBounds_point_raises (bounds : Bounds) (maxDepth maxChildren : Nat)
    (items : List Item) (q : Bounds) (fuel : Nat)
    (hfuel : (QuadTree.new bounds true maxDepth maxChildren).enoughFuel ≤ fuel)
    (hq : QuadTree._isBoundOverlappingBound bounds q = true) :
    ∃ t, (QuadTree.new bounds true maxDepth maxChildren).insertEach fuel items = .ok t ∧
      t.retrieveInBounds q = .typeError := by
  obtain ⟨t, ht, wf, cfg, perm, _⟩ := QuadTree.insertEach_spec fuel items
    (QuadTree.new bounds true maxDepth maxChildren) (QuadTree.new_wf _ _ _ _) hfuel
  refine ⟨t, ht, ?_⟩
  obtain ⟨c1, _, _, _, c5⟩ := cfg
  rw [QuadTree.new_root] at c1 c5
  obtain ⟨root⟩ := t
  cases root with
  | mk b d md mc ch st nodes =>
    simp only [Node._bounds_mk, Node.isBoundsNode_mk] at c1 c5
    subst c1
    cases st with
    | some s => simp at c5
    | none =>
      have hcol : (Node.mk b d md mc ch none nodes).collidesWith q = true := by
        simpa [Node.collidesWith, QuadTree._isBoundOverlappingBound] using hq
      simp only [QuadTree.retrieveInBounds, QuadTree._filterResults, Node.retrieveInBounds, hcol,
        concatValue, List.nil_append, Bool.false_eq_true, ↓reduceIte]
      split_ifs <;> rfl

/-- C4, at an instance: a fresh point tree over `{0, 0, 100, 100}`, window `{0, 0, 50, 50}`. -/
theorem retrieveInBounds_point_raises_witness :
    ∃ t, (QuadTree.new ⟨0, 0, 100, 100⟩ true 4 4).insertEach 9 [] = .ok t ∧
      t.retrieveInBounds ⟨0, 0, 50, 50⟩ = .typeError :=
  retrieveInBounds_point_raises ⟨0, 0, 100, 100⟩ 4 4 [] ⟨0, 0, 50, 50⟩ 9 (by decide) (by decide)

/-- C5.  Subdivision trigger, for a leaf of either class (`st` is its
`_stuckChildren`, absent for a plain `Node`) with an empty direct list, a
threshold `mc ≥ 1` and a depth below the cap: inserting exactly `mc` items
leaves a leaf whose direct list is those items, and inserting one more item
leaves a node with exactly four quadrants and an empty direct list. -/
theorem insert_subdivision_trigger (b : Bounds) (d md mc : Nat) (st : Option (List Item))
    (items : List Item) (extra : Item) (fuel : Nat)
    (hmc : 1 ≤ mc) (hd : d < md) (hlen : items.length = mc)
    (hfuel : 2 * (md - d) + 1 ≤ fuel) :
    insertLoop fuel items (Node.mk b d md mc [] st []) = .ok (Node.mk b d md mc items st []) ∧
    ∃ n1, (Node.mk b d md mc items st []).insert fuel extra = .ok n1 ∧
      n1.nodes.length = 4 ∧ n1.children = [] := by
  obtain ⟨f, rfl⟩ : ∃ f, fuel = f + 1 := ⟨fuel - 1, by omega⟩
  refine ⟨by simpa using insertLoop_leaf_append f b d md mc st items [] (Or.inr (by simp [hlen])),
    ?_⟩
  have hmc0 : mc ≠ 0 := by omega
  have wf2 := Node.subdivide_leaf_wf b d md mc (items ++ [extra]) st hd hmc0
  have hsub := Node.subdivide_leaf b d md mc (items ++ [extra]) st (by omega) hmc0
  have hn2 : (Node.mk b d md mc (items ++ [extra]) st []).subdivide.nodes ≠ [] := by
    rw [hsub]; simp
  have hlen2 : (Node.mk b d md mc (items ++ [extra]) st []).subdivide.nodes.length = 4 := by
    rw [hsub]; rfl
  have hneed2 : (Node.mk b d md mc (items ++ [extra]) st []).subdivide.need ≤ f := by
    rw [hsub]
    simp only [Node.need, Node._maxDepth_mk, Node._depth_mk, Node.nodes_mk]
    simp
    omega
  obtain ⟨n3, h3, _, _, _, len3, _, _⟩ :=
    reinsertLoop_spec f (Node.insert_spec f) (items ++ [extra]) _ wf2 hn2 hneed2
  refine ⟨n3.setChildren [], ?_, ?_, ?_⟩
  · rw [Node.insert_leaf f (Node.mk b d md mc items st []) extra rfl]
    simp only [Node._depth_mk, Node._maxDepth_mk, Node._maxChildren_mk, Node.children_mk,
      Node.setChildren_mk]
    rw [if_pos ⟨hd, by omega⟩, h3]
    rfl
  · cases n3 with
    | mk _ _ _ _ _ _ ns => simpa using len3.trans hlen2
  · cases n3 with
    | mk _ _ _ _ _ _ ns => rfl

/-- C5, at an instance: a `BoundsNode` leaf with threshold 2 at depth 0 under cap 4. -/
theorem insert_subdivision_trigger_witness :
    insertLoop 9 [⟨10, 10, 1, 1, 0⟩, ⟨60, 60, 1, 1, 1⟩]
        (Node.mk ⟨0, 0, 100, 100⟩ 0 4 2 [] (some []) []) =
      .ok (Node.mk ⟨0, 0, 100, 100⟩ 0 4 2 [⟨10, 10, 1, 1, 0⟩, ⟨60, 60, 1, 1, 1⟩] (some []) []) ∧
    ∃ n1, (Node.mk ⟨0, 0, 100, 100⟩ 0 4 2 [⟨10, 10, 1, 1, 0⟩, ⟨60, 60, 1, 1, 1⟩]
        (some []) []).insert 9 ⟨10, 60, 1, 1, 2⟩ = .ok n1 ∧
      n1.nodes.length = 4 ∧ n1.children = [] :=
  insert_subdivision_trigger ⟨0, 0, 100, 100⟩ 0 4 2 (some [])
    [⟨10, 10, 1, 1, 0⟩, ⟨60, 60, 1, 1, 1⟩] ⟨10, 60, 1, 1, 2⟩ 9
    (by decide) (by decide) (by decide) (by decide)

/-- C6.  Depth cap.  A leaf of either class whose depth equals its cap stays a
leaf under any sequence of inserts, every item being appended to its direct
list; and in the tree any sequence of inserts builds from a fresh tree, no
node has a depth greater than its cap. -/
theorem insert_depth_cap (bounds : Bounds) (pointQuad : Bool) (maxDepth maxChildren : Nat)
    (b : Bounds) (d mc : Nat) (st : Option (List Item)) (ch items : List Item) (fuel : Nat)
    (hfuel : (QuadTree.new bounds pointQuad maxDepth maxChildren).enoughFuel ≤ fuel) :
    insertLoop fuel items (Node.mk b d d mc ch st []) =
      .ok (Node.mk b d d mc (ch ++ items) st []) ∧
    ∃ t, (QuadTree.new bounds pointQuad maxDepth maxChildren).insertEach fuel items = .ok t ∧
      ∀ m ∈ t.root.allNodes, m._depth ≤ m._maxDepth := by
  obtain ⟨f, rfl⟩ : ∃ f, fuel = f + 1 :=
    ⟨fuel - 1, by simp only [QuadTree.enoughFuel] at hfuel; omega⟩
  refine ⟨insertLoop_leaf_append f b d d mc st items ch (Or.inl (Nat.le_refl d)), ?_⟩
  obtain ⟨t, ht, wf, cfg, _, _⟩ := QuadTree.insertEach_spec (f + 1) items
    (QuadTree.new bounds pointQuad maxDepth maxChildren) (QuadTree.new_wf _ _ _ _) hfuel
  refine ⟨t, ht, wf.allNodes_depth ?_⟩
  obtain ⟨_, c2, _, _, _⟩ := cfg
  rw [c2, QuadTree.new_root]
  simp

/-- C6, at an instance: a point leaf at depth 4 under cap 4 with threshold 1,
and a point tree over `{0, 0, 100, 100}`. -/
theorem insert_depth_cap_witness :
    insertLoop 9 [⟨1, 1, 0, 0, 1⟩, ⟨1, 1, 0, 0, 2⟩] (Node.mk ⟨0, 0, 6, 6⟩ 4 4 1 [⟨1, 1, 0, 0, 0⟩]
        none []) =
      .ok (Node.mk ⟨0, 0, 6, 6⟩ 4 4 1 ([⟨1, 1, 0, 0, 0⟩] ++ [⟨1, 1, 0, 0, 1⟩, ⟨1, 1, 0, 0, 2⟩])
        none []) ∧
    ∃ t, (QuadTree.new ⟨0, 0, 100, 100⟩ true 4 1).insertEach 9
        [⟨1, 1, 0, 0, 1⟩, ⟨1, 1, 0, 0, 2⟩] = .ok t ∧
      ∀ m ∈ t.root.allNodes, m._depth ≤ m._maxDepth :=
  insert_depth_cap ⟨0, 0, 100, 100⟩ true 4 1 ⟨0, 0, 6, 6⟩ 4 1 none [⟨1, 1, 0, 0, 0⟩]
    [⟨1, 1, 0, 0, 1⟩, ⟨1, 1, 0, 0, 2⟩] 9 (by decide)

/-- C7, counterexample.  In the freshly subdivided root over `{2^53, 0, 8, 8}`,
`_findIndex` selects the top-left quadrant `{2^53, 0, 4, 4}` for the item
`{2^53, 0, 5, 1}`.  The rectangle of the item is not contained in the
rectangle of the quadrant (its right edge is `2^53 + 5`), yet the insert does
not append the item to the straddling list: it descends, and the quadrant
holds the item afterwards.  The containment test compares the sums as the
number type holds them, and `2^53 + 5` is rounded to `2^53 + 4`. -/
theorem straddler_test_rounds_right_edge :
    ∃ q n1 q1,
      (Node.mk ⟨9007199254740992, 0, 8, 8⟩ 0 4 1 [] (some []) []).subdivide.nodes[
        (Node.mk ⟨9007199254740992, 0, 8, 8⟩ 0 4 1 [] (some []) []).subdivide._findIndex
          ⟨9007199254740992, 0, 5, 1, 0⟩]? = some q ∧
      q._bounds = ⟨9007199254740992, 0, 4, 4⟩ ∧
      ¬ ((9007199254740992 : Int) ≥ q._bounds.x ∧
        (9007199254740992 : Int) + 5 ≤ q._bounds.x + q._bounds.width ∧
        (0 : Int) ≥ q._bounds.y ∧ (0 : Int) + 1 ≤ q._bounds.y + q._bounds.height) ∧
      (Node.mk ⟨9007199254740992, 0, 8, 8⟩ 0 4 1 [] (some []) []).subdivide.insert 9
        ⟨9007199254740992, 0, 5, 1, 0⟩ = .ok n1 ∧
      n1._stuckChildren = some [] ∧
      n1.nodes[0]? = some q1 ∧
      q1.children = [⟨9007199254740992, 0, 5, 1, 0⟩] :=
  ⟨_, _, _, rfl, by decide, by decide, rfl, by decide, rfl, by decide⟩

/-- C7, amended.  Straddler placement.  `n` is an internal `BoundsNode` of a
well-formed tree with straddling list `stuck`, and `q` the quadrant
`_findIndex` selects for `item`.  If the item fails the containment test of
`insert` against the rectangle of `q` (the four comparisons, on the sums as
the number type holds them), the insert appends the item to the straddling
list and leaves quadrants and direct list as they were.  If it passes, the
insert replaces `q` by the result of inserting the item into `q` and leaves
the other quadrants, the straddling list and the direct list as they were.
When the corner coordinates `x`, `y`, `x + width`, `y + height` of the item
and of `q` have magnitude at most `2^53`, the item passes the test exactly
when its rectangle is inside the rectangle of `q`. -/
theorem insert_straddler_placement (n : Node) (item : Item) (stuck : List Item) (q : Node)
    (fuel : Nat) (hwf : n.WF) (hst : n._stuckChildren = some stuck)
    (hq : n.nodes[n._findIndex item]? = some q) (hfuel : n.need ≤ fuel) :
    (q.holds item = false →
      ∃ n1, n.insert fuel item = .ok n1 ∧ n1._stuckChildren = some (stuck ++ [item]) ∧
        n1.nodes = n.nodes ∧ n1.children = n.children) ∧
    (q.holds item = true →
      ∃ q1 n1, q.insert (fuel - 1) item = .ok q1 ∧ n.insert fuel item = .ok n1 ∧
        n1.nodes = n.nodes.set (n._findIndex item) q1 ∧ n1._stuckChildren = some stuck ∧
        n1.children = n.children) ∧
    (item.toBounds.exact → q._bounds.exact →
      (q.holds item = true ↔
        item.x ≥ q._bounds.x ∧ item.x + item.width ≤ q._bounds.x + q._bounds.width ∧
        item.y ≥ q._bounds.y ∧ item.y + item.height ≤ q._bounds.y + q._bounds.height)) := by
  have hn : n.nodes ≠ [] := by
    intro h0; rw [h0] at hq; simp at hq
  obtain ⟨f, rfl⟩ : ∃ f, fuel = f + 1 := ⟨fuel - 1, by have := Node.need_pos_of_wf hwf; omega⟩
  rw [Node.insert_internal_bounds f n item stuck hst hn]
  simp only [hq, Nat.add_sub_cancel]
  refine ⟨?_, ?_, fun ei er => fitsIn_exact q._bounds item ei er⟩
  · intro hh
    refine ⟨n.setStuck (some (stuck ++ [item])), by simp [hh], ?_⟩
    cases n with
    | mk b d md mc ch st nodes => simp
  · intro hh
    have hmem : q ∈ n.nodes := List.getElem?_mem hq
    have hccfg := hwf.quadrant_cfg q hmem
    obtain ⟨hlen, hd⟩ := hwf.shape hn
    have hqneed : q.need ≤ f := by
      have hne : n.nodes.length ≠ 0 := by omega
      simp only [Node.need, hne, ↓reduceIte] at hfuel
      simp only [Node.need, hccfg.1, hccfg.2.1]
      split_ifs <;> omega
    obtain ⟨q1, hq1, _⟩ := Node.insert_spec f q item (hwf.nodes_wf q hmem) hqneed
    refine ⟨q1, n.setNodes (n.nodes.set (n._findIndex item) q1), hq1, by simp [hh, hq1], ?_⟩
    cases n with
    | mk b d md mc ch st nodes =>
      simp only [Node._stuckChildren_mk] at hst
      simp [hst]

/-- C7, at an instance: the freshly subdivided root over `{0, 0, 100, 100}` and
the item `{40, 40, 20, 20}`, which reaches out of the top-left quadrant. -/
theorem insert_straddler_placement_witness :
    (freshQuadrant (some []) ⟨0, 0, 50, 50⟩ 0 4 2).holds ⟨40, 40, 20, 20, 7⟩ = false ∧
    ∃ n1, (Node.mk ⟨0, 0, 100, 100⟩ 0 4 2 [] (some []) []).subdivide.insert 9
        ⟨40, 40, 20, 20, 7⟩ = .ok n1 ∧
      n1._stuckChildren = some ([] ++ [⟨40, 40, 20, 20, 7⟩]) ∧
      n1.nodes = (Node.mk ⟨0, 0, 100, 100⟩ 0 4 2 [] (some []) []).subdivide.nodes ∧
      n1.children = (Node.mk ⟨0, 0, 100, 100⟩ 0 4 2 [] (some []) []).subdivide.children :=
  ⟨by decide,
    (insert_straddler_placement (Node.mk ⟨0, 0, 100, 100⟩ 0 4 2 [] (some []) []).subdivide
      ⟨40, 40, 20, 20, 7⟩ [] (freshQuadrant (some []) ⟨0, 0, 50, 50⟩ 0 4 2) 9
      (Node.subdivide_leaf_wf ⟨0, 0, 100, 100⟩ 0 4 2 [] (some []) (by decide) (by decide))
      rfl rfl (by decide)).1 (by decide)⟩

/-- C8.  Single ownership.  After any sequence of inserts into a fresh tree of
either class, the direct and straddling lists of all nodes hold, taken
together, exactly the inserted items with their multiplicities; in a point
tree the direct lists of the leaves do.  An item inserted once is held by
exactly one node, and in a point tree by exactly one leaf, in its direct list. -/
theorem insert_single_ownership (bounds : Bounds) (pointQuad : Bool)
    (maxDepth maxChildren : Nat) (items : List Item) (fuel : Nat)
    (hfuel : (QuadTree.new bounds pointQuad maxDepth maxChildren).enoughFuel ≤ fuel) :
    ∃ t, (QuadTree.new bounds pointQuad maxDepth maxChildren).insertEach fuel items = .ok t ∧
      List.Perm t.root.storedItems items ∧
      (pointQuad = true → List.Perm t.root.leafItems items) ∧
      (∀ i, items.count i = 1 →
        t.root.allNodes.countP (fun m => decide (i ∈ m.ownItems)) = 1) ∧
      (pointQuad = true → ∀ i, items.count i = 1 →
        t.root.allNodes.countP (fun m => m.isLeaf && decide (i ∈ m.children)) = 1) := by
  obtain ⟨t, ht, wf, cfg, perm, hset⟩ := QuadTree.insertEach_spec fuel items
    (QuadTree.new bounds pointQuad maxDepth maxChildren) (QuadTree.new_wf _ _ _ _) hfuel
  have hperm : List.Perm t.root.storedItems items := by
    simpa [QuadTree.new_storedItems] using perm
  have hleaf : pointQuad = true → t.root.storedItems = t.root.leafItems := by
    intro hp
    subst hp
    have hsettled := wf.allNodes_settled (hset (QuadTree.new_settled _ _ _ _))
    have hclass := wf.allNodes_class
    have hb : t.root.isBoundsNode = false := by
      rw [cfg.2.2.2.2, QuadTree.new_root]; rfl
    exact flatMap_ownItems_eq_leaf _ (fun m hm => ⟨hsettled m hm, (hclass m hm).trans hb⟩)
  refine ⟨t, ht, hperm, fun hp => (hleaf hp) ▸ hperm, ?_, ?_⟩
  · intro i hi
    exact countP_mem_of_count_flatMap Node.ownItems i _ (by rw [← hi]; exact hperm.count_eq i)
  · intro hp i hi
    have h1 : t.root.leafItems.count i = 1 := by
      rw [← hleaf hp, ← hi]; exact hperm.count_eq i
    have h2 := countP_mem_of_count_flatMap Node.children i _ h1
    rw [List.countP_filter] at h2
    rw [← h2]
    congr 1
    funext m
    exact Bool.and_comm _ _

/-- C8, at an instance: three points in a point tree over `{0, 0, 100, 100}`
with threshold 1. -/
theorem insert_single_ownership_witness :
    ∃ t, (QuadTree.new ⟨0, 0, 100, 100⟩ true 4 1).insertEach 9
        [⟨10, 10, 0, 0, 0⟩, ⟨60, 60, 0, 0, 1⟩, ⟨40, 40, 0, 0, 2⟩] = .ok t ∧
      List.Perm t.root.storedItems [⟨10, 10, 0, 0, 0⟩, ⟨60, 60, 0, 0, 1⟩, ⟨40, 40, 0, 0, 2⟩] ∧
      (true = true → List.Perm t.root.leafItems
        [⟨10, 10, 0, 0, 0⟩, ⟨60, 60, 0, 0, 1⟩, ⟨40, 40, 0, 0, 2⟩]) ∧
      (∀ i, List.count i [(⟨10, 10, 0, 0, 0⟩ : Item), ⟨60, 60, 0, 0, 1⟩, ⟨40, 40, 0, 0, 2⟩]
          = 1 →
        t.root.allNodes.countP (fun m => decide (i ∈ m.ownItems)) = 1) ∧
      (true = true → ∀ i,
        List.count i [(⟨10, 10, 0, 0, 0⟩ : Item), ⟨60, 60, 0, 0, 1⟩, ⟨40, 40, 0, 0, 2⟩] = 1 →
        t.root.allNodes.countP (fun m => m.isLeaf && decide (i ∈ m.children)) = 1) :=
  insert_single_ownership ⟨0, 0, 100, 100⟩ true 4 1
    [⟨10, 10, 0, 0, 0⟩, ⟨60, 60, 0, 0, 1⟩, ⟨40, 40, 0, 0, 2⟩] 9 (by decide)

/-- C9 (defect of the code).  A `BoundsNode` tree over `{0, 0, 100, 100}` with
threshold 1 holds the items `{10, 10, 1, 1}` and `{60, 60, 1, 1}`.  The descent
for the first item goes from the root, whose straddling list is empty, to a
leaf whose direct list is that one item, yet `QuadTree.retrieve` returns the
item twice: the root appends the shared scratch array, which the leaf has
just filled and returned, to itself. -/
theorem retrieve_bounded_repeats_leaf_items :
    ∃ t, (QuadTree.new ⟨0, 0, 100, 100⟩ false 4 1).insertEach 9
        [⟨10, 10, 1, 1, 0⟩, ⟨60, 60, 1, 1, 1⟩] = .ok t ∧
      t.root._stuckChildren = some [] ∧
      (∃ leaf, t.root.nodes[t.root._findIndex ⟨10, 10, 1, 1, 0⟩]? = some leaf ∧
        leaf.nodes = [] ∧ leaf._stuckChildren = some [] ∧
        leaf.children = [⟨10, 10, 1, 1, 0⟩]) ∧
      t.retrieve ⟨10, 10, 1, 1, 0⟩ [] = .ok [⟨10, 10, 1, 1, 0⟩, ⟨10, 10, 1, 1, 0⟩] :=
  ⟨_, rfl, rfl, ⟨_, rfl, rfl, rfl, rfl⟩, rfl⟩

/-- C10.  After any sequence of inserts into a fresh tree of either class,
`clear` leaves a root that is a leaf with an empty direct list, an empty
straddling list (none for a point tree) and no quadrants, over the bounds of
the constructor, at depth 0, with the cap and the threshold it had: the tree
the constructor built.  A second `clear` changes nothing. -/
theorem clear_resets (bounds : Bounds) (pointQuad : Bool) (maxDepth maxChildren : Nat)
    (items : List Item) (fuel : Nat)
    (hfuel : (QuadTree.new bounds pointQuad maxDepth maxChildren).enoughFuel ≤ fuel) :
    ∃ t, (QuadTree.new bounds pointQuad maxDepth maxChildren).insertEach fuel items = .ok t ∧
      t.clear.root = Node.mk bounds 0 t.root._maxDepth t.root._maxChildren []
        (if pointQuad then none else some []) [] ∧
      t.clear = QuadTree.new bounds pointQuad maxDepth maxChildren ∧
      t.clear.clear = t.clear := by
  obtain ⟨t, ht, wf, cfg, _, _⟩ := QuadTree.insertEach_spec fuel items
    (QuadTree.new bounds pointQuad maxDepth maxChildren) (QuadTree.new_wf _ _ _ _) hfuel
  refine ⟨t, ht, ?_⟩
  obtain ⟨c1, c2, c3, c4, c5⟩ := cfg
  have hnew : ∀ x : QuadTree, x.root = (QuadTree.new bounds pointQuad maxDepth maxChildren).root →
      x = QuadTree.new bounds pointQuad maxDepth maxChildren := by
    intro x hx
    cases x
    simp only at hx
    rw [hx]
  rw [QuadTree.new_root] at c1 c2 c3 c4 c5
  obtain ⟨root⟩ := t
  cases root with
  | mk b d md mc ch st nodes =>
    simp only [Node._bounds_mk, Node._depth_mk, Node._maxDepth_mk, Node._maxChildren_mk,
      Node.isBoundsNode_mk] at c1 c2 c3 c4 c5
    subst c1 c2 c3 c4
    have hclear : ∀ md mc : Nat, (Node.mk b 0 md mc ch st nodes).clear =
        Node.mk b 0 md mc [] (if pointQuad then none else some []) [] := by
      intro md mc
      cases st with
      | none =>
        cases pointQuad
        · simp at c5
        · simp [Node.clear]
      | some s =>
        cases pointQuad
        · by_cases hn : nodes.length = 0
          · simp [Node.clear, hn, List.length_eq_zero.mp hn]
          · simp [Node.clear, hn]
        · simp at c5
    refine ⟨hclear _ _, ?_, ?_⟩
    · apply hnew
      rw [QuadTree.new_root]
      exact hclear _ _
    · simp only [QuadTree.clear, hclear]
      cases pointQuad <;> simp [Node.clear]

/-- C10, at an instance: a `BoundsNode` tree with threshold 1 after three inserts. -/
theorem clear_resets_witness :
    ∃ t, (QuadTree.new ⟨0, 0, 100, 100⟩ false 4 1).insertEach 9
        [⟨10, 10, 5, 5, 0⟩, ⟨60, 60, 5, 5, 1⟩, ⟨40, 40, 20, 20, 2⟩] = .ok t ∧
      t.clear.root = Node.mk ⟨0, 0, 100, 100⟩ 0 t.root._maxDepth t.root._maxChildren []
        (if false then none else some []) [] ∧
      t.clear = QuadTree.new ⟨0, 0, 100, 100⟩ false 4 1 ∧
      t.clear.clear = t.clear :=
  clear_resets ⟨0, 0, 100, 100⟩ false 4 1
    [⟨10, 10, 5, 5, 0⟩, ⟨60, 60, 5, 5, 1⟩, ⟨40, 40, 20, 20, 2⟩] 9 (by decide)

/-- C11 (defect of the code).  A `BoundsNode` tree that holds no item, fresh
or cleared, answers every window query with the empty list.  A point tree
does not: over the zero-area bounds `{0, 0, 0, 0}` the query `{0, 0, 0, 0}`
ends in a `TypeError`, and so does the query `{10, 10, 5, 5}` on a cleared
point tree over `{0, 0, 100, 100}`, because the collection step appends the
`undefined` `_stuckChildren` of the root. -/
theorem retrieveInBounds_empty_tree :
    (∀ (bounds q : Bounds) (maxDepth maxChildren : Nat),
      (QuadTree.new bounds false maxDepth maxChildren).retrieveInBounds q = .ok [] ∧
      (QuadTree.new bounds false maxDepth maxChildren).clear.retrieveInBounds q = .ok []) ∧
    (QuadTree.new ⟨0, 0, 0, 0⟩ true 4 4).retrieveInBounds ⟨0, 0, 0, 0⟩ = .typeError ∧
    (QuadTree.new ⟨0, 0, 100, 100⟩ true 4 4).clear.retrieveInBounds ⟨10, 10, 5, 5⟩
      = .typeError := by
  refine ⟨?_, by decide, by decide⟩
  intro bounds q maxDepth maxChildren
  have h : ∀ md mc : Nat, QuadTree.retrieveInBounds ⟨Node.mk bounds 0 md mc [] (some []) []⟩ q
      = .ok [] := by
    intro md mc
    simp only [QuadTree.retrieveInBounds, QuadTree._filterResults, Node.retrieveInBounds,
      concatValue]
    split_ifs <;> rfl
  constructor
  · simpa [QuadTree.new, Node.new, BoundsNode.new] using h _ _
  · simpa [QuadTree.new, Node.new, BoundsNode.new, QuadTree.clear, Node.clear] using h _ _

/-! ### Geometry lemmas -/

/-- A comparison of doubled integers is the comparison with the exact half. -/
theorem doubled_gt_iff (a b w : Int) :
    2 * a > 2 * b + w ↔ (a : ℚ) > (b : ℚ) + (w : ℚ) / 2 := by
  constructor
  · intro h
    have h1 : ((2 * b + w : Int) : ℚ) < ((2 * a : Int) : ℚ) := by exact_mod_cast h
    push_cast at h1
    linarith
  · intro h
    have h1 : ((2 * b + w : Int) : ℚ) < ((2 * a : Int) : ℚ) := by
      push_cast
      linarith
    exact_mod_cast h1

/-- C13, counterexample.  In a node with rectangle `{2^53, 0, 3, 10}` the item
at `x = 2^53 + 2`, `y = 0` lies to the right of the exact centre
`cx = 2^53 + 3/2` and not below `cy = 5`, so the characterisation by exact
halves gives `TOP_RIGHT`; `_findIndex` returns `TOP_LEFT`, because the sum
`b.x + b.width / 2` is rounded to `2^53 + 2`, which the item does not exceed. -/
theorem findIndex_rounds_centre :
    (Node.mk ⟨9007199254740992, 0, 3, 10⟩ 0 4 4 [] none [])._findIndex
      ⟨9007199254740994, 0, 0, 0, 0⟩ = Node.TOP_LEFT ∧
    ((9007199254740994 : Int) : ℚ) > ((9007199254740992 : Int) : ℚ) + ((3 : Int) : ℚ) / 2 ∧
    ((0 : Int) : ℚ) ≤ ((0 : Int) : ℚ) + ((10 : Int) : ℚ) / 2 ∧
    ¬ ((Node.mk ⟨9007199254740992, 0, 3, 10⟩ 0 4 4 [] none [])._findIndex
        ⟨9007199254740994, 0, 0, 0, 0⟩ = Node.TOP_RIGHT ↔
      ((9007199254740994 : Int) : ℚ) > ((9007199254740992 : Int) : ℚ) + ((3 : Int) : ℚ) / 2 ∧
      ((0 : Int) : ℚ) ≤ ((0 : Int) : ℚ) + ((10 : Int) : ℚ) / 2) := by
  have h0 : (Node.mk ⟨9007199254740992, 0, 3, 10⟩ 0 4 4 [] none [])._findIndex
      ⟨9007199254740994, 0, 0, 0, 0⟩ = Node.TOP_LEFT := by decide
  have h1 : ((9007199254740994 : Int) : ℚ) >
      ((9007199254740992 : Int) : ℚ) + ((3 : Int) : ℚ) / 2 := by norm_num
  have h2 : ((0 : Int) : ℚ) ≤ ((0 : Int) : ℚ) + ((10 : Int) : ℚ) / 2 := by norm_num
  refine ⟨h0, h1, h2, ?_⟩
  intro h
  have h3 := h.mpr ⟨h1, h2⟩
  rw [h0] at h3
  exact absurd h3 (by decide)

/-- C13, amended.  The four constants are 0, 1, 2, 3 and two items with the
same origin get the same quadrant, whatever the node and the items.  For an
item and a node rectangle `b` with `item.x`, `item.y`, `2 * b.x + b.width` and
`2 * b.y + b.height` of magnitude at most `2^53` (so that the sums
`b.x + b.width / 2` and `b.y + b.height / 2` are formed without rounding), and
with the centre `(cx, cy) = (b.x + b.width / 2, b.y + b.height / 2)` taken
exactly, `_findIndex` returns `TOP_LEFT` iff `item.x ≤ cx` and `item.y ≤ cy`,
`TOP_RIGHT` iff `item.x > cx` and `item.y ≤ cy`, `BOTTOM_LEFT` iff
`item.x ≤ cx` and `item.y > cy`, and `BOTTOM_RIGHT` iff `item.x > cx` and
`item.y > cy`. -/
theorem findIndex_quadrant (n : Node) (item : Item) :
    (Node.TOP_LEFT = 0 ∧ Node.TOP_RIGHT = 1 ∧ Node.BOTTOM_LEFT = 2 ∧ Node.BOTTOM_RIGHT = 3) ∧
    (∀ other : Item, other.x = item.x → other.y = item.y →
      n._findIndex other = n._findIndex item) ∧
    (exactInt item.x → exactInt item.y →
      exactInt (2 * n._bounds.x + n._bounds.width) →
      exactInt (2 * n._bounds.y + n._bounds.height) →
      (n._findIndex item = Node.TOP_LEFT ↔
        (item.x : ℚ) ≤ (n._bounds.x : ℚ) + (n._bounds.width : ℚ) / 2 ∧
        (item.y : ℚ) ≤ (n._bounds.y : ℚ) + (n._bounds.height : ℚ) / 2) ∧
      (n._findIndex item = Node.TOP_RIGHT ↔
        (item.x : ℚ) > (n._bounds.x : ℚ) + (n._bounds.width : ℚ) / 2 ∧
        (item.y : ℚ) ≤ (n._bounds.y : ℚ) + (n._bounds.height : ℚ) / 2) ∧
      (n._findIndex item = Node.BOTTOM_LEFT ↔
        (item.x : ℚ) ≤ (n._bounds.x : ℚ) + (n._bounds.width : ℚ) / 2 ∧
        (item.y : ℚ) > (n._bounds.y : ℚ) + (n._bounds.height : ℚ) / 2) ∧
      (n._findIndex item = Node.BOTTOM_RIGHT ↔
        (item.x : ℚ) > (n._bounds.x : ℚ) + (n._bounds.width : ℚ) / 2 ∧
        (item.y : ℚ) > (n._bounds.y : ℚ) + (n._bounds.height : ℚ) / 2)) := by
  refine ⟨⟨rfl, rfl, rfl, rfl⟩, ?_, ?_⟩
  · intro other h1 h2
    unfold Node._findIndex
    rw [h1, h2]
  intro hx hy hcx hcy
  have ex := doubled_gt_iff item.x n._bounds.x n._bounds.width
  have ey := doubled_gt_iff item.y n._bounds.y n._bounds.height
  have dx : dbl item.x = item.x := dbl_small _ hx.1 hx.2
  have dy : dbl item.y = item.y := dbl_small _ hy.1 hy.2
  have cx := round53_small _ hcx.1 hcx.2
  have cy := round53_small _ hcy.1 hcy.2
  refine ⟨?_, ?_, ?_, ?_⟩
  · rw [← not_lt, ← not_lt, ← gt_iff_lt, ← gt_iff_lt, ← ex, ← ey]
    unfold Node._findIndex
    simp only [Node.TOP_LEFT, Node.TOP_RIGHT, Node.BOTTOM_LEFT, Node.BOTTOM_RIGHT, dx, dy, cx, cy]
    split_ifs <;> simp_all
  · rw [← not_lt, ← gt_iff_lt, ← ex, ← ey]
    unfold Node._findIndex
    simp only [Node.TOP_LEFT, Node.TOP_RIGHT, Node.BOTTOM_LEFT, Node.BOTTOM_RIGHT, dx, dy, cx, cy]
    split_ifs <;> simp_all
  · rw [← not_lt, ← gt_iff_lt, ← ex, ← ey]
    unfold Node._findIndex
    simp only [Node.TOP_LEFT, Node.TOP_RIGHT, Node.BOTTOM_LEFT, Node.BOTTOM_RIGHT, dx, dy, cx, cy]
    split_ifs <;> simp_all
  · rw [← ex, ← ey]
    unfold Node._findIndex
    simp only [Node.TOP_LEFT, Node.TOP_RIGHT, Node.BOTTOM_LEFT, Node.BOTTOM_RIGHT, dx, dy, cx, cy]
    split_ifs <;> simp_all

/-- C13, at an instance: in the node rectangle `{0, 0, 5, 5}` the centre is
`(5/2, 5/2)`; the item at `(3, 2)` is routed to `TOP_RIGHT`. -/
theorem findIndex_quadrant_witness :
    (exactInt 3 ∧ exactInt 2 ∧ exactInt (2 * 0 + 5)) ∧
    ((Node.mk ⟨0, 0, 5, 5⟩ 0 4 4 [] none [])._findIndex ⟨3, 2, 0, 0, 0⟩ = Node.TOP_RIGHT ↔
      ((3 : Int) : ℚ) > ((0 : Int) : ℚ) + ((5 : Int) : ℚ) / 2 ∧
      ((2 : Int) : ℚ) ≤ ((0 : Int) : ℚ) + ((5 : Int) : ℚ) / 2) :=
  ⟨by decide,
    ((findIndex_quadrant (Node.mk ⟨0, 0, 5, 5⟩ 0 4 4 [] none []) ⟨3, 2, 0, 0, 0⟩).2.2
      (by decide) (by decide) (by decide) (by decide)).2.1⟩

/-- The overlap test on two rectangles whose corner sums are exact is the
comparison of the exact sums. -/
theorem overlap_exact (b1 b2 : Bounds) (e1 : b1.exact) (e2 : b2.exact) :
    QuadTree._isBoundOverlappingBound b1 b2 = true ↔
      b1.x ≤ b2.x + b2.width ∧ b2.x ≤ b1.x + b1.width ∧
      b1.y ≤ b2.y + b2.height ∧ b2.y ≤ b1.y + b1.height := by
  obtain ⟨a1, a2, a3, a4⟩ := e1
  obtain ⟨c1, c2, c3, c4⟩ := e2
  simp only [QuadTree._isBoundOverlappingBound, Bool.not_eq_true', Bool.or_eq_false_iff,
    decide_eq_false_iff_not, not_lt, gt_iff_lt,
    dbl_small _ a1.1 a1.2, dbl_small _ a2.1 a2.2, dbl_small _ a3.1 a3.2, dbl_small _ a4.1 a4.2,
    dbl_small _ c1.1 c1.2, dbl_small _ c2.1 c2.2, dbl_small _ c3.1 c3.2, dbl_small _ c4.1 c4.2]
  tauto

/-- C14, counterexample.  The rectangles `{2^53 + 2, 0, 1, 0}` and
`{2^53 + 4, 0, 0, 0}` have non-negative width and height and no point in
common (the first ends at `x = 2^53 + 3`, the second starts at `2^53 + 4`),
yet the test reports an overlap: the sum `b1.x + b1.width` is rounded to
`2^53 + 4`. -/
theorem overlap_rounds_corner_sum :
    QuadTree._isBoundOverlappingBound ⟨9007199254740994, 0, 1, 0⟩ ⟨9007199254740996, 0, 0, 0⟩
      = true ∧
    ¬ ∃ px py : ℚ, ((9007199254740994 : Int) : ℚ) ≤ px ∧
        px ≤ ((9007199254740994 : Int) : ℚ) + ((1 : Int) : ℚ) ∧
        ((0 : Int) : ℚ) ≤ py ∧ py ≤ ((0 : Int) : ℚ) + ((0 : Int) : ℚ) ∧
        ((9007199254740996 : Int) : ℚ) ≤ px ∧
        px ≤ ((9007199254740996 : Int) : ℚ) + ((0 : Int) : ℚ) ∧
        ((0 : Int) : ℚ) ≤ py ∧ py ≤ ((0 : Int) : ℚ) + ((0 : Int) : ℚ) := by
  refine ⟨by decide, ?_⟩
  rintro ⟨px, py, -, h2, -, -, h5, -, -, -⟩
  norm_num at h2 h5
  linarith

/-- C14, amended.  `collidesWith` is `_isBoundOverlappingBound` applied to the
bounds of the node, and the test is symmetric in its two rectangles, whatever
the rectangles.  For two rectangles of non-negative width and height whose
corner coordinates `x`, `y`, `x + width`, `y + height` have magnitude at most
`2^53` (so that the test forms its sums without rounding), the test holds
exactly when the two closed rectangles have a point of the plane in common,
as they have when they touch along an edge or at a corner. -/
theorem overlap_test (n : Node) (b1 b2 : Bounds) :
    n.collidesWith b2 = QuadTree._isBoundOverlappingBound n._bounds b2 ∧
    QuadTree._isBoundOverlappingBound b1 b2 = QuadTree._isBoundOverlappingBound b2 b1 ∧
    (0 ≤ b1.width → 0 ≤ b1.height → 0 ≤ b2.width → 0 ≤ b2.height → b1.exact → b2.exact →
      (QuadTree._isBoundOverlappingBound b1 b2 = true ↔
        ∃ px py : ℚ, (b1.x : ℚ) ≤ px ∧ px ≤ (b1.x : ℚ) + b1.width ∧
          (b1.y : ℚ) ≤ py ∧ py ≤ (b1.y : ℚ) + b1.height ∧
          (b2.x : ℚ) ≤ px ∧ px ≤ (b2.x : ℚ) + b2.width ∧
          (b2.y : ℚ) ≤ py ∧ py ≤ (b2.y : ℚ) + b2.height) ∧
      (b2.x = b1.x + b1.width → b2.y = b1.y →
        QuadTree._isBoundOverlappingBound b1 b2 = true) ∧
      (b2.x = b1.x + b1.width → b2.y = b1.y + b1.height →
        QuadTree._isBoundOverlappingBound b1 b2 = true)) := by
  refine ⟨rfl, ?_, ?_⟩
  · simp only [QuadTree._isBoundOverlappingBound]
    congr 1
    cases decide (dbl b1.x > dbl (b2.x + b2.width)) <;>
      cases decide (dbl b2.x > dbl (b1.x + b1.width)) <;>
      cases decide (dbl b1.y > dbl (b2.y + b2.height)) <;>
      cases decide (dbl b2.y > dbl (b1.y + b1.height)) <;> rfl
  · intro hw1 hh1 hw2 hh2 e1 e2
    rw [overlap_exact b1 b2 e1 e2]
    refine ⟨?_, ?_, ?_⟩
    · constructor
      · rintro ⟨h1, h2, h3, h4⟩
        refine ⟨((max b1.x b2.x : Int) : ℚ), ((max b1.y b2.y : Int) : ℚ), ?_, ?_, ?_, ?_, ?_,
          ?_, ?_, ?_⟩
        · exact_mod_cast le_max_left _ _
        · have : max b1.x b2.x ≤ b1.x + b1.width := max_le (by omega) h2
          exact_mod_cast this
        · exact_mod_cast le_max_left _ _
        · have : max b1.y b2.y ≤ b1.y + b1.height := max_le (by omega) h4
          exact_mod_cast this
        · exact_mod_cast le_max_right _ _
        · have : max b1.x b2.x ≤ b2.x + b2.width := max_le h1 (by omega)
          exact_mod_cast this
        · exact_mod_cast le_max_right _ _
        · have : max b1.y b2.y ≤ b2.y + b2.height := max_le h3 (by omega)
          exact_mod_cast this
      · rintro ⟨px, py, a1, a2, a3, a4, c1, c2, c3, c4⟩
        have f1 : (b1.x : ℚ) ≤ ((b2.x + b2.width : Int) : ℚ) := by push_cast; linarith
        have f2 : (b2.x : ℚ) ≤ ((b1.x + b1.width : Int) : ℚ) := by push_cast; linarith
        have f3 : (b1.y : ℚ) ≤ ((b2.y + b2.height : Int) : ℚ) := by push_cast; linarith
        have f4 : (b2.y : ℚ) ≤ ((b1.y + b1.height : Int) : ℚ) := by push_cast; linarith
        exact ⟨by exact_mod_cast f1, by exact_mod_cast f2, by exact_mod_cast f3,
          by exact_mod_cast f4⟩
    · intro h1 h2
      omega
    · intro h1 h2
      omega

/-- C14, at an instance: `{0, 0, 10, 10}` and `{10, 10, 5, 5}` touch at a corner. -/
theorem overlap_test_witness :
    ((0 : Int) ≤ 10 ∧ (0 : Int) ≤ 5 ∧ (⟨0, 0, 10, 10⟩ : Bounds).exact ∧
      (⟨10, 10, 5, 5⟩ : Bounds).exact) ∧
    QuadTree._isBoundOverlappingBound ⟨0, 0, 10, 10⟩ ⟨10, 10, 5, 5⟩ = true :=
  ⟨by decide,
    ((overlap_test (Node.mk ⟨0, 0, 10, 10⟩ 0 4 4 [] none []) ⟨0, 0, 10, 10⟩ ⟨10, 10, 5, 5⟩).2.2
      (by decide) (by decide) (by decide) (by decide) (by decide) (by decide)).2.2 rfl rfl⟩

/-- C15, counterexample.  Constructed with `maxDepth = 0` and
`maxChildren = 0`, the root does not get the cap 0 and the threshold 0: both
tests `if(maxDepth)` and `if(maxChildren)` fail and the prototype defaults 4
and 4 stay in place. -/
theorem construct_zero_arguments_default :
    ¬ ((QuadTree.new ⟨0, 0, 100, 100⟩ false 0 0).root._maxDepth = 0 ∧
        (QuadTree.new ⟨0, 0, 100, 100⟩ false 0 0).root._maxChildren = 0) ∧
    (QuadTree.new ⟨0, 0, 100, 100⟩ false 0 0).root._maxDepth = 4 ∧
    (QuadTree.new ⟨0, 0, 100, 100⟩ false 0 0).root._maxChildren = 4 := by
  decide

/-- C15, amended.  For every bounds, class and arguments, the root of the
constructed tree is a leaf at depth 0 over the bounds with an empty direct
list (and, for a `BoundsNode`, an empty straddling list); its cap is the given
`maxDepth` and its threshold the given `maxChildren` when these are not 0, and
the default 4 for an argument that is 0. -/
theorem construct_root (bounds : Bounds) (pointQuad : Bool) (maxDepth maxChildren : Nat) :
    (QuadTree.new bounds pointQuad maxDepth maxChildren).root =
      Node.mk bounds 0 (if maxDepth = 0 then 4 else maxDepth)
        (if maxChildren = 0 then 4 else maxChildren) []
        (if pointQuad then none else some []) [] := by
  cases pointQuad <;> simp [QuadTree.new, Node.new, BoundsNode.new]

/-- C17 (defect of the code).  For the width `2^32` the quadrants of
`subdivide` do not get the width `floor(w / 2) = 2^31` that the claim and the
comment `//floor the values` of the source state: the conversion `| 0` wraps
the half to `-2^31`, and the top-right quadrant starts left of its parent. -/
theorem subdivide_wraps_large_width :
    ((Node.mk ⟨0, 0, 4294967296, 10⟩ 0 4 4 [] (some []) []).subdivide.nodes.map Node._bounds) =
      [⟨0, 0, -2147483648, 5⟩, ⟨-2147483648, 0, -2147483648, 5⟩,
        ⟨0, 5, -2147483648, 5⟩, ⟨-2147483648, 5, -2147483648, 5⟩] ∧
    ((Node.mk ⟨0, 0, 4294967296, 10⟩ 0 4 4 [] (some []) []).subdivide.nodes.map Node._bounds) ≠
      [⟨0, 0, 4294967296 / 2, 10 / 2⟩, ⟨0 + 4294967296 / 2, 0, 4294967296 / 2, 10 / 2⟩,
        ⟨0, 0 + 10 / 2, 4294967296 / 2, 10 / 2⟩,
        ⟨0 + 4294967296 / 2, 0 + 10 / 2, 4294967296 / 2, 10 / 2⟩] := by
  decide

theorem halfFloor_eq (w : Int) (h0 : 0 ≤ w) (h1 : w < 4294967296) : halfFloor w = w / 2 := by
  unfold halfFloor toInt32
  have h2 : Int.tdiv w 2 = w / 2 := Int.tdiv_eq_ediv h0 (by decide)
  rw [h2]
  omega

/-- Where the conversion `| 0` does not wrap and the sums are formed without
rounding, the quadrants are the floored halves.  For a node whose rectangle
`{x, y, w, h}` has `0 ≤ w < 2^32`, `0 ≤ h < 2^32` and corner coordinates of
magnitude at most `2^53`, `subdivide` writes to the first four entries of
`nodes` quadrants with the rectangles `{x, y, fw, fh}`, `{x + fw, y, fw, fh}`,
`{x, y + fh, fw, fh}`, `{x + fw, y + fh, fw, fh}`, where `fw = floor(w / 2)`
and `fh = floor(h / 2)`; each of them lies inside the rectangle of the node,
and `fw + fw` is `w` for even `w` and `w - 1` for odd `w`, likewise for `h`. -/
theorem subdivide_geometry (n : Node)
    (hw0 : 0 ≤ n._bounds.width) (hw1 : n._bounds.width < 4294967296)
    (hh0 : 0 ≤ n._bounds.height) (hh1 : n._bounds.height < 4294967296)
    (he : n._bounds.exact) :
    (n.subdivide.nodes.take 4).map Node._bounds =
      [⟨n._bounds.x, n._bounds.y, n._bounds.width / 2, n._bounds.height / 2⟩,
        ⟨n._bounds.x + n._bounds.width / 2, n._bounds.y, n._bounds.width / 2,
          n._bounds.height / 2⟩,
        ⟨n._bounds.x, n._bounds.y + n._bounds.height / 2, n._bounds.width / 2,
          n._bounds.height / 2⟩,
        ⟨n._bounds.x + n._bounds.width / 2, n._bounds.y + n._bounds.height / 2,
          n._bounds.width / 2, n._bounds.height / 2⟩] ∧
    (∀ c ∈ (n.subdivide.nodes.take 4).map Node._bounds,
      n._bounds.x ≤ c.x ∧ c.x + c.width ≤ n._bounds.x + n._bounds.width ∧
      n._bounds.y ≤ c.y ∧ c.y + c.height ≤ n._bounds.y + n._bounds.height) ∧
    (n._bounds.width % 2 = 0 → n._bounds.width / 2 + n._bounds.width / 2 = n._bounds.width) ∧
    (n._bounds.width % 2 = 1 →
      n._bounds.width / 2 + n._bounds.width / 2 = n._bounds.width - 1) ∧
    (n._bounds.height % 2 = 0 →
      n._bounds.height / 2 + n._bounds.height / 2 = n._bounds.height) ∧
    (n._bounds.height % 2 = 1 →
      n._bounds.height / 2 + n._bounds.height / 2 = n._bounds.height - 1) := by
  have hlist : (n.subdivide.nodes.take 4).map Node._bounds =
      [⟨n._bounds.x, n._bounds.y, n._bounds.width / 2, n._bounds.height / 2⟩,
        ⟨n._bounds.x + n._bounds.width / 2, n._bounds.y, n._bounds.width / 2,
          n._bounds.height / 2⟩,
        ⟨n._bounds.x, n._bounds.y + n._bounds.height / 2, n._bounds.width / 2,
          n._bounds.height / 2⟩,
        ⟨n._bounds.x + n._bounds.width / 2, n._bounds.y + n._bounds.height / 2,
          n._bounds.width / 2, n._bounds.height / 2⟩] := by
    cases n with
    | mk b d md mc ch st nodes =>
      simp only [Node._bounds_mk] at hw0 hw1 hh0 hh1 he
      obtain ⟨e1, e2, e3, e4⟩ := he
      unfold exactInt at e1 e2 e3 e4
      have dx : dbl (b.x + b.width / 2) = b.x + b.width / 2 :=
        dbl_small _ (by omega) (by omega)
      have dy : dbl (b.y + b.height / 2) = b.y + b.height / 2 :=
        dbl_small _ (by omega) (by omega)
      cases st <;>
        simp [Node.subdivide, Node._classConstructor, Node.new, BoundsNode.new,
          halfFloor_eq _ hw0 hw1, halfFloor_eq _ hh0 hh1, dx, dy]
  refine ⟨hlist, ?_, by omega, by omega, by omega, by omega⟩
  rw [hlist]
  intro c hc
  simp only [List.mem_cons, List.mem_singleton, List.not_mem_nil, or_false] at hc
  rcases hc with h | h | h | h <;> subst h <;> simp only <;> omega

/-- The floored halves at an instance: the rectangle `{0, 0, 5, 4}` of odd
width and even height. -/
theorem subdivide_geometry_witness :
    ((Node.mk ⟨0, 0, 5, 4⟩ 0 4 4 [] none []).subdivide.nodes.take 4).map Node._bounds =
      [⟨0, 0, 5 / 2, 4 / 2⟩, ⟨0 + 5 / 2, 0, 5 / 2, 4 / 2⟩, ⟨0, 0 + 4 / 2, 5 / 2, 4 / 2⟩,
        ⟨0 + 5 / 2, 0 + 4 / 2, 5 / 2, 4 / 2⟩] :=
  (subdivide_geometry (Node.mk ⟨0, 0, 5, 4⟩ 0 4 4 [] none []) (by decide) (by decide)
    (by decide) (by decide) (by decide)).1

/-- Beyond `2^53` the origins of the right and bottom quadrants are rounded
sums: for the rectangle `{2^53, 0, 2, 2}` the sum `x + fw = 2^53 + 1` is
rounded to `2^53`, and the right quadrants start where the left ones do. -/
theorem subdivide_rounds_origin :
    ((Node.mk ⟨9007199254740992, 0, 2, 2⟩ 0 4 4 [] (some []) []).subdivide.nodes.map
      Node._bounds) =
      [⟨9007199254740992, 0, 1, 1⟩, ⟨9007199254740992, 0, 1, 1⟩,
        ⟨9007199254740992, 1, 1, 1⟩, ⟨9007199254740992, 1, 1, 1⟩] := by
  decide

/-- C18.  The node rectangle `{0, 0, 5, 5}` contains the point `(5, 5)`, none of
the four rectangles `subdivide` creates for it contains the point, and
`_findIndex` sends the point to the bottom-right quadrant `{2, 2, 2, 2}`. -/
theorem subdivide_uncovered_strip :
    QuadTree._isPointInsideBounds ⟨5, 5, 0, 0, 0⟩
      (Node.mk ⟨0, 0, 5, 5⟩ 0 4 4 [] none [])._bounds = true ∧
    (Node.mk ⟨0, 0, 5, 5⟩ 0 4 4 [] none []).subdivide.nodes.map Node._bounds =
      [⟨0, 0, 2, 2⟩, ⟨2, 0, 2, 2⟩, ⟨0, 2, 2, 2⟩, ⟨2, 2, 2, 2⟩] ∧
    (∀ c ∈ (Node.mk ⟨0, 0, 5, 5⟩ 0 4 4 [] none []).subdivide.nodes.map Node._bounds,
      QuadTree._isPointInsideBounds ⟨5, 5, 0, 0, 0⟩ c = false) ∧
    (Node.mk ⟨0, 0, 5, 5⟩ 0 4 4 [] none [])._findIndex ⟨5, 5, 0, 0, 0⟩ = Node.BOTTOM_RIGHT ∧
    ((Node.mk ⟨0, 0, 5, 5⟩ 0 4 4 [] none []).subdivide.nodes.map Node._bounds)[
      (Node.mk ⟨0, 0, 5, 5⟩ 0 4 4 [] none [])._findIndex ⟨5, 5, 0, 0, 0⟩]? =
      some ⟨2, 2, 2, 2⟩ := by
  decide

/-! ### Multiplicity in the window query -/

theorem count_some_map (l : List Item) (i : Item) :
    (l.map some).count (some i) = l.count i := by
  induction l with
  | nil => rfl
  | cons a rest ih =>
    simp only [List.map_cons, List.count_cons, ih]
    by_cases h : a = i <;> simp [h]

mutual
theorem Node.count_retrieveInBounds_le : ∀ (n : Node) (q : Bounds) (i : Item),
    (n.retrieveInBounds q).count (some i) ≤ n.storedItems.count i
  | .mk b d md mc ch st nodes, q, i => by
    have hloop := count_retrieveInBoundsLoop_le nodes q i
    have hst : (concatValue st).count (some i) = (st.getD []).count i := by
      cases st with
      | none => simp [concatValue]
      | some s =>
        simp only [concatValue, Option.getD_some]
        exact count_some_map s i
    have hch : (ch.map some).count (some i) = ch.count i := count_some_map ch i
    rw [Node.storedItems_mk]
    simp only [Node.retrieveInBounds, List.nil_append]
    split_ifs
    · simp only [List.count_append, hst, hch]; omega
    · simp only [List.count_append, hst]; omega
    · simp only [List.count_append, hst]; omega
    · simp
theorem count_retrieveInBoundsLoop_le : ∀ (ns : List Node) (q : Bounds) (i : Item),
    (retrieveInBoundsLoop ns q).count (some i) ≤ (storedItemsLoop ns).count i
  | [], _, _ => by simp [retrieveInBoundsLoop]
  | n :: rest, q, i => by
    have h1 := Node.count_retrieveInBounds_le n q i
    have h2 := count_retrieveInBoundsLoop_le rest q i
    simp only [retrieveInBoundsLoop, storedItemsLoop_cons, List.count_append]
    omega
end

theorem filterLoop_count_le (test : Item → Bounds → Bool) (l : List (Option Item)) (q : Bounds)
    (r : List Item) (h : filterLoop test l q = .ok r) (i : Item) :
    r.count i ≤ l.count (some i) := by
  induction l generalizing r with
  | nil =>
    simp only [filterLoop, Outcome.ok.injEq] at h
    subst h
    simp
  | cons v rest ih =>
    cases v with
    | none => simp [filterLoop] at h
    | some j =>
      simp only [filterLoop] at h
      cases hrest : filterLoop test rest q with
      | typeError => rw [hrest] at h; simp [Outcome.bind] at h
      | outOfFuel => rw [hrest] at h; simp [Outcome.bind] at h
      | ok kept =>
        rw [hrest] at h
        simp only [Outcome.bind_ok, Outcome.ok.injEq] at h
        have h1 := ih kept hrest
        subst h
        have h2 : (j :: kept).count i ≤ (some j :: rest).count (some i) := by
          simp only [List.count_cons]
          by_cases hji : j = i
          · simp [hji, h1]
          · simp [hji]; omega
        have h3 : kept.count i ≤ (some j :: rest).count (some i) := by
          simp only [List.count_cons]
          omega
        split_ifs
        · exact h2
        · exact h3

/-- C12.  After any sequence of inserts into a fresh tree, whenever the window
query returns a list, no item occurs in it more often than it was inserted,
so the list has no repetition when the inserted items are pairwise distinct.
On a `BoundsNode` tree the query does return a list. -/
theorem retrieveInBounds_no_duplicates (bounds : Bounds) (pointQuad : Bool)
    (maxDepth maxChildren : Nat) (items : List Item) (q : Bounds) (fuel : Nat)
    (hfuel : (QuadTree.new bounds pointQuad maxDepth maxChildren).enoughFuel ≤ fuel) :
    ∃ t, (QuadTree.new bounds pointQuad maxDepth maxChildren).insertEach fuel items = .ok t ∧
      (pointQuad = false → ∃ r, t.retrieveInBounds q = .ok r) ∧
      ∀ r, t.retrieveInBounds q = .ok r →
        (∀ i, r.count i ≤ items.count i) ∧ (items.Nodup → r.Nodup) := by
  obtain ⟨t, ht, wf, cfg, perm, _⟩ := QuadTree.insertEach_spec fuel items
    (QuadTree.new bounds pointQuad maxDepth maxChildren) (QuadTree.new_wf _ _ _ _) hfuel
  refine ⟨t, ht, ?_, ?_⟩
  · intro hp
    subst hp
    have hb : t.root.isBoundsNode = true := by
      rw [cfg.2.2.2.2, QuadTree.new_root]; rfl
    obtain ⟨r, hr, _⟩ := filterLoop_ok QuadTree._isPointInsideBounds
      (t.root.retrieveInBounds q) q
      (fun v hv => (wf.retrieveInBounds_stored hb q v hv).imp fun _ h => h.1)
    exact ⟨r, by simpa [QuadTree.retrieveInBounds, QuadTree._filterResults] using hr⟩
  · intro r hr
    have hr1 : filterLoop QuadTree._isPointInsideBounds (t.root.retrieveInBounds q) q = .ok r := by
      simpa [QuadTree.retrieveInBounds, QuadTree._filterResults] using hr
    have hcount : ∀ i, r.count i ≤ items.count i := by
      intro i
      have h1 := filterLoop_count_le _ _ q r hr1 i
      have h2 := Node.count_retrieveInBounds_le t.root q i
      have h3 : t.root.storedItems.count i = items.count i := by
        rw [perm.count_eq i, QuadTree.new_storedItems]
        simp
      omega
    refine ⟨hcount, fun hnd => ?_⟩
    rw [List.nodup_iff_count_le_one]
    intro i
    exact (hcount i).trans (List.nodup_iff_count_le_one.mp hnd i)

/-- C12, at an instance: three distinct items in a `BoundsNode` tree with threshold 1. -/
theorem retrieveInBounds_no_duplicates_witness :
    ∃ t, (QuadTree.new ⟨0, 0, 100, 100⟩ false 4 1).insertEach 9
        [⟨10, 10, 5, 5, 0⟩, ⟨60, 60, 5, 5, 1⟩, ⟨40, 40, 20, 20, 2⟩] = .ok t ∧
      (false = false → ∃ r, t.retrieveInBounds ⟨0, 0, 70, 70⟩ = .ok r) ∧
      ∀ r, t.retrieveInBounds ⟨0, 0, 70, 70⟩ = .ok r →
        (∀ i, r.count i ≤
          List.count i [(⟨10, 10, 5, 5, 0⟩ : Item), ⟨60, 60, 5, 5, 1⟩, ⟨40, 40, 20, 20, 2⟩]) ∧
        (List.Nodup [(⟨10, 10, 5, 5, 0⟩ : Item), ⟨60, 60, 5, 5, 1⟩, ⟨40, 40, 20, 20, 2⟩] →
          r.Nodup) :=
  retrieveInBounds_no_duplicates ⟨0, 0, 100, 100⟩ false 4 1
    [⟨10, 10, 5, 5, 0⟩, ⟨60, 60, 5, 5, 1⟩, ⟨40, 40, 20, 20, 2⟩] ⟨0, 0, 70, 70⟩ 9 (by decide)

/-! ### Sequences of inserts and clears -/

theorem Node.clear_mk (b : Bounds) (d md mc : Nat) (ch : List Item) (st : Option (List Item))
    (nodes : List Node) :
    (Node.mk b d md mc ch st nodes).clear =
      Node.mk b d md mc [] (st.map fun _ => []) [] := by
  cases st with
  | none => simp [Node.clear]
  | some s =>
    by_cases hn : nodes.length = 0
    · simp [Node.clear, hn, List.length_eq_zero.mp hn]
    · simp [Node.clear, hn]

theorem Node.WF.clear {n : Node} (h : n.WF) :
    n.clear.WF ∧ n.clear.Settled ∧ n.SameCfg n.clear := by
  cases h with
  | mk b d md mc ch st nodes hmc hshape hcfg hrec =>
    rw [Node.clear_mk]
    refine ⟨Node.WF.mk _ _ _ _ _ _ _ hmc (Or.inl rfl) (by simp) (by simp),
      Node.Settled.mk _ _ _ _ _ _ _ (by simp) (by cases st <;> simp) (by simp), ?_⟩
    refine ⟨rfl, rfl, rfl, rfl, ?_⟩
    cases st <;> rfl

theorem insertLoop_spec (fuel : Nat) (items : List Item) (root : Node)
    (hwf : root.WF) (hfuel : 2 * root._maxDepth + 1 ≤ fuel) :
    ∃ r1, insertLoop fuel items root = .ok r1 ∧ r1.WF ∧ root.SameCfg r1 ∧
      (root.Settled → r1.Settled) := by
  induction items generalizing root with
  | nil => exact ⟨root, rfl, hwf, Node.SameCfg.refl _, fun h => h⟩
  | cons i rest ih =>
    have hneed : root.need ≤ fuel := by
      have := Node.need_le root
      omega
    obtain ⟨r1, h1, p1⟩ := Node.insert_spec fuel root i hwf hneed
    obtain ⟨_, _, c3, _, _⟩ := p1.cfg
    obtain ⟨r2, h2, wf2, cfg2, set2⟩ := ih r1 p1.wf (by rw [c3]; exact hfuel)
    exact ⟨r2, by simp [insertLoop, h1, h2], wf2, p1.cfg.trans cfg2,
      fun h => set2 (p1.settled h)⟩

theorem QuadTree.run_spec (fuel : Nat) (ops : List Op) (t : QuadTree)
    (hwf : t.root.WF) (hs : t.root.Settled) (hfuel : t.enoughFuel ≤ fuel) :
    ∃ t1, t.run fuel ops = .ok t1 ∧ t1.root.WF ∧ t1.root.Settled ∧ t.root.SameCfg t1.root := by
  induction ops generalizing t with
  | nil => exact ⟨t, rfl, hwf, hs, Node.SameCfg.refl _⟩
  | cons op rest ih =>
    cases op with
    | clear =>
      obtain ⟨w1, s1, c1⟩ := hwf.clear
      obtain ⟨t1, h1, w2, s2, c2⟩ := ih t.clear w1 s1
        (by simp only [QuadTree.enoughFuel, QuadTree.clear, c1.2.2.1]; exact hfuel)
      exact ⟨t1, by simpa [QuadTree.run] using h1, w2, s2, c1.trans c2⟩
    | insert arg =>
      have hstep : ∃ r1, t.insert fuel arg = .ok ⟨r1⟩ ∧ r1.WF ∧ r1.Settled ∧
          t.root.SameCfg r1 := by
        cases arg with
        | item i =>
          have hneed : t.root.need ≤ fuel := by
            have := Node.need_le t.root
            simp only [QuadTree.enoughFuel] at hfuel
            omega
          obtain ⟨r1, h1, p1⟩ := Node.insert_spec fuel t.root i hwf hneed
          exact ⟨r1, by simp [QuadTree.insert, h1], p1.wf, p1.settled hs, p1.cfg⟩
        | array items =>
          obtain ⟨r1, h1, w1, c1, s1⟩ := insertLoop_spec fuel items t.root hwf hfuel
          exact ⟨r1, by simp [QuadTree.insert, h1], w1, s1 hs, c1⟩
      obtain ⟨r1, h1, w1, s1, c1⟩ := hstep
      obtain ⟨t1, h2, w2, s2, c2⟩ := ih ⟨r1⟩ w1 s1
        (by simp only [QuadTree.enoughFuel, c1.2.2.1]; exact hfuel)
      exact ⟨t1, by simp [QuadTree.run, h1, h2], w2, s2, c1.trans c2⟩

theorem Node.WF.allNodes_wf {n : Node} (hwf : n.WF) : ∀ m ∈ n.allNodes, m.WF :=
  Node.WF.forall_allNodes (fun m => m.WF) (fun _ _ hpx c hc => hpx.nodes_wf c hc) hwf hwf

/-- C20.  In every tree reached from a constructed tree by inserts (of items or
arrays) and clears, every node has no or exactly four quadrants; every
quadrant is one level deeper than its parent and has its cap, threshold and
class; every internal node has an empty direct list and every leaf an empty
straddling list. -/
theorem wellformed_preserved (bounds : Bounds) (pointQuad : Bool) (maxDepth maxChildren : Nat)
    (ops : List Op) (fuel : Nat)
    (hfuel : (QuadTree.new bounds pointQuad maxDepth maxChildren).enoughFuel ≤ fuel) :
    ∃ t, (QuadTree.new bounds pointQuad maxDepth maxChildren).run fuel ops = .ok t ∧
      ∀ m ∈ t.root.allNodes,
        (m.nodes.length = 0 ∨ m.nodes.length = 4) ∧
        (∀ c ∈ m.nodes, c._depth = m._depth + 1 ∧ c._maxDepth = m._maxDepth ∧
          c._maxChildren = m._maxChildren ∧ c.isBoundsNode = m.isBoundsNode) ∧
        (m.nodes ≠ [] → m.children = []) ∧
        (m.nodes = [] → m.stuckList = []) := by
  obtain ⟨t, ht, wf, hs, _⟩ := QuadTree.run_spec fuel ops
    (QuadTree.new bounds pointQuad maxDepth maxChildren) (QuadTree.new_wf _ _ _ _)
    (QuadTree.new_settled _ _ _ _) hfuel
  refine ⟨t, ht, fun m hm => ?_⟩
  have hmwf := wf.allNodes_wf m hm
  have hms := wf.allNodes_settled hs m hm
  refine ⟨?_, hmwf.quadrant_cfg, ?_, ?_⟩
  · by_cases hn : m.nodes = []
    · exact Or.inl (by rw [hn]; rfl)
    · exact Or.inr (hmwf.shape hn).1
  · cases hms with
    | mk _ _ _ _ _ _ _ hint _ _ => exact hint
  · cases hms with
    | mk _ _ _ _ _ _ _ _ hleaf _ => exact hleaf

/-- C20, at an instance: inserts, a clear and an array insert on a `BoundsNode`
tree with threshold 1. -/
theorem wellformed_preserved_witness :
    ∃ t, (QuadTree.new ⟨0, 0, 100, 100⟩ false 4 1).run 9
        [.insert (.item ⟨10, 10, 5, 5, 0⟩), .insert (.item ⟨60, 60, 5, 5, 1⟩), .clear,
          .insert (.array [⟨40, 40, 20, 20, 2⟩, ⟨1, 1, 1, 1, 3⟩])] = .ok t ∧
      ∀ m ∈ t.root.allNodes,
        (m.nodes.length = 0 ∨ m.nodes.length = 4) ∧
        (∀ c ∈ m.nodes, c._depth = m._depth + 1 ∧ c._maxDepth = m._maxDepth ∧
          c._maxChildren = m._maxChildren ∧ c.isBoundsNode = m.isBoundsNode) ∧
        (m.nodes ≠ [] → m.children = []) ∧
        (m.nodes = [] → m.stuckList = []) :=
  wellformed_preserved ⟨0, 0, 100, 100⟩ false 4 1
    [.insert (.item ⟨10, 10, 5, 5, 0⟩), .insert (.item ⟨60, 60, 5, 5, 1⟩), .clear,
      .insert (.array [⟨40, 40, 20, 20, 2⟩, ⟨1, 1, 1, 1, 3⟩])] 9 (by decide)

/-! ### The tree a sequence of inserts builds -/

theorem Node._findIndex_eq_indexIn (n : Node) (item : Item) :
    n._findIndex item = indexIn n._bounds item := by
  cases n with
  | mk b d md mc ch st nodes => rfl

theorem Node.holds_eq_fitsIn (n : Node) (item : Item) : n.holds item = fitsIn n._bounds item :=
  rfl

theorem indexIn_cases (b : Bounds) (item : Item) :
    indexIn b item = 0 ∨ indexIn b item = 1 ∨ indexIn b item = 2 ∨ indexIn b item = 3 := by
  have := Node._findIndex_lt (Node.mk b 0 0 0 [] none []) item
  unfold indexIn
  omega

theorem layout_bounds (cls : Bool) (md mc k : Nat) (b : Bounds) (d : Nat) (items : List Item) :
    (layout cls md mc k b d items)._bounds = b := by
  cases k with
  | zero => rfl
  | succ k =>
    simp only [layout]
    split_ifs <;> rfl

theorem layout_nil (cls : Bool) (md mc k : Nat) (b : Bounds) (d : Nat) :
    layout cls md mc k b d [] = .mk b d md mc [] (stuckOf cls []) [] := by
  cases k with
  | zero => rfl
  | succ k => simp [layout]

theorem layout_succ_internal (cls : Bool) (md mc k : Nat) (b : Bounds) (d : Nat)
    (items : List Item) (h : mc < items.length) :
    layout cls md mc (k + 1) b d items = layoutInternal cls md mc k b d [] items := by
  simp only [layout, layoutInternal]
  rw [if_neg (by omega)]

theorem layout_leaf (cls : Bool) (md mc k : Nat) (b : Bounds) (d : Nat)
    (items : List Item) (h : k = 0 ∨ items.length ≤ mc) :
    layout cls md mc k b d items = .mk b d md mc items (stuckOf cls []) [] := by
  cases k with
  | zero => rfl
  | succ k =>
    rcases h with h | h
    · omega
    · simp only [layout]
      rw [if_pos h]

theorem filter_snoc (p : Item → Bool) (ys : List Item) (z : Item) :
    (ys ++ [z]).filter p = ys.filter p ++ (if p z then [z] else []) := by
  rw [List.filter_append]
  by_cases h : p z <;> simp [h]

theorem goesTo_of_index (cls : Bool) (b : Bounds) (j : Nat) (z : Item) (hj : indexIn b z = j)
    (hfit : cls = false ∨ fitsIn (quadrantRect b j) z = true) :
    ∀ j1, goesTo cls b j1 z = decide (j = j1) := by
  intro j1
  unfold goesTo
  rw [hj]
  by_cases h : j = j1
  · subst h
    rcases hfit with h1 | h1 <;> simp [h1]
  · simp [h]

theorem goesTo_of_not_fit (b : Bounds) (z : Item)
    (hfit : fitsIn (quadrantRect b (indexIn b z)) z = false) :
    ∀ j1, goesTo true b j1 z = false := by
  intro j1
  unfold goesTo
  by_cases h : indexIn b z = j1
  · subst h
    simp [hfit]
  · simp [h]

/-- One insert into the internal node of a layout hands the item on. -/
theorem insert_layoutInternal (cls : Bool) (md mc k : Nat) (b : Bounds) (d : Nat)
    (ch ys : List Item) (z : Item) (f : Nat)
    (ih : ∀ (b1 : Bounds) (items1 : List Item) (x1 : Item),
      (layout cls md mc k b1 (d + 1) items1).insert f x1 =
        .ok (layout cls md mc k b1 (d + 1) (items1 ++ [x1]))) :
    (layoutInternal cls md mc k b d ch ys).insert (f + 1) z =
      .ok (layoutInternal cls md mc k b d ch (ys ++ [z])) := by
  have hidx : (layoutInternal cls md mc k b d ch ys)._findIndex z = indexIn b z :=
    Node._findIndex_eq_indexIn _ _
  cases cls with
  | false =>
    rw [Node.insert_internal_point f (layoutInternal false md mc k b d ch ys) z rfl
      (by simp [layoutInternal]), hidx]
    have hg := goesTo_of_index false b (indexIn b z) z rfl (Or.inl rfl)
    simp only [layoutInternal, filter_snoc, hg]
    rcases indexIn_cases b z with hj | hj | hj | hj <;>
      simp [hj, ih, stuckOf]
  | true =>
    rw [Node.insert_internal_bounds f (layoutInternal true md mc k b d ch ys) z
      (ys.filter (sticks b)) rfl (by simp [layoutInternal]), hidx]
    by_cases hfit : fitsIn (quadrantRect b (indexIn b z)) z = true
    · have hg := goesTo_of_index true b (indexIn b z) z rfl (Or.inr hfit)
      have hs : sticks b z = false := by simp [sticks, hfit]
      simp only [layoutInternal, filter_snoc, hg, hs]
      rcases indexIn_cases b z with hj | hj | hj | hj <;>
        · rw [hj] at hfit
          simp [hj, ih, stuckOf, Node.holds_eq_fitsIn, layout_bounds, hfit]
    · have hfit1 : fitsIn (quadrantRect b (indexIn b z)) z = false := by simpa using hfit
      have hg := goesTo_of_not_fit b z hfit1
      have hs : sticks b z = true := by simp [sticks, hfit1]
      simp only [layoutInternal, filter_snoc, hg, hs]
      rcases indexIn_cases b z with hj | hj | hj | hj <;>
        · rw [hj] at hfit1
          simp [hj, stuckOf, Node.holds_eq_fitsIn, layout_bounds, hfit1]

theorem reinsertLoop_layoutInternal (cls : Bool) (md mc k : Nat) (b : Bounds) (d : Nat)
    (ch : List Item) (f : Nat)
    (ih : ∀ (b1 : Bounds) (items1 : List Item) (x1 : Item),
      (layout cls md mc k b1 (d + 1) items1).insert f x1 =
        .ok (layout cls md mc k b1 (d + 1) (items1 ++ [x1])))
    (zs ys : List Item) :
    reinsertLoop (Node.insert (f + 1)) zs (layoutInternal cls md mc k b d ch ys) =
      .ok (layoutInternal cls md mc k b d ch (ys ++ zs)) := by
  induction zs generalizing ys with
  | nil => simp [reinsertLoop]
  | cons z rest ihl =>
    simp only [reinsertLoop, insert_layoutInternal cls md mc k b d ch ys z f ih,
      Outcome.bind_ok]
    rw [ihl (ys ++ [z])]
    simp

theorem subdivide_eq_layoutInternal (cls : Bool) (md mc k : Nat) (b : Bounds) (d : Nat)
    (ch : List Item) (hmd : md ≠ 0) (hmc : mc ≠ 0) :
    (Node.mk b d md mc ch (stuckOf cls []) []).subdivide =
      layoutInternal cls md mc k b d ch [] := by
  rw [Node.subdivide_leaf b d md mc ch (stuckOf cls []) hmd hmc]
  cases cls <;>
    simp [layoutInternal, layout_nil, freshQuadrant, stuckOf, quadrantRect]

/-- The tree that holds `items` takes one more item as the tree that holds
`items ++ [x]`. -/
theorem insert_layout (cls : Bool) (md mc : Nat) (hmc : mc ≠ 0) :
    ∀ (k : Nat) (b : Bounds) (d : Nat) (items : List Item) (x : Item) (fuel : Nat),
      md - d = k → 2 * k + 1 ≤ fuel →
      (layout cls md mc k b d items).insert fuel x =
        .ok (layout cls md mc k b d (items ++ [x])) := by
  intro k
  induction k with
  | zero =>
    intro b d items x fuel hk hfuel
    obtain ⟨f, rfl⟩ : ∃ f, fuel = f + 1 := ⟨fuel - 1, by omega⟩
    rw [layout_leaf cls md mc 0 b d items (Or.inl rfl),
      layout_leaf cls md mc 0 b d (items ++ [x]) (Or.inl rfl),
      Node.insert_leaf f (Node.mk b d md mc items (stuckOf cls []) []) x rfl]
    simp only [Node._depth_mk, Node._maxDepth_mk, Node.children_mk, Node.setChildren_mk]
    rw [if_neg (by omega)]
  | succ k ih =>
    intro b d items x fuel hk hfuel
    obtain ⟨f, rfl⟩ : ∃ f, fuel = f + 1 + 1 := ⟨fuel - 2, by omega⟩
    have ih1 : ∀ (b1 : Bounds) (items1 : List Item) (x1 : Item),
        (layout cls md mc k b1 (d + 1) items1).insert f x1 =
          .ok (layout cls md mc k b1 (d + 1) (items1 ++ [x1])) :=
      fun b1 items1 x1 => ih b1 (d + 1) items1 x1 f (by omega) (by omega)
    have ih2 : ∀ (b1 : Bounds) (items1 : List Item) (x1 : Item),
        (layout cls md mc k b1 (d + 1) items1).insert (f + 1) x1 =
          .ok (layout cls md mc k b1 (d + 1) (items1 ++ [x1])) :=
      fun b1 items1 x1 => ih b1 (d + 1) items1 x1 (f + 1) (by omega) (by omega)
    by_cases hlen : mc < items.length
    · rw [layout_succ_internal cls md mc k b d items hlen,
        layout_succ_internal cls md mc k b d (items ++ [x]) (by simp; omega)]
      exact insert_layoutInternal cls md mc k b d [] items x (f + 1) ih2
    · rw [layout_leaf cls md mc (k + 1) b d items (Or.inr (by omega)),
        Node.insert_leaf (f + 1) (Node.mk b d md mc items (stuckOf cls []) []) x rfl]
      simp only [Node._depth_mk, Node._maxDepth_mk, Node._maxChildren_mk, Node.children_mk,
        Node.setChildren_mk]
      by_cases h2 : mc < items.length + 1
      · rw [if_pos ⟨by omega, h2⟩,
          subdivide_eq_layoutInternal cls md mc k b d (items ++ [x]) (by omega) hmc,
          reinsertLoop_layoutInternal cls md mc k b d (items ++ [x]) f ih1 (items ++ [x]) [],
          layout_succ_internal cls md mc k b d (items ++ [x]) (by simp; omega)]
        simp [layoutInternal]
      · rw [if_neg (by omega),
          layout_leaf cls md mc (k + 1) b d (items ++ [x]) (Or.inr (by simp; omega))]

theorem insertEach_layout (cls : Bool) (md mc : Nat) (hmc : mc ≠ 0) (b : Bounds) (fuel : Nat)
    (hfuel : 2 * md + 1 ≤ fuel) (items ys : List Item) :
    QuadTree.insertEach fuel items ⟨layout cls md mc md b 0 ys⟩ =
      .ok ⟨layout cls md mc md b 0 (ys ++ items)⟩ := by
  induction items generalizing ys with
  | nil => simp [QuadTree.insertEach]
  | cons i rest ih =>
    simp only [QuadTree.insertEach, QuadTree.insert,
      insert_layout cls md mc hmc md b 0 ys i fuel (by omega) hfuel, Outcome.bind_ok]
    rw [ih (ys ++ [i])]
    simp

/-- The tree a sequence of inserts builds from a fresh tree is the layout of
the inserted items. -/
theorem QuadTree.insertEach_new (bounds : Bounds) (pointQuad : Bool)
    (maxDepth maxChildren : Nat) (items : List Item) (fuel : Nat)
    (hfuel : (QuadTree.new bounds pointQuad maxDepth maxChildren).enoughFuel ≤ fuel) :
    (QuadTree.new bounds pointQuad maxDepth maxChildren).insertEach fuel items =
      .ok ⟨layout (!pointQuad) (if maxDepth ≠ 0 then maxDepth else 4)
        (if maxChildren ≠ 0 then maxChildren else 4)
        (if maxDepth ≠ 0 then maxDepth else 4) bounds 0 items⟩ := by
  have hroot : QuadTree.new bounds pointQuad maxDepth maxChildren =
      ⟨layout (!pointQuad) (if maxDepth ≠ 0 then maxDepth else 4)
        (if maxChildren ≠ 0 then maxChildren else 4)
        (if maxDepth ≠ 0 then maxDepth else 4) bounds 0 []⟩ := by
    rw [layout_nil]
    cases pointQuad <;> simp [QuadTree.new, Node.new, BoundsNode.new, stuckOf]
  have hf : 2 * (if maxDepth ≠ 0 then maxDepth else 4) + 1 ≤ fuel := by
    simpa [QuadTree.enoughFuel, QuadTree.new_root] using hfuel
  rw [hroot, insertEach_layout _ _ _ (by split_ifs <;> omega) bounds fuel hf items []]
  simp

theorem insert_array_eq_insertEach (fuel : Nat) (items : List Item) (t : QuadTree) :
    t.insert fuel (.array items) = t.insertEach fuel items := by
  induction items generalizing t with
  | nil => rfl
  | cons i rest ih =>
    simp only [QuadTree.insert, insertLoop, QuadTree.insertEach]
    cases h : t.root.insert fuel i with
    | ok r =>
      simp only [Outcome.bind_ok]
      rw [← ih ⟨r⟩]
      rfl
    | typeError => rfl
    | outOfFuel => rfl

/-! ### Order of insertion -/

theorem Node.collidesWith_mk (b : Bounds) (d md mc : Nat) (ch : List Item)
    (st : Option (List Item)) (nodes : List Node) (q : Bounds) :
    (Node.mk b d md mc ch st nodes).collidesWith q = QuadTree._isBoundOverlappingBound b q :=
  rfl

theorem retrieveInBounds_leaf (b : Bounds) (d md mc : Nat) (ch : List Item)
    (st : Option (List Item)) (q : Bounds) :
    (Node.mk b d md mc ch st []).retrieveInBounds q =
      if QuadTree._isBoundOverlappingBound b q then concatValue st ++ ch.map some else [] := by
  simp only [Node.retrieveInBounds, Node.collidesWith_mk, List.nil_append]
  by_cases h0 : ch = []
  · subst h0; simp
  · simp [h0]

theorem retrieveInBounds_layoutInternal (cls : Bool) (md mc k : Nat) (b : Bounds) (d : Nat)
    (ys : List Item) (q : Bounds) :
    (layoutInternal cls md mc k b d [] ys).retrieveInBounds q =
      if QuadTree._isBoundOverlappingBound b q then
        concatValue (stuckOf cls (ys.filter (sticks b))) ++
          ((layout cls md mc k (quadrantRect b 0) (d + 1)
              (ys.filter (goesTo cls b 0))).retrieveInBounds q ++
            ((layout cls md mc k (quadrantRect b 1) (d + 1)
                (ys.filter (goesTo cls b 1))).retrieveInBounds q ++
              ((layout cls md mc k (quadrantRect b 2) (d + 1)
                  (ys.filter (goesTo cls b 2))).retrieveInBounds q ++
                (layout cls md mc k (quadrantRect b 3) (d + 1)
                  (ys.filter (goesTo cls b 3))).retrieveInBounds q)))
      else [] := by
  simp [layoutInternal, Node.retrieveInBounds, Node.collidesWith_mk, retrieveInBoundsLoop]

theorem retrieveInBounds_layout_perm (cls : Bool) (md mc : Nat) (q : Bounds) :
    ∀ (k : Nat) (b : Bounds) (d : Nat) (items items1 : List Item), items.Perm items1 →
      List.Perm ((layout cls md mc k b d items).retrieveInBounds q)
        ((layout cls md mc k b d items1).retrieveInBounds q) := by
  intro k
  induction k with
  | zero =>
    intro b d items items1 hp
    rw [layout_leaf cls md mc 0 b d items (Or.inl rfl),
      layout_leaf cls md mc 0 b d items1 (Or.inl rfl), retrieveInBounds_leaf,
      retrieveInBounds_leaf]
    split_ifs
    · exact List.Perm.append_left _ (hp.map _)
    · exact List.Perm.refl _
  | succ k ih =>
    intro b d items items1 hp
    have hlen := hp.length_eq
    by_cases hle : items.length ≤ mc
    · rw [layout_leaf cls md mc (k + 1) b d items (Or.inr hle),
        layout_leaf cls md mc (k + 1) b d items1 (Or.inr (by omega)), retrieveInBounds_leaf,
        retrieveInBounds_leaf]
      split_ifs
      · exact List.Perm.append_left _ (hp.map _)
      · exact List.Perm.refl _
    · rw [layout_succ_internal cls md mc k b d items (by omega),
        layout_succ_internal cls md mc k b d items1 (by omega),
        retrieveInBounds_layoutInternal, retrieveInBounds_layoutInternal]
      split_ifs
      · refine List.Perm.append ?_ ?_
        · cases cls
          · exact List.Perm.refl _
          · simp only [stuckOf, ↓reduceIte, concatValue]
            exact (hp.filter _).map _
        · exact ((ih _ _ _ _ (hp.filter _)).append
            ((ih _ _ _ _ (hp.filter _)).append
              ((ih _ _ _ _ (hp.filter _)).append (ih _ _ _ _ (hp.filter _)))))
      · exact List.Perm.refl _

theorem filterLoop_eq (test : Item → Bounds → Bool) (l : List (Option Item)) (q : Bounds) :
    filterLoop test l q =
      if none ∈ l then .typeError
      else .ok ((l.filterMap id).filter (fun i => test i q)) := by
  induction l with
  | nil => simp [filterLoop]
  | cons v rest ih =>
    cases v with
    | none => simp [filterLoop]
    | some j =>
      simp only [filterLoop, ih]
      by_cases h : none ∈ rest
      · simp [h, Outcome.bind]
      · by_cases ht : test j q = true <;> simp [h, ht, List.filter_cons]

theorem filterLoop_perm (test : Item → Bounds → Bool) (l l1 : List (Option Item)) (q : Bounds)
    (hp : l.Perm l1) :
    Outcome.SameUpToOrder (filterLoop test l q) (filterLoop test l1 q) := by
  rw [filterLoop_eq, filterLoop_eq]
  by_cases h : none ∈ l
  · rw [if_pos h, if_pos (hp.mem_iff.mp h)]
    trivial
  · rw [if_neg h, if_neg (fun h1 => h (hp.mem_iff.mpr h1))]
    exact (hp.filterMap _).filter _

/-- Two sequences of inserts of the same items in different orders, into fresh
trees of the same configuration and class, give window queries that end the
same way; on a `BoundsNode` tree both return, and the lists returned are
permutations of each other.  Inserting an array gives the tree that inserting
its elements one by one, in order, gives. -/
theorem insertion_order_independent (bounds : Bounds) (pointQuad : Bool)
    (maxDepth maxChildren : Nat) (items items1 : List Item) (q : Bounds) (fuel : Nat)
    (hperm : items.Perm items1)
    (hfuel : (QuadTree.new bounds pointQuad maxDepth maxChildren).enoughFuel ≤ fuel) :
    ∃ t t1,
      (QuadTree.new bounds pointQuad maxDepth maxChildren).insertEach fuel items = .ok t ∧
      (QuadTree.new bounds pointQuad maxDepth maxChildren).insertEach fuel items1 = .ok t1 ∧
      Outcome.SameUpToOrder (t.retrieveInBounds q) (t1.retrieveInBounds q) ∧
      (pointQuad = false → ∃ r r1, t.retrieveInBounds q = .ok r ∧
        t1.retrieveInBounds q = .ok r1 ∧ r.Perm r1) ∧
      (QuadTree.new bounds pointQuad maxDepth maxChildren).insert fuel (.array items) = .ok t := by
  have h1 := QuadTree.insertEach_new bounds pointQuad maxDepth maxChildren items fuel hfuel
  have h2 := QuadTree.insertEach_new bounds pointQuad maxDepth maxChildren items1 fuel hfuel
  have hsame : Outcome.SameUpToOrder
      (QuadTree.retrieveInBounds ⟨layout (!pointQuad) (if maxDepth ≠ 0 then maxDepth else 4)
        (if maxChildren ≠ 0 then maxChildren else 4)
        (if maxDepth ≠ 0 then maxDepth else 4) bounds 0 items⟩ q)
      (QuadTree.retrieveInBounds ⟨layout (!pointQuad) (if maxDepth ≠ 0 then maxDepth else 4)
        (if maxChildren ≠ 0 then maxChildren else 4)
        (if maxDepth ≠ 0 then maxDepth else 4) bounds 0 items1⟩ q) := by
    simp only [QuadTree.retrieveInBounds, QuadTree._filterResults, Bool.false_eq_true,
      ↓reduceIte]
    exact filterLoop_perm _ _ _ q (retrieveInBounds_layout_perm _ _ _ q _ _ _ _ _ hperm)
  refine ⟨_, _, h1, h2, hsame, ?_, by rw [insert_array_eq_insertEach]; exact h1⟩
  intro hp
  subst hp
  obtain ⟨t, ht, wf, cfg, _, _⟩ := QuadTree.insertEach_spec fuel items
    (QuadTree.new bounds false maxDepth maxChildren) (QuadTree.new_wf _ _ _ _) hfuel
  obtain ⟨t1, ht1, wf1, cfg1, _, _⟩ := QuadTree.insertEach_spec fuel items1
    (QuadTree.new bounds false maxDepth maxChildren) (QuadTree.new_wf _ _ _ _) hfuel
  rw [h1] at ht
  rw [h2] at ht1
  simp only [Outcome.ok.injEq] at ht ht1
  have hb : t.root.isBoundsNode = true := by
    rw [cfg.2.2.2.2, QuadTree.new_root]; rfl
  have hb1 : t1.root.isBoundsNode = true := by
    rw [cfg1.2.2.2.2, QuadTree.new_root]; rfl
  obtain ⟨r, hr, _⟩ := filterLoop_ok QuadTree._isPointInsideBounds
    (t.root.retrieveInBounds q) q
    (fun v hv => (wf.retrieveInBounds_stored hb q v hv).imp fun _ h => h.1)
  obtain ⟨r1, hr1, _⟩ := filterLoop_ok QuadTree._isPointInsideBounds
    (t1.root.retrieveInBounds q) q
    (fun v hv => (wf1.retrieveInBounds_stored hb1 q v hv).imp fun _ h => h.1)
  have e : t.retrieveInBounds q = .ok r := by
    simpa [QuadTree.retrieveInBounds, QuadTree._filterResults] using hr
  have e1 : t1.retrieveInBounds q = .ok r1 := by
    simpa [QuadTree.retrieveInBounds, QuadTree._filterResults] using hr1
  rw [ht, ht1]
  refine ⟨r, r1, e, e1, ?_⟩
  rw [ht, ht1, e, e1] at hsame
  exact hsame

/-- Insertion order at an instance: three items and a rotation of them,
`BoundsNode` tree with threshold 1. -/
theorem insertion_order_independent_witness :
    ∃ t t1,
      (QuadTree.new ⟨0, 0, 100, 100⟩ false 4 1).insertEach 9
        [⟨10, 10, 5, 5, 0⟩, ⟨60, 60, 5, 5, 1⟩, ⟨40, 40, 20, 20, 2⟩] = .ok t ∧
      (QuadTree.new ⟨0, 0, 100, 100⟩ false 4 1).insertEach 9
        [⟨60, 60, 5, 5, 1⟩, ⟨40, 40, 20, 20, 2⟩, ⟨10, 10, 5, 5, 0⟩] = .ok t1 ∧
      Outcome.SameUpToOrder (t.retrieveInBounds ⟨0, 0, 70, 70⟩)
        (t1.retrieveInBounds ⟨0, 0, 70, 70⟩) ∧
      (false = false → ∃ r r1, t.retrieveInBounds ⟨0, 0, 70, 70⟩ = .ok r ∧
        t1.retrieveInBounds ⟨0, 0, 70, 70⟩ = .ok r1 ∧ r.Perm r1) ∧
      (QuadTree.new ⟨0, 0, 100, 100⟩ false 4 1).insert 9
        (.array [⟨10, 10, 5, 5, 0⟩, ⟨60, 60, 5, 5, 1⟩, ⟨40, 40, 20, 20, 2⟩]) = .ok t :=
  insertion_order_independent ⟨0, 0, 100, 100⟩ false 4 1
    [⟨10, 10, 5, 5, 0⟩, ⟨60, 60, 5, 5, 1⟩, ⟨40, 40, 20, 20, 2⟩]
    [⟨60, 60, 5, 5, 1⟩, ⟨40, 40, 20, 20, 2⟩, ⟨10, 10, 5, 5, 0⟩] ⟨0, 0, 70, 70⟩ 9
    (by decide) (by decide)

/-- C16 (defect of the code).  On a point tree the window queries after two
insertion orders do not give lists that are permutations of each other, as
they give no list: over `{0, 0, 100, 100}` with threshold 2, the points
`(10, 10)`, `(20, 20)`, `(80, 80)` inserted in this order and in the order
`(80, 80)`, `(10, 10)`, `(20, 20)` both build a tree, and on either tree the
query with the window `{0, 0, 50, 50}` ends in a `TypeError`. -/
theorem insertion_order_point_raises :
    ∃ t t1,
      (QuadTree.new ⟨0, 0, 100, 100⟩ true 4 2).insertEach 9
        [⟨10, 10, 0, 0, 0⟩, ⟨20, 20, 0, 0, 1⟩, ⟨80, 80, 0, 0, 2⟩] = .ok t ∧
      (QuadTree.new ⟨0, 0, 100, 100⟩ true 4 2).insertEach 9
        [⟨80, 80, 0, 0, 2⟩, ⟨10, 10, 0, 0, 0⟩, ⟨20, 20, 0, 0, 1⟩] = .ok t1 ∧
      List.Perm [(⟨10, 10, 0, 0, 0⟩ : Item), ⟨20, 20, 0, 0, 1⟩, ⟨80, 80, 0, 0, 2⟩]
        [⟨80, 80, 0, 0, 2⟩, ⟨10, 10, 0, 0, 0⟩, ⟨20, 20, 0, 0, 1⟩] ∧
      t.retrieveInBounds ⟨0, 0, 50, 50⟩ = .typeError ∧
      t1.retrieveInBounds ⟨0, 0, 50, 50⟩ = .typeError :=
  ⟨_, _, rfl, rfl, by decide, by decide, by decide⟩

/-! ### Completeness of the collection step -/

theorem overlap_of_fits (b q : Bounds) (i : Item) (hfit : fitsIn b i = true)
    (hov : QuadTree._isBoundOverlappingBound i.toBounds q = true) :
    QuadTree._isBoundOverlappingBound b q = true := by
  simp only [fitsIn, Bool.and_eq_true, decide_eq_true_eq] at hfit
  simp only [QuadTree._isBoundOverlappingBound, Item.toBounds, Bool.not_eq_true',
    Bool.or_eq_false_iff, decide_eq_false_iff_not] at hov ⊢
  omega

theorem mem_retrieveInBounds_quadrant (cls : Bool) (md mc k : Nat) (b : Bounds) (d : Nat)
    (ys : List Item) (q : Bounds) (j : Nat) (hj : j < 4)
    (hov : QuadTree._isBoundOverlappingBound b q = true) (v : Option Item)
    (hv : v ∈ (layout cls md mc k (quadrantRect b j) (d + 1)
      (ys.filter (goesTo cls b j))).retrieveInBounds q) :
    v ∈ (layoutInternal cls md mc k b d [] ys).retrieveInBounds q := by
  rw [retrieveInBounds_layoutInternal, if_pos hov]
  have h4 : j = 0 ∨ j = 1 ∨ j = 2 ∨ j = 3 := by omega
  rcases h4 with h | h | h | h <;> subst h <;> simp [hv]

/-- The collection step on a `BoundsNode` layout finds every item that passes
the overlap test against the window, when the items pass the containment
test against the bounds of the root. -/
theorem layout_collects (md mc : Nat) (q : Bounds) :
    ∀ (k : Nat) (b : Bounds) (d : Nat) (items : List Item),
      (∀ i ∈ items, fitsIn b i = true) →
      ∀ i ∈ items, QuadTree._isBoundOverlappingBound i.toBounds q = true →
        some i ∈ (layout true md mc k b d items).retrieveInBounds q := by
  intro k
  induction k with
  | zero =>
    intro b d items hfit i hi hov
    rw [layout_leaf true md mc 0 b d items (Or.inl rfl), retrieveInBounds_leaf,
      if_pos (overlap_of_fits b q i (hfit i hi) hov)]
    simp [hi]
  | succ k ih =>
    intro b d items hfit i hi hov
    have hb := overlap_of_fits b q i (hfit i hi) hov
    by_cases hle : items.length ≤ mc
    · rw [layout_leaf true md mc (k + 1) b d items (Or.inr hle), retrieveInBounds_leaf,
        if_pos hb]
      simp [hi]
    · rw [layout_succ_internal true md mc k b d items (by omega)]
      by_cases hs : sticks b i = true
      · rw [retrieveInBounds_layoutInternal, if_pos hb]
        simp [stuckOf, concatValue, hi, hs]
      · have hfi : fitsIn (quadrantRect b (indexIn b i)) i = true := by
          simpa [sticks] using hs
        have hj : indexIn b i < 4 := by
          rcases indexIn_cases b i with h | h | h | h <;> omega
        refine mem_retrieveInBounds_quadrant true md mc k b d items q (indexIn b i) hj hb _
          (ih _ _ _ ?_ i ?_ hov)
        · intro z hz
          have := (List.mem_filter.mp hz).2
          simp only [goesTo, Bool.not_true, Bool.false_or, Bool.and_eq_true,
            decide_eq_true_eq] at this
          exact this.2
        · exact List.mem_filter.mpr ⟨hi, by simp [goesTo, hfi]⟩

theorem mem_quadrants_layoutInternal (cls : Bool) (md mc k : Nat) (b : Bounds) (d : Nat)
    (ch ys : List Item) (c : Node) (hc : c ∈ (layoutInternal cls md mc k b d ch ys).nodes) :
    ∃ j, j < 4 ∧
      c = layout cls md mc k (quadrantRect b j) (d + 1) (ys.filter (goesTo cls b j)) := by
  simp only [layoutInternal, Node.nodes_mk, List.mem_cons, List.mem_singleton,
    List.not_mem_nil, or_false] at hc
  rcases hc with h | h | h | h
  · exact ⟨0, by omega, h⟩
  · exact ⟨1, by omega, h⟩
  · exact ⟨2, by omega, h⟩
  · exact ⟨3, by omega, h⟩

/-- On a `BoundsNode` tree built by inserting items that pass the containment
test against the bounds of the root, the collection step
`root.retrieveInBounds(q)` contains every inserted item whose rectangle
passes the overlap test against the window. -/
theorem collection_complete (bounds : Bounds) (maxDepth maxChildren : Nat)
    (items : List Item) (q : Bounds) (fuel : Nat)
    (hfuel : (QuadTree.new bounds false maxDepth maxChildren).enoughFuel ≤ fuel)
    (hin : ∀ i ∈ items, fitsIn bounds i = true) :
    ∃ t, (QuadTree.new bounds false maxDepth maxChildren).insertEach fuel items = .ok t ∧
      ∀ i ∈ items, QuadTree._isBoundOverlappingBound i.toBounds q = true →
        some i ∈ t.root.retrieveInBounds q :=
  ⟨_, QuadTree.insertEach_new bounds false maxDepth maxChildren items fuel hfuel,
    layout_collects _ _ q _ bounds 0 items hin⟩

/-- C19 (defect of the code).  A straddling item is not collected by every
query that overlaps a quadrant of its node.  The items `{0, 0, 1, 1}` and
`{1, 1, 1, 1}` have non-negative width and height and lie inside the root
bounds `{0, 0, 2^32 + 2, 100}`; inserted with threshold 1 they end in the
straddling list of the root, whose quadrants get the wrapped width
`-(2^31 - 1)` from the conversion `| 0`.  The window
`{-(2^32 - 2), 0, 2^31 - 1, 10}` passes the overlap test of the collection
step against the top-right quadrant, and the collection step, which stops at
the root, returns nothing. -/
theorem collection_wrapped_quadrant :
    ∃ t, (QuadTree.new ⟨0, 0, 4294967298, 100⟩ false 4 1).insertEach 9
        [⟨0, 0, 1, 1, 0⟩, ⟨1, 1, 1, 1, 1⟩] = .ok t ∧
      (∀ i ∈ [(⟨0, 0, 1, 1, 0⟩ : Item), ⟨1, 1, 1, 1, 1⟩],
        0 ≤ i.width ∧ 0 ≤ i.height ∧ fitsIn ⟨0, 0, 4294967298, 100⟩ i = true) ∧
      t.root.stuckList = [⟨0, 0, 1, 1, 0⟩, ⟨1, 1, 1, 1, 1⟩] ∧
      t.root.nodes.map Node._bounds =
        [⟨0, 0, -2147483647, 50⟩, ⟨-2147483647, 0, -2147483647, 50⟩,
          ⟨0, 50, -2147483647, 50⟩, ⟨-2147483647, 50, -2147483647, 50⟩] ∧
      (∃ c, t.root.nodes[1]? = some c ∧
        c.collidesWith ⟨-4294967294, 0, 2147483647, 10⟩ = true) ∧
      QuadTree._isBoundOverlappingBound ⟨-2147483647, 0, -2147483647, 50⟩
        ⟨-4294967294, 0, 2147483647, 10⟩ = true ∧
      t.root.retrieveInBounds ⟨-4294967294, 0, 2147483647, 10⟩ = [] :=
  ⟨_, rfl, by decide, by decide, by decide, ⟨_, rfl, by decide⟩, by decide, by decide⟩

/-! ### Termination of `insert` -/

theorem reinsertLoop_fuel_succ (f : Nat)
    (ih : ∀ (n : Node) (item : Item) (r : Node), n.insert f item = .ok r →
      n.insert (f + 1) item = .ok r)
    (items : List Item) (n r : Node)
    (h : reinsertLoop (Node.insert f) items n = .ok r) :
    reinsertLoop (Node.insert (f + 1)) items n = .ok r := by
  induction items generalizing n with
  | nil => exact h
  | cons i rest ihl =>
    simp only [reinsertLoop] at h ⊢
    cases h1 : n.insert f i with
    | ok n1 =>
      rw [h1] at h
      rw [ih n i n1 h1]
      exact ihl n1 h
    | typeError => rw [h1] at h; simp [Outcome.bind] at h
    | outOfFuel => rw [h1] at h; simp [Outcome.bind] at h

/-- A call that returns with some fuel returns the same node with more fuel. -/
theorem Node.insert_fuel_succ : ∀ (f : Nat) (n : Node) (item : Item) (r : Node),
    n.insert f item = .ok r → n.insert (f + 1) item = .ok r := by
  intro f
  induction f with
  | zero =>
    intro n item r h
    simp [Node.insert] at h
  | succ f ih =>
    intro n item r h
    by_cases hn : n.nodes = []
    · rw [Node.insert_leaf f n item hn] at h
      rw [Node.insert_leaf (f + 1) n item hn]
      split_ifs at h ⊢ with hc
      · cases h1 : reinsertLoop (Node.insert f) (n.children ++ [item])
            (n.setChildren (n.children ++ [item])).subdivide with
        | ok n3 =>
          rw [h1] at h
          rw [reinsertLoop_fuel_succ f ih _ _ n3 h1]
          exact h
        | typeError => rw [h1] at h; simp [Outcome.bind] at h
        | outOfFuel => rw [h1] at h; simp [Outcome.bind] at h
      · exact h
    · cases hst : n._stuckChildren with
      | none =>
        rw [Node.insert_internal_point f n item hst hn] at h
        rw [Node.insert_internal_point (f + 1) n item hst hn]
        cases hq : n.nodes[n._findIndex item]? with
        | none => rw [hq] at h; simp at h
        | some child =>
          rw [hq] at h
          simp only at h ⊢
          cases h1 : child.insert f item with
          | ok c1 =>
            rw [h1] at h
            rw [ih child item c1 h1]
            exact h
          | typeError => rw [h1] at h; simp [Outcome.bind] at h
          | outOfFuel => rw [h1] at h; simp [Outcome.bind] at h
      | some stuck =>
        rw [Node.insert_internal_bounds f n item stuck hst hn] at h
        rw [Node.insert_internal_bounds (f + 1) n item stuck hst hn]
        cases hq : n.nodes[n._findIndex item]? with
        | none => rw [hq] at h; simp at h
        | some child =>
          rw [hq] at h
          simp only at h ⊢
          split_ifs at h ⊢ with hh
          · cases h1 : child.insert f item with
            | ok c1 =>
              rw [h1] at h
              rw [ih child item c1 h1]
              exact h
            | typeError => rw [h1] at h; simp [Outcome.bind] at h
            | outOfFuel => rw [h1] at h; simp [Outcome.bind] at h
          · exact h

theorem Node.insert_fuel_le (f f1 : Nat) (hle : f ≤ f1) (n : Node) (item : Item) (r : Node)
    (h : n.insert f item = .ok r) : n.insert f1 item = .ok r := by
  induction f1 with
  | zero =>
    have : f = 0 := by omega
    subst this
    exact h
  | succ g ih =>
    by_cases he : f = g + 1
    · subst he; exact h
    · exact Node.insert_fuel_succ g n item r (ih (by omega))

theorem insertLoop_total (fuel : Nat) (items : List Item) (n : Node)
    (hwf : n.WF) (hfuel : 2 * (n._maxDepth - n._depth) + 1 ≤ fuel) :
    ∃ n2, insertLoop fuel items n = .ok n2 ∧ n2.WF ∧ n.SameCfg n2 := by
  induction items generalizing n with
  | nil => exact ⟨n, rfl, hwf, Node.SameCfg.refl _⟩
  | cons i rest ih =>
    have hneed : n.need ≤ fuel := by
      have := Node.need_le n
      omega
    obtain ⟨n1, h1, p1⟩ := Node.insert_spec fuel n i hwf hneed
    obtain ⟨_, c2, c3, _, _⟩ := p1.cfg
    obtain ⟨n2, h2, wf2, cfg2⟩ := ih n1 p1.wf (by rw [c2, c3]; exact hfuel)
    exact ⟨n2, by simp [insertLoop, h1, h2], wf2, p1.cfg.trans cfg2⟩

/-- C21.  `insert` terminates on every well-formed tree of either class and for
every item: a call nesting of `2 * (maxDepth - depth) + 1` is never exceeded,
the call returns a well-formed tree, and more fuel gives the same tree.  So
does any sequence of inserts, whatever the items (identical ones included).
Every tree reached from a constructed tree by inserts and clears is
well-formed, so `insert` terminates on it. -/
theorem insert_total (n : Node) (item : Item) (items : List Item) (fuel : Nat)
    (bounds : Bounds) (pointQuad : Bool) (maxDepth maxChildren : Nat) (ops : List Op)
    (hwf : n.WF) (hfuel : 2 * (n._maxDepth - n._depth) + 1 ≤ fuel)
    (hfuel1 : (QuadTree.new bounds pointQuad maxDepth maxChildren).enoughFuel ≤ fuel) :
    (∃ n1, n.insert fuel item = .ok n1 ∧ n1.WF ∧
      ∀ fuel1, fuel ≤ fuel1 → n.insert fuel1 item = .ok n1) ∧
    (∃ n2, insertLoop fuel items n = .ok n2 ∧ n2.WF) ∧
    (∃ t n3, (QuadTree.new bounds pointQuad maxDepth maxChildren).run fuel ops = .ok t ∧
      t.root.WF ∧ t.root.insert fuel item = .ok n3) := by
  have hneed : n.need ≤ fuel := by
    have := Node.need_le n
    omega
  obtain ⟨n1, h1, p1⟩ := Node.insert_spec fuel n item hwf hneed
  obtain ⟨n2, h2, wf2, _⟩ := insertLoop_total fuel items n hwf hfuel
  obtain ⟨t, ht, wft, _, cfgt⟩ := QuadTree.run_spec fuel ops
    (QuadTree.new bounds pointQuad maxDepth maxChildren) (QuadTree.new_wf _ _ _ _)
    (QuadTree.new_settled _ _ _ _) hfuel1
  have hneedt : t.root.need ≤ fuel := by
    have := Node.need_le t.root
    simp only [QuadTree.enoughFuel] at hfuel1
    have hmd := cfgt.2.2.1
    omega
  obtain ⟨n3, h3, _⟩ := Node.insert_spec fuel t.root item wft hneedt
  exact ⟨⟨n1, h1, p1.wf, fun fuel1 hle => Node.insert_fuel_le fuel fuel1 hle n item n1 h1⟩,
    ⟨n2, h2, wf2⟩, ⟨t, n3, ht, wft, h3⟩⟩

/-- C21, at an instance: six identical points into a fresh point tree with cap 4
and threshold 1, which subdivides down to the cap. -/
theorem insert_total_witness :
    (∃ n1, (QuadTree.new ⟨0, 0, 100, 100⟩ true 4 1).root.insert 9 ⟨10, 10, 0, 0, 0⟩ = .ok n1 ∧
      n1.WF ∧
      ∀ fuel1, 9 ≤ fuel1 →
        (QuadTree.new ⟨0, 0, 100, 100⟩ true 4 1).root.insert fuel1 ⟨10, 10, 0, 0, 0⟩ = .ok n1) ∧
    (∃ n2, insertLoop 9 (List.replicate 6 ⟨10, 10, 0, 0, 0⟩)
        (QuadTree.new ⟨0, 0, 100, 100⟩ true 4 1).root = .ok n2 ∧ n2.WF) ∧
    (∃ t n3, (QuadTree.new ⟨0, 0, 100, 100⟩ true 4 1).run 9
        [.insert (.array (List.replicate 6 ⟨10, 10, 0, 0, 0⟩)), .clear,
          .insert (.item ⟨10, 10, 0, 0, 1⟩)] = .ok t ∧
      t.root.WF ∧ t.root.insert 9 ⟨10, 10, 0, 0, 0⟩ = .ok n3) :=
  insert_total (QuadTree.new ⟨0, 0, 100, 100⟩ true 4 1).root ⟨10, 10, 0, 0, 0⟩
    (List.replicate 6 ⟨10, 10, 0, 0, 0⟩) 9 ⟨0, 0, 100, 100⟩ true 4 1
    [.insert (.array (List.replicate 6 ⟨10, 10, 0, 0, 0⟩)), .clear,
      .insert (.item ⟨10, 10, 0, 0, 1⟩)]
    (QuadTree.new_wf _ _ _ _) (by decide) (by decide)

/-! ### Containment in a `BoundsNode` tree -/

/-- In a `BoundsNode` layout whose items pass the containment test against the
bounds of its root, every node holds only items that pass the test against
its own bounds. -/
theorem layout_contains (md mc : Nat) :
    ∀ (k : Nat) (b : Bounds) (d : Nat) (items : List Item),
      (∀ i ∈ items, fitsIn b i = true) →
      ∀ m ∈ (layout true md mc k b d items).allNodes, ∀ i ∈ m.ownItems,
        fitsIn m._bounds i = true := by
  intro k
  induction k with
  | zero =>
    intro b d items hfit m hm i hi
    rw [layout_leaf true md mc 0 b d items (Or.inl rfl), Node.mem_allNodes_mk] at hm
    rcases hm with h | ⟨c1, hc1, _⟩
    · subst h
      simp only [Node.ownItems, Node.stuckList, Node.children_mk, Node._stuckChildren_mk,
        stuckOf, ↓reduceIte, Option.getD_some, List.append_nil] at hi
      exact hfit i hi
    · simp at hc1
  | succ k ih =>
    intro b d items hfit m hm i hi
    by_cases hle : items.length ≤ mc
    · rw [layout_leaf true md mc (k + 1) b d items (Or.inr hle), Node.mem_allNodes_mk] at hm
      rcases hm with h | ⟨c1, hc1, _⟩
      · subst h
        simp only [Node.ownItems, Node.stuckList, Node.children_mk, Node._stuckChildren_mk,
          stuckOf, ↓reduceIte, Option.getD_some, List.append_nil] at hi
        exact hfit i hi
      · simp at hc1
    · rw [layout_succ_internal true md mc k b d items (by omega)] at hm
      have hm1 : m = layoutInternal true md mc k b d [] items ∨
          ∃ c1 ∈ (layoutInternal true md mc k b d [] items).nodes, m ∈ c1.allNodes := by
        simpa [layoutInternal, Node.mem_allNodes_mk] using hm
      rcases hm1 with h | ⟨c1, hc1, hmc1⟩
      · subst h
        simp only [layoutInternal, Node.ownItems, Node.stuckList, Node.children_mk,
          Node._stuckChildren_mk, stuckOf, ↓reduceIte, Option.getD_some, List.nil_append,
          Node._bounds_mk] at hi ⊢
        exact hfit i (List.mem_filter.mp hi).1
      · obtain ⟨j, _, rfl⟩ := mem_quadrants_layoutInternal true md mc k b d [] items c1 hc1
        refine ih (quadrantRect b j) (d + 1) (items.filter (goesTo true b j)) ?_ m hmc1 i hi
        intro x hx
        have := (List.mem_filter.mp hx).2
        simp only [goesTo, Bool.not_true, Bool.false_or, Bool.and_eq_true,
          decide_eq_true_eq] at this
        exact this.2

/-- Every node below the root of a `BoundsNode` layout holds only items that
pass the containment test against its own bounds, wherever the items lie. -/
theorem layout_contains_below (md mc : Nat) (k : Nat) (b : Bounds) (d : Nat)
    (items : List Item) :
    ∀ m ∈ allNodesLoop (layout true md mc k b d items).nodes, ∀ i ∈ m.ownItems,
      fitsIn m._bounds i = true := by
  intro m hm i hi
  cases k with
  | zero =>
    rw [layout_leaf true md mc 0 b d items (Or.inl rfl)] at hm
    simp [allNodesLoop] at hm
  | succ k =>
    by_cases hle : items.length ≤ mc
    · rw [layout_leaf true md mc (k + 1) b d items (Or.inr hle)] at hm
      simp [allNodesLoop] at hm
    · rw [layout_succ_internal true md mc k b d items (by omega), allNodesLoop_eq_flatMap,
        List.mem_flatMap] at hm
      obtain ⟨c1, hc1, hmc1⟩ := hm
      obtain ⟨j, _, rfl⟩ := mem_quadrants_layoutInternal true md mc k b d [] items c1 hc1
      refine layout_contains md mc k (quadrantRect b j) (d + 1)
        (items.filter (goesTo true b j)) ?_ m hmc1 i hi
      intro x hx
      have := (List.mem_filter.mp hx).2
      simp only [goesTo, Bool.not_true, Bool.false_or, Bool.and_eq_true,
        decide_eq_true_eq] at this
      exact this.2

theorem mem_allNodesLoop_of_getElem (ns : List Node) (j : Nat) (m : Node)
    (h : ns[j]? = some m) : m ∈ allNodesLoop ns := by
  rw [allNodesLoop_eq_flatMap, List.mem_flatMap]
  exact ⟨m, List.getElem?_mem h, Node.self_mem_allNodes m⟩

/-- C22, counterexample.  Over the root `{2^53, 0, 8, 8}` with threshold 1, the
inserts of `{2^53, 0, 5, 1}` and `{2^53, 1, 1, 1}` leave the first item in the
straddling list of the top-left quadrant `{2^53, 0, 4, 4}`, a node other than
the root.  The right edge `2^53 + 5` of the item lies beyond the right edge
`2^53 + 4` of that node: the containment test of `insert` compares the sums as
the number type holds them, and `2^53 + 5` is rounded to `2^53 + 4`. -/
theorem containment_rounds_right_edge :
    ∃ t m, (QuadTree.new ⟨9007199254740992, 0, 8, 8⟩ false 4 1).insertEach 9
        [⟨9007199254740992, 0, 5, 1, 0⟩, ⟨9007199254740992, 1, 1, 1, 1⟩] = .ok t ∧
      t.root.nodes[0]? = some m ∧
      m._bounds = ⟨9007199254740992, 0, 4, 4⟩ ∧
      m.children ++ m.stuckList = [⟨9007199254740992, 0, 5, 1, 0⟩] ∧
      ¬ ((9007199254740992 : Int) + 5 ≤ 9007199254740992 + 4) ∧
      ¬ (∀ m ∈ allNodesLoop t.root.nodes, ∀ i ∈ m.children ++ m.stuckList,
        i.x ≥ m._bounds.x ∧ i.x + i.width ≤ m._bounds.x + m._bounds.width ∧
        i.y ≥ m._bounds.y ∧ i.y + i.height ≤ m._bounds.y + m._bounds.height) := by
  refine ⟨_, _, rfl, rfl, by decide, by decide, by decide, ?_⟩
  intro h
  have h1 := h _ (mem_allNodesLoop_of_getElem _ 0 _ rfl) ⟨9007199254740992, 0, 5, 1, 0⟩
    (by decide)
  exact absurd h1.2.1 (by decide)

/-- C22, amended.  After any sequence of inserts into a fresh `BoundsNode`
tree, every item held in the direct list or the straddling list of a node
other than the root passes the containment test of `insert` against the
rectangle of that node, in which the sums are rounded as the number type
rounds them: `item.x ≥ node.x`,
`dbl (item.x + item.width) ≤ dbl (node.x + node.width)`, and likewise in `y`.
When the corner coordinates `x`, `y`, `x + width`, `y + height` of the item
and of the node have magnitude at most `2^53`, the rectangle of the item lies
inside the rectangle of the node: `item.x ≥ node.x`,
`item.x + item.width ≤ node.x + node.width`, and likewise in `y`. -/
theorem containment_invariant (bounds : Bounds) (maxDepth maxChildren : Nat)
    (items : List Item) (fuel : Nat)
    (hfuel : (QuadTree.new bounds false maxDepth maxChildren).enoughFuel ≤ fuel) :
    ∃ t, (QuadTree.new bounds false maxDepth maxChildren).insertEach fuel items = .ok t ∧
      ∀ m ∈ allNodesLoop t.root.nodes, ∀ i ∈ m.children ++ m.stuckList,
        (dbl i.x ≥ dbl m._bounds.x ∧
          dbl (i.x + i.width) ≤ dbl (m._bounds.x + m._bounds.width) ∧
          dbl i.y ≥ dbl m._bounds.y ∧
          dbl (i.y + i.height) ≤ dbl (m._bounds.y + m._bounds.height)) ∧
        (i.toBounds.exact → m._bounds.exact →
          i.x ≥ m._bounds.x ∧ i.x + i.width ≤ m._bounds.x + m._bounds.width ∧
          i.y ≥ m._bounds.y ∧ i.y + i.height ≤ m._bounds.y + m._bounds.height) := by
  refine ⟨_, QuadTree.insertEach_new bounds false maxDepth maxChildren items fuel hfuel, ?_⟩
  intro m hm i hi
  have h := layout_contains_below _ _ _ bounds 0 items m hm i hi
  simp only [fitsIn, Bool.and_eq_true, decide_eq_true_eq] at h
  refine ⟨⟨h.1.1.1, h.1.1.2, h.1.2, h.2⟩, ?_⟩
  rintro ⟨a1, a2, a3, a4⟩ ⟨c1, c2, c3, c4⟩
  simp only [Item.toBounds] at a1 a2 a3 a4
  rw [dbl_small _ a1.1 a1.2, dbl_small _ a2.1 a2.2, dbl_small _ a3.1 a3.2,
    dbl_small _ a4.1 a4.2, dbl_small _ c1.1 c1.2, dbl_small _ c2.1 c2.2,
    dbl_small _ c3.1 c3.2, dbl_small _ c4.1 c4.2] at h
  exact ⟨h.1.1.1, h.1.1.2, h.1.2, h.2⟩

/-- C22, at an instance: four items, one of them straddling inside a quadrant,
in a tree over `{0, 0, 100, 100}` with threshold 1. -/
theorem containment_invariant_witness :
    ∃ t, (QuadTree.new ⟨0, 0, 100, 100⟩ false 4 1).insertEach 9
        [⟨10, 10, 5, 5, 0⟩, ⟨30, 30, 5, 5, 1⟩, ⟨20, 20, 10, 10, 2⟩, ⟨40, 40, 20, 20, 3⟩]
        = .ok t ∧
      ∀ m ∈ allNodesLoop t.root.nodes, ∀ i ∈ m.children ++ m.stuckList,
        (dbl i.x ≥ dbl m._bounds.x ∧
          dbl (i.x + i.width) ≤ dbl (m._bounds.x + m._bounds.width) ∧
          dbl i.y ≥ dbl m._bounds.y ∧
          dbl (i.y + i.height) ≤ dbl (m._bounds.y + m._bounds.height)) ∧
        (i.toBounds.exact → m._bounds.exact →
          i.x ≥ m._bounds.x ∧ i.x + i.width ≤ m._bounds.x + m._bounds.width ∧
          i.y ≥ m._bounds.y ∧ i.y + i.height ≤ m._bounds.y + m._bounds.height) :=
  containment_invariant ⟨0, 0, 100, 100⟩ 4 1
    [⟨10, 10, 5, 5, 0⟩, ⟨30, 30, 5, 5, 1⟩, ⟨20, 20, 10, 10, 2⟩, ⟨40, 40, 20, 20, 3⟩] 9
    (by decide)

end MaskCanvas
